import Mathlib

/-!
# Pipeline cache simulator (`iplc-sim.c`): embedding and verified properties

The C program keeps a set-associative cache with recency-rank replacement and a
five-slot pipeline in global variables.  The embedding below makes the globals an
explicit record `Sim` that every operation takes and returns.

Conventions of the embedding
* `int` values are `Int`, `unsigned int`/`uint32_t` values are `Nat`; a conversion
  between integer types is written out (`toU32`, `toS32`, `toS8`, `toU64`), and
  unsigned arithmetic is reduced `% 2 ^ 32` where the C operation wraps.
* `int8_t` stores wrap into `[-128, 127]` (`toS8`).
* Signed overflow and a shift by a count outside `0 .. 31` are undefined in C.  The
  embedding gives them the two's complement value, so that every function is total;
  the theorems about initialisation state the argument ranges in which no such
  operation occurs.
* The three `long` cache counters are unbounded integers.
* `printf` output is not modelled.
* `exit(-1)` and a failed `assert` end the run: operations that can reach them
  return `Except Err _`.
* An array is a `List`; `a[i]` is `a.getD i 0`, `a[i] = v` is `a.set i v`.
* A `for (i = 0; i < n; i++)` loop that runs to completion is `forLoop n body`.
* A `char *` argument is the `String` of its bytes before the terminating NUL.
  `strcpy` into the member `char instruction[16]` of a slot is defined for a string of
  at most 15 bytes; a longer string runs over the array, which is undefined in C, and
  the operation returns `Err.bufferOverflow` instead of a state.
* A loop whose number of iterations depends on the state (`iplc_sim_finalize`, the loop
  of `iplc_sim_parse_instruction`) takes a `fuel` argument and returns `none` when the
  loop condition still holds after `fuel` iterations; the theorems give a fuel that is
  enough.
-/

namespace IplcSim

/-! ## Constants and integer conversions -/

def MAX_CACHE_SIZE : Nat := 10240

def CACHE_MISS_DELAY : Nat := 10

def MAX_STAGES : Nat := 5

/-- Conversion of an integer value to `unsigned int` / `uint32_t`. -/
def toU32 (x : Int) : Nat := (x % 2 ^ 32).toNat

/-- Conversion of an integer value to `unsigned long` (64 bits, LP64). -/
def toU64 (x : Int) : Nat := (x % 2 ^ 64).toNat

/-- Conversion of an integer value to `int` (two's complement, 32 bits). -/
def toS32 (x : Int) : Int := (x + 2 ^ 31) % 2 ^ 32 - 2 ^ 31

/-- Conversion of an integer value to `int8_t`, the type behind `byte`. -/
def toS8 (x : Int) : Int := (x + 128) % 256 - 128

/-- The `int` expression `x << n` (value `x * 2 ^ n` kept to 32 bits). -/
def shl32 (x n : Int) : Int := toS32 (x * 2 ^ n.toNat)

/-- Integer form of `(int) rint(log2((double) n))` for `n ≥ 1`: the nearest integer `k`
to `log2 n` is the least `k` with `n < 2 ^ (k + 1/2)`, that is `n * n < 2 ^ (2 * k + 1)`
(no integer sits on a rounding boundary, because `2 ^ (k + 1/2)` is irrational; for
`n < 2 ^ 22` the distance of `log2 n` to a boundary is above `2 ^ (-46)`, more than the
error of `log2` in `double`, so that rounding the computed value gives the same `k`).
For `n ≤ 0` the C expression converts `-inf`/`NaN` to `int`; the value `-2 ^ 31`
is the one x86-64 produces. -/
def rint_log2 (n : Int) : Int :=
  if n ≤ 0 then -2 ^ 31
  else (((List.range 32).find? (fun k => n.toNat * n.toNat < 2 ^ (2 * k + 1))).getD 32 : Nat)

/-- A `for (i = 0; i < n; i++) body` loop without early exit. -/
def forLoop {σ : Type} (n : Nat) (body : Nat → σ → σ) (s : σ) : σ :=
  (List.range n).foldl (fun acc i => body i acc) s

/-- The ways an operation ends without a state: the two ways the program stops early,
and the write past the end of an array. -/
inductive Err where
  /-- Value `exit(-1)` in `iplc_sim_init`: the cache is too big. -/
  | cacheTooBig
  /-- Value `assert(0)` in `cache_line_select_replace`: no way can be replaced. -/
  | assertFailed
  /-- Value `strcpy` of a string of 16 bytes or more into `char instruction[16]`. -/
  | bufferOverflow
  deriving DecidableEq, Repr

/-! ## Data model -/

/-- One cache set: three parallel arrays of `cache_assoc` entries. -/
structure cache_line_t where
  valid : List Int
  tag : List Int
  last_accessed : List Int
  deriving DecidableEq, Repr, Inhabited

inductive instruction_type where
  | NOP | RTYPE | LW | SW | BRANCH | JUMP | JAL | SYSCALL
  deriving DecidableEq, Repr, Inhabited

/-- The member `instruction` is `char instruction[16]`: it holds a string of at most 15
bytes and its NUL. -/
structure rtype_t where
  instruction : String
  reg1 : Int
  reg2_or_constant : Int
  dest_reg : Int
  deriving DecidableEq, Repr

structure lw_t where
  data_address : Nat
  dest_reg : Int
  base_reg : Int
  deriving DecidableEq, Repr

structure sw_t where
  data_address : Nat
  src_reg : Int
  base_reg : Int
  deriving DecidableEq, Repr

structure branch_t where
  reg1 : Int
  reg2 : Int
  deriving DecidableEq, Repr

/-- The member `instruction` is `char instruction[16]`, as in `rtype_t`. -/
structure jump_t where
  instruction : String
  deriving DecidableEq, Repr

/-- The union `stage` of a pipeline slot.  `zero` is the union after `memset` to 0;
the other constructors are the union after the members of one alternative have been
written on top of a zeroed slot, which is the only way the program writes it. -/
inductive stage_t where
  | zero
  | rtype (v : rtype_t)
  | lw (v : lw_t)
  | sw (v : sw_t)
  | branch (v : branch_t)
  | jump (v : jump_t)
  deriving DecidableEq, Repr

/-- Read of `stage.rtype`.  The program reads an alternative only under the `itype`
it was written with; on a zeroed union every member reads as 0. -/
def stage_t.get_rtype : stage_t → rtype_t
  | .rtype v => v
  | _ => ⟨"", 0, 0, 0⟩

/-- Read of `stage.lw`. -/
def stage_t.get_lw : stage_t → lw_t
  | .lw v => v
  | _ => ⟨0, 0, 0⟩

/-- Read of `stage.sw`. -/
def stage_t.get_sw : stage_t → sw_t
  | .sw v => v
  | _ => ⟨0, 0, 0⟩

/-- Read of `stage.branch`. -/
def stage_t.get_branch : stage_t → branch_t
  | .branch v => v
  | _ => ⟨0, 0⟩

structure pipeline_t where
  itype : instruction_type
  instruction_address : Nat
  stage : stage_t
  deriving DecidableEq, Repr

/-- A slot after `memset(&slot, NOP, sizeof(pipeline_t))`. -/
def pipeline_t.zeroed : pipeline_t := ⟨.NOP, 0, .zero⟩

/-- The array `pipeline[MAX_STAGES]`, one field per `enum pipeline_stages` index. -/
structure pipeline_array where
  FETCH : pipeline_t
  DECODE : pipeline_t
  ALU : pipeline_t
  MEM : pipeline_t
  WRITEBACK : pipeline_t
  deriving DecidableEq, Repr

/-- The global variables of the simulator that the cache and pipeline functions read or
write (the text buffers of the trace parser are left out). -/
structure Sim where
  cache : List cache_line_t
  cache_index : Int
  cache_blocksize : Int
  cache_blockoffsetbits : Int
  cache_assoc : Int
  cache_miss : Int
  cache_access : Int
  cache_hit : Int
  instruction_address : Nat
  pipeline_cycles : Nat
  instruction_count : Nat
  branch_predict_taken : Nat
  branch_count : Nat
  correct_branch_predictions : Nat
  pipeline : pipeline_array
  deriving DecidableEq, Repr

/-- The globals at program start (static storage is zero-initialised). -/
def Sim.start : Sim :=
  { cache := [], cache_index := 0, cache_blocksize := 0, cache_blockoffsetbits := 0,
    cache_assoc := 0, cache_miss := 0, cache_access := 0, cache_hit := 0,
    instruction_address := 0, pipeline_cycles := 0, instruction_count := 0,
    branch_predict_taken := 0, branch_count := 0, correct_branch_predictions := 0,
    pipeline := ⟨.zeroed, .zeroed, .zeroed, .zeroed, .zeroed⟩ }

/-! ## Cache functions -/

/-- Search of a set for a valid way holding `tag`: `some i` is the slot, `none` is the
C return value `-1`. -/
def cache_line_assoc_handler (cache_assoc : Int) (line : cache_line_t) (tag : Int) :
    Option Nat :=
  (List.range cache_assoc.toNat).find?
    (fun i => line.tag.getD i 0 == tag && line.valid.getD i 0 != 0)

/-- Search of a set for the first way that is free or has rank 0; running off the end
of the loop reaches `assert(0)`. -/
def cache_line_select_replace (cache_assoc : Int) (line : cache_line_t) : Except Err Nat :=
  match (List.range cache_assoc.toNat).find?
      (fun i => line.last_accessed.getD i 0 == 0 || line.valid.getD i 0 == 0) with
  | some i => .ok i
  | none => .error .assertFailed

/-- The cache size computed by `iplc_sim_init`, in `unsigned long` arithmetic. -/
def cache_size_of (index blocksize assoc blockoffsetbits : Int) : Nat :=
  (toU64 assoc * toU64 (shl32 1 index) % 2 ^ 64
    * toU64 (toS32 (toS32 (toS32 (toS32 (32 * blocksize) + 33) - index) - blockoffsetbits)))
    % 2 ^ 64

/-- A set as allocated and cleared by the two nested loops of `iplc_sim_init`. -/
def cache_line_t.fresh (cache_assoc : Int) : cache_line_t :=
  { valid := List.replicate cache_assoc.toNat 0,
    tag := List.replicate cache_assoc.toNat 0,
    last_accessed := List.replicate cache_assoc.toNat 0 }

def iplc_sim_init (s : Sim) (index blocksize assoc : Int) : Except Err Sim :=
  let cache_blockoffsetbits := rint_log2 (toS32 (blocksize * 4))
  let cache_size := cache_size_of index blocksize assoc cache_blockoffsetbits
  if cache_size > MAX_CACHE_SIZE then .error .cacheTooBig
  else .ok { s with
    cache_index := index,
    cache_blocksize := blocksize,
    cache_assoc := assoc,
    cache_blockoffsetbits := cache_blockoffsetbits,
    cache := List.replicate (shl32 1 index).toNat (cache_line_t.fresh assoc),
    pipeline := ⟨.zeroed, .zeroed, .zeroed, .zeroed, .zeroed⟩ }

/-- The body of `iplc_sim_LRU_replace_on_miss` on the set `cache[index]`, once the way
`lru` has been selected. -/
def cache_line_t.replace_on_miss (cache_assoc : Int) (line : cache_line_t) (lru : Nat)
    (tag : Int) : cache_line_t :=
  let line := { line with last_accessed := line.last_accessed.set lru (toS8 cache_assoc) }
  let line := { line with tag := line.tag.set lru tag }
  let line := { line with valid := line.valid.set lru 1 }
  forLoop cache_assoc.toNat
    (fun i l => { l with
      last_accessed := l.last_accessed.set i (toS8 (l.last_accessed.getD i 0 - 1)) })
    line

def iplc_sim_LRU_replace_on_miss (s : Sim) (index tag : Int) : Except Err Sim :=
  let line := s.cache.getD index.toNat default
  match cache_line_select_replace s.cache_assoc line with
  | .error e => .error e
  | .ok lru =>
    .ok { s with
      cache := s.cache.set index.toNat (line.replace_on_miss s.cache_assoc lru tag) }

/-- The body of `iplc_sim_LRU_update_on_hit` on the set `cache[index]`. -/
def cache_line_t.update_on_hit (cache_assoc : Int) (line : cache_line_t)
    (assoc_entry : Nat) : cache_line_t :=
  let hit_access := line.last_accessed.getD assoc_entry 0
  let line :=
    { line with last_accessed := line.last_accessed.set assoc_entry (toS8 cache_assoc) }
  forLoop cache_assoc.toNat
    (fun i l =>
      if l.last_accessed.getD i 0 > hit_access then
        { l with last_accessed := l.last_accessed.set i (toS8 (l.last_accessed.getD i 0 - 1)) }
      else l)
    line

def iplc_sim_LRU_update_on_hit (s : Sim) (index : Int) (assoc_entry : Nat) : Sim :=
  let line := s.cache.getD index.toNat default
  { s with cache := s.cache.set index.toNat (line.update_on_hit s.cache_assoc assoc_entry) }

/-- Bits `idx_start .. idx_end` of `address`.  The mask `(2 << idx_end) - 1` is computed
in `int` and converted to `uint32_t`. -/
def get_index (address idx_start idx_end : Nat) : Nat :=
  let bitMask := toU32 (toS32 (shl32 2 idx_end - 1))
  (address &&& bitMask) >>> idx_start

/-- The set index computed at the start of `iplc_sim_trap_address`. -/
def trap_index (s : Sim) (address : Nat) : Int :=
  toS32 (get_index address (toU32 s.cache_blockoffsetbits)
    (toU32 (toS32 (toS32 (s.cache_index + s.cache_blockoffsetbits) - 1))))

/-- The tag computed at the start of `iplc_sim_trap_address`. -/
def trap_tag (s : Sim) (address : Nat) : Int :=
  toS32 (get_index address (toU32 (toS32 (s.cache_index + s.cache_blockoffsetbits))) 31)

/-- Cache lookup: returns 1 for a hit and 0 for a miss, together with the new state. -/
def iplc_sim_trap_address (s : Sim) (address : Nat) : Except Err (Int × Sim) :=
  let index := trap_index s address
  let tag := trap_tag s address
  let assoc_entry := cache_line_assoc_handler s.cache_assoc (s.cache.getD index.toNat default) tag
  let s := { s with cache_access := s.cache_access + 1 }
  match assoc_entry with
  | some e =>
    let s := { s with cache_hit := s.cache_hit + 1 }
    .ok (1, iplc_sim_LRU_update_on_hit s index e)
  | none =>
    let s := { s with cache_miss := s.cache_miss + 1 }
    match iplc_sim_LRU_replace_on_miss s index tag with
    | .error e => .error e
    | .ok s => .ok (0, s)

/-- Every set has a way that `cache_line_select_replace` can return, so that its
`assert(0)` is not reached by a lookup in this state. -/
def Sim.has_victims (s : Sim) : Prop :=
  ∀ idx : Nat, ∃ i, cache_line_select_replace s.cache_assoc (s.cache.getD idx default) = .ok i

/-! ## Pipeline functions -/

/-- Unsigned 32-bit `x++` / `x += n`. -/
def add32 (x n : Nat) : Nat := (x + n) % 2 ^ 32

/-- Step 1 of `iplc_sim_push_pipeline_stage`: count the WRITEBACK stage as retired. -/
def push_step1 (s : Sim) : Sim :=
  if s.pipeline.WRITEBACK.instruction_address ≠ 0 then
    { s with instruction_count := add32 s.instruction_count 1 }
  else s

/-- Step 2 of `iplc_sim_push_pipeline_stage`: branch in DECODE, prediction check and the
penalty shift on a wrong prediction. -/
def push_step2 (s : Sim) : Sim :=
  if s.pipeline.DECODE.itype = .BRANCH then
    let s := { s with branch_count := add32 s.branch_count 1 }
    let branch_taken : Nat :=
      if add32 s.pipeline.DECODE.instruction_address 4 = s.pipeline.FETCH.instruction_address
      then 0 else 1
    if s.pipeline.FETCH.instruction_address ≠ 0 then
      if branch_taken = s.branch_predict_taken then
        { s with correct_branch_predictions := add32 s.correct_branch_predictions 1 }
      else
        let s := { s with pipeline_cycles := add32 s.pipeline_cycles 1 }
        let s := { s with pipeline := { s.pipeline with WRITEBACK := s.pipeline.MEM } }
        let s := { s with pipeline := { s.pipeline with MEM := s.pipeline.ALU } }
        let s := { s with pipeline := { s.pipeline with ALU := s.pipeline.DECODE } }
        let s :=
          if s.pipeline.WRITEBACK.instruction_address ≠ 0 then
            { s with instruction_count := add32 s.instruction_count 1 }
          else s
        { s with pipeline := { s.pipeline with DECODE := .zeroed } }
    else s
  else s

/-- The condition under which step 2 takes its penalty branch: DECODE holds a BRANCH,
the address in FETCH is nonzero, and the outcome (0 when the address in FETCH is the
address in DECODE plus 4, else 1) differs from `branch_predict_taken`. -/
def mispredicted (s : Sim) : Prop :=
  s.pipeline.DECODE.itype = .BRANCH ∧ s.pipeline.FETCH.instruction_address ≠ 0 ∧
  (if (s.pipeline.DECODE.instruction_address + 4) % 2 ^ 32
      = s.pipeline.FETCH.instruction_address then 0 else 1) ≠ s.branch_predict_taken

/-- The `switch (pipeline[ALU].itype)` of steps 3 and 4 (the same text in both): does
the instruction in ALU use `our_register`? -/
def data_hazard_of (alu : pipeline_t) (our_register : Int) : Bool :=
  match alu.itype with
  | .RTYPE =>
    alu.stage.get_rtype.reg1 == our_register ||
    alu.stage.get_rtype.reg2_or_constant == our_register ||
    alu.stage.get_rtype.dest_reg == our_register
  | .LW =>
    alu.stage.get_lw.dest_reg == our_register ||
    alu.stage.get_lw.base_reg == our_register
  | .SW =>
    alu.stage.get_sw.base_reg == our_register ||
    alu.stage.get_sw.src_reg == our_register
  | .BRANCH =>
    alu.stage.get_branch.reg1 == our_register ||
    alu.stage.get_branch.reg2 == our_register
  | .NOP => false
  | .JUMP => false
  | .JAL => false
  | .SYSCALL => false

/-- The part of steps 3 and 4 after `our_register` and the data address have been read
from MEM: cache lookup, then a stall on a hazard or the miss penalty. -/
def push_mem_access (s : Sim) (our_register : Int) (data_address : Nat) : Except Err Sim :=
  match iplc_sim_trap_address s data_address with
  | .error e => .error e
  | .ok (hit, s) =>
    if hit ≠ 0 then
      if data_hazard_of s.pipeline.ALU our_register then
        .ok { s with pipeline_cycles := add32 s.pipeline_cycles 1 }
      else .ok s
    else
      .ok { s with pipeline_cycles := add32 s.pipeline_cycles (CACHE_MISS_DELAY - 1) }

/-- Step 3 of `iplc_sim_push_pipeline_stage`: LW in MEM. -/
def push_step3 (s : Sim) : Except Err Sim :=
  if s.pipeline.MEM.itype = .LW then
    push_mem_access s s.pipeline.MEM.stage.get_lw.base_reg
      s.pipeline.MEM.stage.get_lw.data_address
  else .ok s

/-- Step 4 of `iplc_sim_push_pipeline_stage`: SW in MEM. -/
def push_step4 (s : Sim) : Except Err Sim :=
  if s.pipeline.MEM.itype = .SW then
    push_mem_access s s.pipeline.MEM.stage.get_sw.src_reg
      s.pipeline.MEM.stage.get_sw.data_address
  else .ok s

/-- Steps 5 to 7 of `iplc_sim_push_pipeline_stage`: one cycle, shift, clear FETCH. -/
def push_step567 (s : Sim) : Sim :=
  let s := { s with pipeline_cycles := add32 s.pipeline_cycles 1 }
  let s := { s with pipeline := { s.pipeline with WRITEBACK := s.pipeline.MEM } }
  let s := { s with pipeline := { s.pipeline with MEM := s.pipeline.ALU } }
  let s := { s with pipeline := { s.pipeline with ALU := s.pipeline.DECODE } }
  let s := { s with pipeline := { s.pipeline with DECODE := s.pipeline.FETCH } }
  { s with pipeline := { s.pipeline with FETCH := .zeroed } }

def iplc_sim_push_pipeline_stage (s : Sim) : Except Err Sim :=
  match push_step3 (push_step2 (push_step1 s)) with
  | .error e => .error e
  | .ok s =>
    match push_step4 s with
    | .error e => .error e
    | .ok s => .ok (push_step567 s)

/-- The writes to `pipeline[FETCH]` that follow the push in every
`iplc_sim_process_pipeline_*` function: `itype`, `instruction_address`, and the
members of the union when `stage` is given. -/
def write_fetch (s : Sim) (itype : instruction_type) (stage : Option stage_t) : Sim :=
  let f := s.pipeline.FETCH
  let f := { f with itype := itype }
  let f := { f with instruction_address := s.instruction_address }
  let f := match stage with
    | some st => { f with stage := st }
    | none => f
  { s with pipeline := { s.pipeline with FETCH := f } }

/-- The condition under which `strcpy(pipeline[FETCH].stage.rtype.instruction,
instruction)` (and the same copy into `stage.jump.instruction`) stays inside
`char instruction[16]`: the string has at most 15 bytes before its NUL. -/
def fits_instruction (instruction : String) : Bool := instruction.utf8ByteSize ≤ 15

/-- The `strcpy` is unchecked in the source: a string that does not fit is copied past
the end of the array, and the operation has no defined result. -/
def iplc_sim_process_pipeline_rtype (s : Sim) (instruction : String)
    (dest_reg reg1 reg2_or_constant : Int) : Except Err Sim :=
  match iplc_sim_push_pipeline_stage s with
  | .error e => .error e
  | .ok s =>
    if fits_instruction instruction then
      .ok (write_fetch s .RTYPE
        (some (.rtype ⟨instruction, reg1, reg2_or_constant, dest_reg⟩)))
    else .error .bufferOverflow

def iplc_sim_process_pipeline_lw (s : Sim) (dest_reg base_reg : Int) (data_address : Nat) :
    Except Err Sim :=
  match iplc_sim_push_pipeline_stage s with
  | .error e => .error e
  | .ok s => .ok (write_fetch s .LW (some (.lw ⟨data_address, dest_reg, base_reg⟩)))

def iplc_sim_process_pipeline_sw (s : Sim) (src_reg base_reg : Int) (data_address : Nat) :
    Except Err Sim :=
  match iplc_sim_push_pipeline_stage s with
  | .error e => .error e
  | .ok s => .ok (write_fetch s .SW (some (.sw ⟨data_address, src_reg, base_reg⟩)))

def iplc_sim_process_pipeline_branch (s : Sim) (reg1 reg2 : Int) : Except Err Sim :=
  match iplc_sim_push_pipeline_stage s with
  | .error e => .error e
  | .ok s => .ok (write_fetch s .BRANCH (some (.branch ⟨reg1, reg2⟩)))

/-- The `strcpy` is unchecked in the source, as in `iplc_sim_process_pipeline_rtype`. -/
def iplc_sim_process_pipeline_jump (s : Sim) (instruction : String) : Except Err Sim :=
  match iplc_sim_push_pipeline_stage s with
  | .error e => .error e
  | .ok s =>
    if fits_instruction instruction then
      .ok (write_fetch s .JUMP (some (.jump ⟨instruction⟩)))
    else .error .bufferOverflow

def iplc_sim_process_pipeline_syscall (s : Sim) : Except Err Sim :=
  match iplc_sim_push_pipeline_stage s with
  | .error e => .error e
  | .ok s => .ok (write_fetch s .SYSCALL none)

def iplc_sim_process_pipeline_nop (s : Sim) : Except Err Sim :=
  match iplc_sim_push_pipeline_stage s with
  | .error e => .error e
  | .ok s => .ok (write_fetch s .NOP none)

/-! ## `iplc_sim_finalize` and `iplc_sim_parse_instruction` -/

/-- The condition of the `while` loop of `iplc_sim_finalize`: some slot is not
NOP-typed. -/
def pipeline_busy (s : Sim) : Bool :=
  s.pipeline.FETCH.itype != .NOP ||
  s.pipeline.DECODE.itype != .NOP ||
  s.pipeline.ALU.itype != .NOP ||
  s.pipeline.MEM.itype != .NOP ||
  s.pipeline.WRITEBACK.itype != .NOP

/-- The `while` loop at the start of `iplc_sim_finalize` (the printing that follows is
not modelled), run for at most `fuel` iterations.  The result is the number of calls of
`iplc_sim_push_pipeline_stage` made and the state at the exit of the loop; it is `none`
when the loop condition still holds after `fuel` iterations. -/
def iplc_sim_finalize : Nat → Sim → Except Err (Option (Nat × Sim))
  | 0, s => if pipeline_busy s then .ok none else .ok (some (0, s))
  | fuel + 1, s =>
    if pipeline_busy s then
      match iplc_sim_push_pipeline_stage s with
      | .error e => .error e
      | .ok s1 =>
        match iplc_sim_finalize fuel s1 with
        | .error e => .error e
        | .ok none => .ok none
        | .ok (some (n, s2)) => .ok (some (n + 1, s2))
    else .ok (some (0, s))

/-- The kind and operands of an instruction: the arguments of a call of an
`iplc_sim_process_pipeline_*` function, which is what a line of the trace is decoded
to. -/
inductive insert_t where
  | rtype (instruction : String) (dest_reg reg1 reg2_or_constant : Int)
  | lw (dest_reg base_reg : Int) (data_address : Nat)
  | sw (src_reg base_reg : Int) (data_address : Nat)
  | branch (reg1 reg2 : Int)
  | jump (instruction : String)
  | syscall
  | nop
  deriving DecidableEq, Repr

/-- The mnemonic of an insert operation that copies one fits `char instruction[16]`. -/
def insert_t.fits : insert_t → Bool
  | .rtype instruction _ _ _ => fits_instruction instruction
  | .jump instruction => fits_instruction instruction
  | _ => true

/-- One insert operation: the call of the `iplc_sim_process_pipeline_*` function of the
instruction's kind. -/
def process_pipeline (s : Sim) : insert_t → Except Err Sim
  | .rtype instruction dest_reg reg1 reg2_or_constant =>
    iplc_sim_process_pipeline_rtype s instruction dest_reg reg1 reg2_or_constant
  | .lw dest_reg base_reg data_address =>
    iplc_sim_process_pipeline_lw s dest_reg base_reg data_address
  | .sw src_reg base_reg data_address =>
    iplc_sim_process_pipeline_sw s src_reg base_reg data_address
  | .branch reg1 reg2 => iplc_sim_process_pipeline_branch s reg1 reg2
  | .jump instruction => iplc_sim_process_pipeline_jump s instruction
  | .syscall => iplc_sim_process_pipeline_syscall s
  | .nop => iplc_sim_process_pipeline_nop s

/-- The loop `for (i = pipeline_cycles, j = pipeline_cycles; i < j + CACHE_MISS_DELAY - 1;
i++) iplc_sim_push_pipeline_stage();` of `iplc_sim_parse_instruction`, from the current
value of the `int` counter `i` and with the value `bound` of the `int` expression
`j + CACHE_MISS_DELAY - 1` (`j` never changes), run for at most `fuel` iterations; `none`
when the condition still holds after `fuel` iterations. -/
def fetch_miss_loop : Nat → Int → Int → Sim → Except Err (Option Sim)
  | 0, i, bound, s => if i < bound then .ok none else .ok (some s)
  | fuel + 1, i, bound, s =>
    if i < bound then
      match iplc_sim_push_pipeline_stage s with
      | .error e => .error e
      | .ok s1 => fetch_miss_loop fuel (toS32 (i + 1)) bound s1
    else .ok (some s)

/-- The calls that the chain of `strncmp` tests at the end of
`iplc_sim_parse_instruction` makes for a decoded line: the function of the line's kind;
for a `lw` line the source calls `iplc_sim_process_pipeline_lw` twice in a row with the
same arguments. -/
def parse_dispatch (s : Sim) : insert_t → Except Err Sim
  | .lw dest_reg base_reg data_address =>
    match iplc_sim_process_pipeline_lw s dest_reg base_reg data_address with
    | .error e => .error e
    | .ok s => iplc_sim_process_pipeline_lw s dest_reg base_reg data_address
  | insn => process_pipeline s insn

/-- The function `iplc_sim_parse_instruction` on a decoded line: `address` is the value
that `sscanf` stores in `instruction_address`, `insn` the kind and operands that the
line is decoded to.  The `sscanf` conversions themselves are not modelled: a decoded
line is one whose tokens fit the 16-byte buffers they are read into.
The loop after an instruction-fetch miss runs for at most `fuel` iterations. -/
def iplc_sim_parse_instruction (fuel : Nat) (s : Sim) (address : Nat) (insn : insert_t) :
    Except Err (Option Sim) :=
  let s := { s with instruction_address := address }
  match iplc_sim_trap_address s s.instruction_address with
  | .error e => .error e
  | .ok (instruction_hit, s) =>
    let advanced :=
      if instruction_hit = 0 then
        let i := toS32 s.pipeline_cycles
        let j := toS32 s.pipeline_cycles
        fetch_miss_loop fuel i (toS32 (toS32 (j + CACHE_MISS_DELAY) - 1)) s
      else .ok (some s)
    match advanced with
    | .error e => .error e
    | .ok none => .ok none
    | .ok (some s) =>
      match parse_dispatch s insn with
      | .error e => .error e
      | .ok s => .ok (some s)

/-- The state after `n` successive calls of `iplc_sim_push_pipeline_stage`. -/
def push_times : Nat → Sim → Except Err Sim
  | 0, s => .ok s
  | n + 1, s =>
    match iplc_sim_push_pipeline_stage s with
    | .error e => .error e
    | .ok s1 => push_times n s1

/-- One step of a driver of the pipeline: an insert operation, made as the trace parser
makes it (the fetch address is stored in `instruction_address`, then the
`iplc_sim_process_pipeline_*` function is called), or a bare pipeline advance. -/
inductive pipeline_op where
  | insert (address : Nat) (insn : insert_t)
  | advance
  deriving DecidableEq, Repr

def run_op (s : Sim) : pipeline_op → Except Err Sim
  | .insert address insn => process_pipeline { s with instruction_address := address } insn
  | .advance => iplc_sim_push_pipeline_stage s

def run_ops (s : Sim) : List pipeline_op → Except Err Sim
  | [] => .ok s
  | op :: ops =>
    match run_op s op with
    | .error e => .error e
    | .ok s1 => run_ops s1 ops

/-- The number of insert operations in a list of driver steps. -/
def count_inserts (ops : List pipeline_op) : Nat :=
  (ops.filter (fun op => op != .advance)).length

/-- A slot counts as occupied for retirement when its address is nonzero. -/
def occupied (p : pipeline_t) : Nat := if p.instruction_address ≠ 0 then 1 else 0

/-- The number of occupied slots. -/
def in_flight (s : Sim) : Nat :=
  occupied s.pipeline.FETCH + occupied s.pipeline.DECODE + occupied s.pipeline.ALU +
  occupied s.pipeline.MEM + occupied s.pipeline.WRITEBACK

/-- The first `j` slots of the pipeline, from FETCH on, are cleared slots. -/
def leading_zeroed (j : Nat) (p : pipeline_array) : Prop :=
  (1 ≤ j → p.FETCH = .zeroed) ∧ (2 ≤ j → p.DECODE = .zeroed) ∧ (3 ≤ j → p.ALU = .zeroed) ∧
  (4 ≤ j → p.MEM = .zeroed) ∧ (5 ≤ j → p.WRITEBACK = .zeroed)

/-- A NOP-typed slot has address 0: the slot is not counted when it retires. -/
def nop_unaddressed (p : pipeline_t) : Prop := p.itype = .NOP → p.instruction_address = 0

/-- Invariant of the retired count: `n` instructions have been inserted, each of them is
either counted in `instruction_count` (an `unsigned int`) or occupies a slot, and no
NOP-typed slot has an address. -/
structure RetireInv (s : Sim) (n : Nat) : Prop where
  count : (s.instruction_count + in_flight s) % 2 ^ 32 = n % 2 ^ 32
  bound : s.instruction_count < 2 ^ 32
  fetch : nop_unaddressed s.pipeline.FETCH
  decode : nop_unaddressed s.pipeline.DECODE
  alu : nop_unaddressed s.pipeline.ALU
  mem : nop_unaddressed s.pipeline.MEM
  writeback : nop_unaddressed s.pipeline.WRITEBACK

/-! ## Reference model of the replacement policy, and invariants -/

/-- Successive calls of `iplc_sim_trap_address` on a list of addresses: the list of
return values and the final state. -/
def trap_sequence (s : Sim) : List Nat → Except Err (List Int × Sim)
  | [] => .ok ([], s)
  | a :: as =>
    match iplc_sim_trap_address s a with
    | .error e => .error e
    | .ok (hit, s) =>
      match trap_sequence s as with
      | .error e => .error e
      | .ok (hits, s) => .ok (hit :: hits, s)

/-- Reference model, after the words of the specification: the distinct tags of a list
of accesses (oldest access first), ordered from the most recently accessed to the least
recently accessed.  An access moves its tag to the front. -/
def recency_order (tags : List Int) : List Int :=
  tags.foldl (fun acc t => t :: acc.erase t) []

/-- The tags of the accesses in `earlier` that mapped to the set of address `a`. -/
def same_index_tags (s : Sim) (earlier : List Nat) (a : Nat) : List Int :=
  (earlier.filter (fun b => trap_index s b = trap_index s a)).map (trap_tag s)

/-- Invariant that ties a set of `k` ways to the recency order `R` of the tags accessed
in it.  With `m = min R.length k`: the ways `0 .. m-1` are the valid ones, they hold the
first `m` tags of `R` without repetition, and the way that holds the tag at position
`j` of `R` has `last_accessed = k - 1 - j`. -/
structure LineInv (k : Nat) (line : cache_line_t) (R : List Int) : Prop where
  len_valid : line.valid.length = k
  len_tag : line.tag.length = k
  len_la : line.last_accessed.length = k
  nodup : R.Nodup
  valid_iff : ∀ i, i < k → (line.valid.getD i 0 ≠ 0 ↔ i < min R.length k)
  rank : ∀ i, i < min R.length k →
    line.tag.getD i 0 ∈ R ∧ R.indexOf (line.tag.getD i 0) < k ∧
    line.last_accessed.getD i 0 = (k : Int) - 1 - (R.indexOf (line.tag.getD i 0) : Int)
  onto : ∀ x, x ∈ R → R.indexOf x < k → ∃ i, i < min R.length k ∧ line.tag.getD i 0 = x
  inj : ∀ i j, i < min R.length k → j < min R.length k →
    line.tag.getD i 0 = line.tag.getD j 0 → i = j

/-- Invariant of the whole cache after the accesses `hist` (oldest first): every lookup
addresses an allocated set, every allocated set is addressed by some lookup, and every
set satisfies `LineInv` for the recency order of the tags that were accessed in it. -/
structure CacheInv (s : Sim) (k : Nat) (hist : List Nat) : Prop where
  assoc_eq : s.cache_assoc = (k : Int)
  index_lt : ∀ a, 0 ≤ trap_index s a ∧ (trap_index s a).toNat < s.cache.length
  covers : ∀ idx, idx < s.cache.length → ∃ a, (trap_index s a).toNat = idx
  lines : ∀ a, LineInv k (s.cache.getD (trap_index s a).toNat default)
    (recency_order (same_index_tags s hist a))

/-- Invariant of the ways of a set that hold no block yet, for the recency order `R` of
the tags accessed in the set: each of them has been decremented once per installed
block, so that its `last_accessed` is `-R.length`. -/
def FreeInv (k : Nat) (line : cache_line_t) (R : List Int) : Prop :=
  ∀ i, R.length ≤ i → i < k → line.last_accessed.getD i 0 = -(R.length : Int)

/-- The invariant `FreeInv` in every set, after the accesses `hist`. -/
def CacheFreeInv (s : Sim) (k : Nat) (hist : List Nat) : Prop :=
  ∀ a, FreeInv k (s.cache.getD (trap_index s a).toNat default)
    (recency_order (same_index_tags s hist a))

/-! # Verified properties -/

/-! ## Lists: array reads and writes, the recency order -/

theorem getD_set_int (l : List Int) (i j : Nat) (v : Int) :
    (l.set i v).getD j 0 = if i = j ∧ i < l.length then v else l.getD j 0 := by
  simp only [List.getD_eq_getElem?_getD, List.getElem?_set]
  by_cases h : i = j
  · subst h
    by_cases h2 : i < l.length
    · simp [h2]
    · simp [h2, List.getElem?_eq_none (Nat.le_of_not_lt h2)]
  · simp [h]

theorem getD_replicate_zero (n j : Nat) : (List.replicate n (0 : Int)).getD j 0 = 0 := by
  simp only [List.getD_eq_getElem?_getD, List.getElem?_replicate]
  split <;> rfl

theorem indexOf_erase_of_ne (R : List Int) {x t : Int} (hx : x ∈ R) (hne : x ≠ t) :
    (R.erase t).indexOf x =
      if R.indexOf x < R.indexOf t then R.indexOf x else R.indexOf x - 1 := by
  induction R with
  | nil => simp at hx
  | cons b R ih =>
    by_cases hbt : b = t
    · subst hbt
      have hxb : b ≠ x := fun h => hne h.symm
      rw [List.erase_cons_head, List.indexOf_cons_ne _ hxb, List.indexOf_cons_self]
      simp
    · have hbt' : ¬ (b == t) = true := by simpa using hbt
      rw [List.erase_cons_tail hbt', List.indexOf_cons_ne _ hbt]
      by_cases hbx : b = x
      · subst hbx
        rw [List.indexOf_cons_self, List.indexOf_cons_self]
        simp
      · have hxR : x ∈ R := by
          rcases List.mem_cons.1 hx with h | h
          · exact absurd h.symm hbx
          · exact h
        rw [List.indexOf_cons_ne _ hbx, List.indexOf_cons_ne _ hbx, ih hxR]
        have hlt : R.indexOf x < R.length := List.indexOf_lt_length.2 hxR
        have hle : R.indexOf t ≤ R.length := List.indexOf_le_length
        simp only [Nat.succ_eq_add_one, Nat.add_lt_add_iff_right]
        split_ifs with h1
        · rfl
        · have ht : t ∈ R := List.indexOf_lt_length.1 (by omega)
          have hne' : R.indexOf x ≠ R.indexOf t :=
            fun h => hne ((List.indexOf_inj hxR ht).1 h)
          omega

/-- Position of a tag after `t` has been moved to the front of the recency order. -/
theorem indexOf_move_front (R : List Int) {x t : Int} (hx : x ∈ R) (hne : x ≠ t) :
    (t :: R.erase t).indexOf x =
      if R.indexOf x < R.indexOf t then R.indexOf x + 1 else R.indexOf x := by
  rw [List.indexOf_cons_ne _ (fun h => hne h.symm), indexOf_erase_of_ne R hx hne]
  have hlt : R.indexOf x < R.length := List.indexOf_lt_length.2 hx
  have hle : R.indexOf t ≤ R.length := List.indexOf_le_length
  have hne' : R.indexOf x ≠ R.indexOf t := by
    intro h
    have ht : t ∈ R := List.indexOf_lt_length.1 (h ▸ hlt)
    exact hne ((List.indexOf_inj hx ht).1 h)
  split_ifs <;> omega

theorem mem_move_front (R : List Int) (x t : Int) :
    x ∈ t :: R.erase t ↔ x = t ∨ x ∈ R := by
  by_cases h : x = t
  · simp [h]
  · simp [h, List.mem_erase_of_ne h]

theorem nodup_move_front {R : List Int} (h : R.Nodup) (t : Int) : (t :: R.erase t).Nodup := by
  rw [List.nodup_cons]
  exact ⟨fun hm => ((h.mem_erase_iff).1 hm).1 rfl, h.erase t⟩

theorem length_move_front (R : List Int) (t : Int) :
    (t :: R.erase t).length = if t ∈ R then R.length else R.length + 1 := by
  by_cases h : t ∈ R
  · have : 0 < R.length := List.length_pos_of_mem h
    simp only [List.length_cons, List.length_erase_of_mem h, h, if_true]
    omega
  · simp only [List.length_cons, List.erase_of_not_mem h, h, if_false]

theorem mem_take_iff_indexOf (R : List Int) (t : Int) (k : Nat) :
    t ∈ R.take k ↔ t ∈ R ∧ R.indexOf t < k := by
  induction R generalizing k with
  | nil => simp
  | cons b R ih =>
    cases k with
    | zero => simp
    | succ k =>
      rw [List.take_succ_cons]
      by_cases hb : b = t
      · subst hb; simp
      · have hb' : t ≠ b := fun h => hb h.symm
        rw [List.indexOf_cons_ne _ hb]
        simp only [List.mem_cons, hb', false_or, ih k, Nat.succ_eq_add_one,
          Nat.add_lt_add_iff_right]

/-! ## Integer conversions and bit fields -/

theorem toS32_of_range {x : Int} (h0 : -2 ^ 31 ≤ x) (h1 : x < 2 ^ 31) : toS32 x = x := by
  unfold toS32; omega

theorem toU32_natCast {n : Nat} (h1 : n < 2 ^ 32) : toU32 (n : Int) = n := by
  unfold toU32; omega

theorem bitMask_eq {high : Nat} (h : high ≤ 31) :
    toU32 (toS32 (shl32 2 (high : Int) - 1)) = 2 ^ (high + 1) - 1 := by
  interval_cases high <;> decide

theorem get_index_eq_div_mod (address low high : Nat) (hh : high ≤ 31) :
    get_index address low high = address % 2 ^ (high + 1) / 2 ^ low := by
  unfold get_index
  simp only [bitMask_eq hh, Nat.and_pow_two_sub_one_eq_mod, Nat.shiftRight_eq_div_pow]

theorem get_index_eq_bits (address low high : Nat) (hl : low ≤ high) (hh : high ≤ 31) :
    get_index address low high = address / 2 ^ low % 2 ^ (high + 1 - low) := by
  rw [get_index_eq_div_mod address low high hh]
  have : 2 ^ (high + 1) = 2 ^ low * 2 ^ (high + 1 - low) := by
    rw [← pow_add]; congr 1; omega
  rw [this, Nat.mod_mul_right_div_self]

/-- The set index of `iplc_sim_trap_address` as a quotient and remainder, for a
configuration with `1 ≤ I + O ≤ 32` and `I ≤ 31`. -/
theorem trap_index_eq (s : Sim) (I O : Nat) (hI : s.cache_index = I)
    (hO : s.cache_blockoffsetbits = O) (h1 : 1 ≤ I + O) (h2 : I + O ≤ 32) (h3 : I ≤ 31)
    (a : Nat) : trap_index s a = ((a / 2 ^ O % 2 ^ I : Nat) : Int) := by
  unfold trap_index
  rw [hI, hO]
  have e1 : toS32 (toS32 ((I : Int) + (O : Int)) - 1) = ((I + O - 1 : Nat) : Int) := by
    rw [toS32_of_range (x := (I : Int) + O) (by omega) (by omega),
      toS32_of_range (by omega) (by omega)]
    omega
  rw [e1, toU32_natCast (by omega), toU32_natCast (by omega),
    get_index_eq_div_mod a O (I + O - 1) (by omega)]
  have e2 : I + O - 1 + 1 = O + I := by omega
  rw [e2, pow_add, Nat.mod_mul_right_div_self]
  have hlt : a / 2 ^ O % 2 ^ I < 2 ^ 31 :=
    lt_of_lt_of_le (Nat.mod_lt _ (by positivity)) (Nat.pow_le_pow_right (by norm_num) h3)
  exact toS32_of_range (by omega) (by exact_mod_cast hlt)

/-- The tag of `iplc_sim_trap_address` before its conversion to `int`. -/
theorem trap_tag_eq (s : Sim) (I O : Nat) (hI : s.cache_index = I)
    (hO : s.cache_blockoffsetbits = O) (h2 : I + O ≤ 32)
    (a : Nat) : trap_tag s a = toS32 ((a % 2 ^ 32 / 2 ^ (I + O) : Nat) : Int) := by
  unfold trap_tag
  rw [hI, hO]
  have e1 : toS32 ((I : Int) + (O : Int)) = ((I + O : Nat) : Int) := by
    rw [toS32_of_range (by omega) (by omega)]; push_cast; rfl
  rw [e1, toU32_natCast (by omega), get_index_eq_div_mod a (I + O) 31 (by omega)]

theorem trap_tag_eq_shift (s : Sim) (I O : Nat) (hI : s.cache_index = I)
    (hO : s.cache_blockoffsetbits = O) (h1 : 1 ≤ I + O) (h2 : I + O ≤ 32)
    (a : Nat) (ha : a < 2 ^ 32) : trap_tag s a = ((a / 2 ^ (I + O) : Nat) : Int) := by
  rw [trap_tag_eq s I O hI hO h2, Nat.mod_eq_of_lt ha]
  have hlt : a / 2 ^ (I + O) < 2 ^ 31 := by
    have h2p : 2 ^ 1 ≤ 2 ^ (I + O) := Nat.pow_le_pow_right (by norm_num) h1
    have : a / 2 ^ (I + O) ≤ a / 2 ^ 1 := Nat.div_le_div_left h2p (by norm_num)
    omega
  have h0 : (0 : Int) ≤ ((a / 2 ^ (I + O) : Nat) : Int) := Int.natCast_nonneg _
  exact toS32_of_range (by omega) (by exact_mod_cast hlt)

theorem reassemble_eq (I O a : Nat) (ha : a < 2 ^ 32) :
    (((a / 2 ^ (I + O)) <<< (I + O)) ||| ((a / 2 ^ O % 2 ^ I) <<< O)) % 2 ^ 32
      = 2 ^ (I + O) * (a / 2 ^ (I + O)) + (a / 2 ^ O % 2 ^ I) * 2 ^ O := by
  have hb : (a / 2 ^ O % 2 ^ I) * 2 ^ O < 2 ^ (I + O) := by
    rw [pow_add]
    exact Nat.mul_lt_mul_of_pos_right (Nat.mod_lt _ (by positivity)) (by positivity)
  rw [Nat.shiftLeft_eq, Nat.shiftLeft_eq, Nat.mul_comm (a / 2 ^ (I + O)),
    ← Nat.mul_add_lt_is_or hb]
  apply Nat.mod_eq_of_lt
  have h1 : 2 ^ (I + O) * (a / 2 ^ (I + O)) ≤ a := Nat.mul_div_le a _
  have h2 : a / 2 ^ O % 2 ^ I * 2 ^ O ≤ a % 2 ^ (I + O) := by
    have : a % 2 ^ (I + O) / 2 ^ O = a / 2 ^ O % 2 ^ I := by
      rw [Nat.add_comm I O, pow_add, Nat.mod_mul_right_div_self]
    rw [← this]
    exact Nat.div_mul_le_self _ _
  have h3 := Nat.div_add_mod a (2 ^ (I + O))
  omega

/-- C4. Bit-field extraction: for a 32-bit address and `low ≤ high ≤ 31`, `get_index`
returns `(address AND ((1 << (high+1)) - 1)) >> low`, which is the value of bits
`low..high` of the address; for `high = 31` the mask is all 32 bits.  Hence, in a
configuration with `I ≥ 1` index bits and `O` offset bits, `I + O ≤ 31`,
`iplc_sim_trap_address` works with index `(address >> O) mod 2^I` and tag
`address >> (I + O)`.  The example of the source comment evaluates to `0x69 = 105`. -/
theorem get_index_bit_field (address low high : Nat) (ha : address < 2 ^ 32)
    (hl : low ≤ high) (hh : high ≤ 31) :
    get_index address low high = (address &&& ((1 <<< (high + 1)) - 1)) >>> low ∧
    get_index address low high = address / 2 ^ low % 2 ^ (high + 1 - low) ∧
    (high = 31 → (1 <<< (high + 1)) - 1 = 2 ^ 32 - 1) ∧
    get_index 0x2135C690 4 11 = 0x69 ∧
    ∀ (s : Sim) (I O : Nat), s.cache_index = I → s.cache_blockoffsetbits = O →
      1 ≤ I → I + O ≤ 31 →
      trap_index s address = (((address >>> O) % 2 ^ I : Nat) : Int) ∧
      trap_tag s address = ((address >>> (I + O) : Nat) : Int) := by
  refine ⟨?_, get_index_eq_bits address low high hl hh, ?_, by decide, ?_⟩
  · rw [get_index_eq_div_mod address low high hh, Nat.shiftLeft_eq, Nat.one_mul,
      Nat.and_pow_two_sub_one_eq_mod, Nat.shiftRight_eq_div_pow]
  · intro h; subst h; rfl
  · intro s I O hI hO h1 h2
    rw [Nat.shiftRight_eq_div_pow, Nat.shiftRight_eq_div_pow]
    exact ⟨trap_index_eq s I O hI hO (by omega) (by omega) (by omega) address,
      trap_tag_eq_shift s I O hI hO (by omega) (by omega) address ha⟩

theorem get_index_bit_field_witness :
    get_index 0x2135C690 4 11 = (0x2135C690 &&& ((1 <<< (11 + 1)) - 1)) >>> 4 ∧
    get_index 0x2135C690 4 11 = 105 :=
  ⟨(get_index_bit_field 0x2135C690 4 11 (by decide) (by decide) (by decide)).1,
   (get_index_bit_field 0x2135C690 4 11 (by decide) (by decide) (by decide)).2.2.2.1⟩

/-- C5. Decompose round trip: in a configuration with `I ≥ 1` index bits and `O` offset
bits, `I + O ≤ 31`, let `(index, tag)` be what `iplc_sim_trap_address` computes for a
32-bit address `a`; the 32-bit address `(tag << (I + O)) | (index << O)` decomposes to
the same `(index, tag)`. -/
theorem decompose_round_trip (s : Sim) (I O a : Nat) (hI : s.cache_index = I)
    (hO : s.cache_blockoffsetbits = O) (h1 : 1 ≤ I) (h2 : I + O ≤ 31) (ha : a < 2 ^ 32) :
    trap_index s
        ((((trap_tag s a).toNat <<< (I + O)) ||| ((trap_index s a).toNat <<< O)) % 2 ^ 32)
      = trap_index s a ∧
    trap_tag s
        ((((trap_tag s a).toNat <<< (I + O)) ||| ((trap_index s a).toNat <<< O)) % 2 ^ 32)
      = trap_tag s a := by
  have hi := trap_index_eq s I O hI hO (by omega) (by omega) (by omega)
  have ht := trap_tag_eq_shift s I O hI hO (by omega) (by omega)
  rw [hi a, ht a ha, Int.toNat_ofNat, Int.toNat_ofNat, reassemble_eq I O a ha]
  have hb : (a / 2 ^ O % 2 ^ I) * 2 ^ O < 2 ^ (I + O) := by
    rw [pow_add]
    exact Nat.mul_lt_mul_of_pos_right (Nat.mod_lt _ (by positivity)) (by positivity)
  have hlt : 2 ^ (I + O) * (a / 2 ^ (I + O)) + a / 2 ^ O % 2 ^ I * 2 ^ O < 2 ^ 32 := by
    rw [← reassemble_eq I O a ha]; exact Nat.mod_lt _ (by positivity)
  constructor
  · rw [hi]
    congr 1
    have : 2 ^ (I + O) * (a / 2 ^ (I + O)) + a / 2 ^ O % 2 ^ I * 2 ^ O
        = (a / 2 ^ O % 2 ^ I + 2 ^ I * (a / 2 ^ (I + O))) * 2 ^ O := by
      rw [pow_add]; ring
    rw [this, Nat.mul_div_cancel _ (by positivity), Nat.add_mul_mod_self_left,
      Nat.mod_mod]
  · rw [ht _ hlt]
    congr 1
    rw [Nat.add_comm, Nat.add_mul_div_left _ _ (by positivity), Nat.div_eq_of_lt hb,
      Nat.zero_add]

theorem decompose_round_trip_witness :
    trap_index { Sim.start with cache_index := 7, cache_blockoffsetbits := 2 }
        ((((trap_tag { Sim.start with cache_index := 7, cache_blockoffsetbits := 2 }
              0x2135C690).toNat <<< (7 + 2)) |||
          ((trap_index { Sim.start with cache_index := 7, cache_blockoffsetbits := 2 }
              0x2135C690).toNat <<< 2)) % 2 ^ 32)
      = trap_index { Sim.start with cache_index := 7, cache_blockoffsetbits := 2 } 0x2135C690 :=
  (decompose_round_trip { Sim.start with cache_index := 7, cache_blockoffsetbits := 2 }
    7 2 0x2135C690 rfl rfl (by decide) (by decide) (by decide)).1

/-! ## The cache lookup, case by case -/

theorem trap_address_hit {s : Sim} {a e : Nat}
    (h : cache_line_assoc_handler s.cache_assoc
      (s.cache.getD (trap_index s a).toNat default) (trap_tag s a) = some e) :
    iplc_sim_trap_address s a = .ok (1, { s with
      cache := s.cache.set (trap_index s a).toNat
        ((s.cache.getD (trap_index s a).toNat default).update_on_hit s.cache_assoc e),
      cache_access := s.cache_access + 1,
      cache_hit := s.cache_hit + 1 }) := by
  simp only [iplc_sim_trap_address, h, iplc_sim_LRU_update_on_hit]

theorem trap_address_miss {s : Sim} {a v : Nat}
    (h : cache_line_assoc_handler s.cache_assoc
      (s.cache.getD (trap_index s a).toNat default) (trap_tag s a) = none)
    (hv : cache_line_select_replace s.cache_assoc
      (s.cache.getD (trap_index s a).toNat default) = .ok v) :
    iplc_sim_trap_address s a = .ok (0, { s with
      cache := s.cache.set (trap_index s a).toNat
        ((s.cache.getD (trap_index s a).toNat default).replace_on_miss s.cache_assoc v
          (trap_tag s a)),
      cache_access := s.cache_access + 1,
      cache_miss := s.cache_miss + 1 }) := by
  simp only [iplc_sim_trap_address, h, iplc_sim_LRU_replace_on_miss, hv]

theorem trap_address_abort {s : Sim} {a : Nat} {err : Err}
    (h : cache_line_assoc_handler s.cache_assoc
      (s.cache.getD (trap_index s a).toNat default) (trap_tag s a) = none)
    (hv : cache_line_select_replace s.cache_assoc
      (s.cache.getD (trap_index s a).toNat default) = .error err) :
    iplc_sim_trap_address s a = .error err := by
  simp only [iplc_sim_trap_address, h, iplc_sim_LRU_replace_on_miss, hv]

/-- A cache lookup changes nothing but the cache arrays and the three cache counters,
and returns 0 or 1. -/
theorem trap_address_frame {s s' : Sim} {a : Nat} {hit : Int}
    (h : iplc_sim_trap_address s a = .ok (hit, s')) :
    s' = { s with cache := s'.cache, cache_access := s'.cache_access,
                  cache_hit := s'.cache_hit, cache_miss := s'.cache_miss } ∧
    (hit = 0 ∨ hit = 1) := by
  cases hh : cache_line_assoc_handler s.cache_assoc
      (s.cache.getD (trap_index s a).toNat default) (trap_tag s a) with
  | some e =>
    rw [trap_address_hit hh] at h
    simp only [Except.ok.injEq, Prod.mk.injEq] at h
    obtain ⟨h1, h2⟩ := h
    subst h1 h2
    exact ⟨rfl, Or.inr rfl⟩
  | none =>
    cases hv : cache_line_select_replace s.cache_assoc
        (s.cache.getD (trap_index s a).toNat default) with
    | error err => rw [trap_address_abort hh hv] at h; cases h
    | ok v =>
      rw [trap_address_miss hh hv] at h
      simp only [Except.ok.injEq, Prod.mk.injEq] at h
      obtain ⟨h1, h2⟩ := h
      subst h1 h2
      exact ⟨rfl, Or.inl rfl⟩

/-! ## The pipeline advance -/

theorem trap_address_ok {s : Sim} (hv : s.has_victims) (a : Nat) :
    ∃ hit s', iplc_sim_trap_address s a = .ok (hit, s') := by
  cases hh : cache_line_assoc_handler s.cache_assoc
      (s.cache.getD (trap_index s a).toNat default) (trap_tag s a) with
  | some e => exact ⟨_, _, trap_address_hit hh⟩
  | none =>
    obtain ⟨v, hv⟩ := hv (trap_index s a).toNat
    exact ⟨_, _, trap_address_miss hh hv⟩

/-- The memory access of steps 3 and 4 changes the cache, the cache counters and
`pipeline_cycles` only. -/
theorem push_mem_access_ok {s : Sim} (hv : s.has_victims) (r : Int) (a : Nat) :
    ∃ s', push_mem_access s r a = .ok s' ∧
      s' = { s with cache := s'.cache, cache_access := s'.cache_access,
                    cache_hit := s'.cache_hit, cache_miss := s'.cache_miss,
                    pipeline_cycles := s'.pipeline_cycles } := by
  obtain ⟨hit, s1, h1⟩ := trap_address_ok hv a
  have hf := (trap_address_frame h1).1
  unfold push_mem_access
  rw [h1]
  simp only
  split
  · split
    · exact ⟨_, rfl, by rw [hf]⟩
    · exact ⟨_, rfl, by rw [hf]⟩
  · exact ⟨_, rfl, by rw [hf]⟩

/-- Steps 3 and 4 together: at most one of them runs, and they change the cache, the
cache counters and `pipeline_cycles` only. -/
theorem push_step34_ok {s : Sim} (hv : s.has_victims) :
    ∃ s3 s4, push_step3 s = .ok s3 ∧ push_step4 s3 = .ok s4 ∧
      s4 = { s with cache := s4.cache, cache_access := s4.cache_access,
                    cache_hit := s4.cache_hit, cache_miss := s4.cache_miss,
                    pipeline_cycles := s4.pipeline_cycles } := by
  by_cases hlw : s.pipeline.MEM.itype = .LW
  · obtain ⟨s3, h3, hf⟩ := push_mem_access_ok hv s.pipeline.MEM.stage.get_lw.base_reg
      s.pipeline.MEM.stage.get_lw.data_address
    have hp : s3.pipeline = s.pipeline := by rw [hf]
    have hsw : ¬ s3.pipeline.MEM.itype = .SW := by rw [hp, hlw]; decide
    refine ⟨s3, s3, by simp only [push_step3, hlw, if_true, h3],
      by simp only [push_step4, hsw, if_false], hf⟩
  · by_cases hsw : s.pipeline.MEM.itype = .SW
    · obtain ⟨s4, h4, hf⟩ := push_mem_access_ok hv s.pipeline.MEM.stage.get_sw.src_reg
        s.pipeline.MEM.stage.get_sw.data_address
      exact ⟨s, s4, by simp only [push_step3, hlw, if_false],
        by simp only [push_step4, hsw, if_true, h4], hf⟩
    · exact ⟨s, s, by simp only [push_step3, hlw, if_false],
        by simp only [push_step4, hsw, if_false], rfl⟩

theorem push_step1_cache (s : Sim) :
    (push_step1 s).cache = s.cache ∧ (push_step1 s).cache_assoc = s.cache_assoc := by
  unfold push_step1; split <;> exact ⟨rfl, rfl⟩

theorem push_step2_cache (s : Sim) :
    (push_step2 s).cache = s.cache ∧ (push_step2 s).cache_assoc = s.cache_assoc := by
  unfold push_step2
  simp only
  split_ifs <;> exact ⟨rfl, rfl⟩

theorem push_step12_has_victims {s : Sim} (hv : s.has_victims) :
    (push_step2 (push_step1 s)).has_victims := by
  intro idx
  rw [(push_step2_cache _).1, (push_step2_cache _).2, (push_step1_cache _).1,
    (push_step1_cache _).2]
  exact hv idx

/-- One pipeline advance, when no `assert` fires: steps 1 and 2, then a state `s4` that
differs from theirs in the cache, the cache counters and `pipeline_cycles` only, then
steps 5 to 7. -/
theorem push_pipeline_stage_ok {s : Sim} (hv : s.has_victims) :
    ∃ s4, iplc_sim_push_pipeline_stage s = .ok (push_step567 s4) ∧
      s4 = { push_step2 (push_step1 s) with
                cache := s4.cache, cache_access := s4.cache_access,
                cache_hit := s4.cache_hit, cache_miss := s4.cache_miss,
                pipeline_cycles := s4.pipeline_cycles } := by
  obtain ⟨s3, s4, h3, h4, hf⟩ := push_step34_ok (push_step12_has_victims hv)
  refine ⟨s4, ?_, hf⟩
  simp only [iplc_sim_push_pipeline_stage, h3, h4]

theorem add32_one_ne (x : Nat) : (x + 1) % 2 ^ 32 ≠ x := by
  omega

/-- Step 1 changes `instruction_count` only. -/
theorem push_step1_frame (s : Sim) :
    push_step1 s = { s with instruction_count := (push_step1 s).instruction_count } := by
  unfold push_step1; split <;> rfl

theorem push_step2_branch_count (s : Sim) :
    (push_step2 s).branch_count =
      (if s.pipeline.DECODE.itype = .BRANCH
        then (s.branch_count + 1) % 2 ^ 32 else s.branch_count) := by
  unfold push_step2 add32
  simp only
  split_ifs <;> rfl

theorem push_step2_correct (s : Sim) :
    (push_step2 s).correct_branch_predictions =
      (if s.pipeline.DECODE.itype = .BRANCH ∧ s.pipeline.FETCH.instruction_address ≠ 0 ∧
          s.branch_predict_taken =
            (if (s.pipeline.DECODE.instruction_address + 4) % 2 ^ 32
                = s.pipeline.FETCH.instruction_address then 0 else 1)
        then (s.correct_branch_predictions + 1) % 2 ^ 32
        else s.correct_branch_predictions) := by
  unfold push_step2 add32
  simp only
  by_cases h1 : s.pipeline.DECODE.itype = .BRANCH
  · by_cases h2 : s.pipeline.FETCH.instruction_address = 0
    · simp only [h1, h2, if_true, ne_eq, not_true_eq_false, if_false, false_and, and_false]
    · by_cases h3 : (if (s.pipeline.DECODE.instruction_address + 4) % 2 ^ 32
            = s.pipeline.FETCH.instruction_address then 0 else 1) = s.branch_predict_taken
      · simp only [h1, h2, h3, if_true, ne_eq, not_false_eq_true, true_and]
      · have h3' : ¬ s.branch_predict_taken = (if (s.pipeline.DECODE.instruction_address + 4)
            % 2 ^ 32 = s.pipeline.FETCH.instruction_address then 0 else 1) :=
          fun h => h3 h.symm
        simp only [h1, h2, h3, h3', if_true, ne_eq, not_false_eq_true, true_and, if_false,
          and_false]
        split_ifs <;> rfl
  · simp only [h1, if_false, false_and]

/-- Without a wrong prediction, step 2 leaves the five slots as they are. -/
theorem push_step2_pipeline (s : Sim)
    (h : ¬ (s.pipeline.DECODE.itype = .BRANCH ∧ s.pipeline.FETCH.instruction_address ≠ 0 ∧
      (if (s.pipeline.DECODE.instruction_address + 4) % 2 ^ 32
          = s.pipeline.FETCH.instruction_address then 0 else 1) ≠ s.branch_predict_taken)) :
    (push_step2 s).pipeline = s.pipeline := by
  unfold push_step2 add32
  simp only
  by_cases h1 : s.pipeline.DECODE.itype = .BRANCH
  · by_cases h2 : s.pipeline.FETCH.instruction_address = 0
    · simp only [h1, h2, if_true, ne_eq, not_true_eq_false, if_false]
    · by_cases h3 : (if (s.pipeline.DECODE.instruction_address + 4) % 2 ^ 32
            = s.pipeline.FETCH.instruction_address then 0 else 1) = s.branch_predict_taken
      · simp only [h1, h2, h3, if_true, ne_eq, not_false_eq_true]
      · exact absurd ⟨h1, h2, h3⟩ h
  · simp only [h1, if_false]

theorem push_step2_instruction_address (s : Sim) :
    (push_step2 s).instruction_address = s.instruction_address := by
  unfold push_step2
  simp only
  split_ifs <;> rfl

/-- C9, as the code has it.  Step 1 of `iplc_sim_push_pipeline_stage` looks at the
address of the WRITEBACK slot only: `instruction_count` is incremented (unsigned 32-bit)
exactly when `pipeline[WRITEBACK].instruction_address` is nonzero, whatever the `itype`
of the slot, and step 1 changes nothing else. -/
theorem retire_rule_by_address (s : Sim) :
    (push_step1 s).instruction_count =
      (if s.pipeline.WRITEBACK.instruction_address ≠ 0
        then (s.instruction_count + 1) % 2 ^ 32 else s.instruction_count) ∧
    ((push_step1 s).instruction_count = (s.instruction_count + 1) % 2 ^ 32 ↔
      s.pipeline.WRITEBACK.instruction_address ≠ 0) ∧
    push_step1 s = { s with instruction_count := (push_step1 s).instruction_count } := by
  refine ⟨?_, ?_, push_step1_frame s⟩
  · unfold push_step1 add32; split_ifs <;> rfl
  · unfold push_step1 add32
    by_cases h : s.pipeline.WRITEBACK.instruction_address = 0
    · simp only [h, ne_eq, not_true_eq_false, if_false, iff_false]
      exact fun h => add32_one_ne _ h.symm
    · simp only [h, ne_eq, not_false_eq_true, if_true]

/-- C9, counterexample.  A `nop` of the trace at address 4 is inserted by
`iplc_sim_process_pipeline_nop` and moved to WRITEBACK by four more advances; the slot is
NOP-typed, and step 1 of the next advance counts it: `instruction_count` goes from 0
to 1. -/
theorem retire_rule_counts_nop_slot :
    (((((iplc_sim_process_pipeline_nop { Sim.start with instruction_address := 4 }).bind
        iplc_sim_push_pipeline_stage).bind iplc_sim_push_pipeline_stage).bind
        iplc_sim_push_pipeline_stage).bind iplc_sim_push_pipeline_stage).map
      (fun s => (s.pipeline.WRITEBACK, s.instruction_count, (push_step1 s).instruction_count))
    = .ok (⟨.NOP, 4, .zero⟩, 0, 1) := by
  rfl

/-- C10. Branch resolution counters.  In a state where no `assert` can fire, one
`iplc_sim_push_pipeline_stage` returns, `branch_count` is incremented (unsigned 32-bit)
if DECODE holds a BRANCH and unchanged otherwise, and `correct_branch_predictions` is
incremented if DECODE holds a BRANCH, the address in FETCH is nonzero and the prediction
flag equals the outcome, 0 (not taken) when `DECODE.instruction_address + 4 =
FETCH.instruction_address` in unsigned 32-bit arithmetic and 1 (taken) otherwise; it is
unchanged in every other case. -/
theorem branch_resolution_counters (s : Sim) (hv : s.has_victims) :
    ∃ s', iplc_sim_push_pipeline_stage s = .ok s' ∧
      s'.branch_count =
        (if s.pipeline.DECODE.itype = .BRANCH
          then (s.branch_count + 1) % 2 ^ 32 else s.branch_count) ∧
      s'.correct_branch_predictions =
        (if s.pipeline.DECODE.itype = .BRANCH ∧ s.pipeline.FETCH.instruction_address ≠ 0 ∧
            s.branch_predict_taken =
              (if (s.pipeline.DECODE.instruction_address + 4) % 2 ^ 32
                  = s.pipeline.FETCH.instruction_address then 0 else 1)
          then (s.correct_branch_predictions + 1) % 2 ^ 32
          else s.correct_branch_predictions) := by
  obtain ⟨s4, h, hf⟩ := push_pipeline_stage_ok hv
  have e1 : s4.branch_count = (push_step2 (push_step1 s)).branch_count := by rw [hf]
  have e2 : s4.correct_branch_predictions
      = (push_step2 (push_step1 s)).correct_branch_predictions := by rw [hf]
  have f1 := push_step1_frame s
  refine ⟨_, h, ?_, ?_⟩
  · show s4.branch_count = _
    rw [e1, push_step2_branch_count, f1]
  · show s4.correct_branch_predictions = _
    rw [e2, push_step2_correct, f1]


theorem branch_resolution_counters_witness :
    Sim.has_victims { Sim.start with
      cache_assoc := 1, cache := [cache_line_t.fresh 1],
      pipeline := ⟨⟨.RTYPE, 64, .rtype ⟨"add", 1, 2, 3⟩⟩, ⟨.BRANCH, 8, .branch ⟨-1, -1⟩⟩,
        .zeroed, .zeroed, .zeroed⟩ } ∧
    ∃ s', iplc_sim_push_pipeline_stage { Sim.start with
        cache_assoc := 1, cache := [cache_line_t.fresh 1],
        pipeline := ⟨⟨.RTYPE, 64, .rtype ⟨"add", 1, 2, 3⟩⟩, ⟨.BRANCH, 8, .branch ⟨-1, -1⟩⟩,
          .zeroed, .zeroed, .zeroed⟩ } = .ok s' ∧
      s'.branch_count = 1 ∧ s'.correct_branch_predictions = 0 :=
  have hv : Sim.has_victims { Sim.start with
      cache_assoc := 1, cache := [cache_line_t.fresh 1],
      pipeline := ⟨⟨.RTYPE, 64, .rtype ⟨"add", 1, 2, 3⟩⟩, ⟨.BRANCH, 8, .branch ⟨-1, -1⟩⟩,
        .zeroed, .zeroed, .zeroed⟩ } := fun idx =>
    ⟨0, match idx with
      | 0 => rfl
      | _ + 1 => rfl⟩
  ⟨hv, branch_resolution_counters _ hv⟩

/-- C8. Insert is one advance and a FETCH write.  In a state where no `assert` can
fire, `iplc_sim_push_pipeline_stage` returns a state `s'`, and each of the seven
`iplc_sim_process_pipeline_*` operations returns `s'` with the FETCH slot replaced by
the new instruction: its kind, its operands, and the current `instruction_address`.
For `_rtype` and `_jump` this is so when the mnemonic has at most 15 bytes, which is
what the `strcpy` into `char instruction[16]` of the slot can hold.
When the advance meets no wrong branch prediction, WRITEBACK, MEM, ALU and DECODE of
`s'` are the MEM, ALU, DECODE and FETCH slots of the state before. -/
theorem insert_is_advance_then_fetch_write (s : Sim) (hv : s.has_victims) :
    ∃ s', iplc_sim_push_pipeline_stage s = .ok s' ∧
      (∀ instruction dest_reg reg1 reg2_or_constant, instruction.utf8ByteSize ≤ 15 →
        iplc_sim_process_pipeline_rtype s instruction dest_reg reg1 reg2_or_constant =
          .ok { s' with pipeline := { s'.pipeline with FETCH :=
            ⟨.RTYPE, s.instruction_address,
              .rtype ⟨instruction, reg1, reg2_or_constant, dest_reg⟩⟩ } }) ∧
      (∀ dest_reg base_reg data_address,
        iplc_sim_process_pipeline_lw s dest_reg base_reg data_address =
          .ok { s' with pipeline := { s'.pipeline with FETCH :=
            ⟨.LW, s.instruction_address, .lw ⟨data_address, dest_reg, base_reg⟩⟩ } }) ∧
      (∀ src_reg base_reg data_address,
        iplc_sim_process_pipeline_sw s src_reg base_reg data_address =
          .ok { s' with pipeline := { s'.pipeline with FETCH :=
            ⟨.SW, s.instruction_address, .sw ⟨data_address, src_reg, base_reg⟩⟩ } }) ∧
      (∀ reg1 reg2,
        iplc_sim_process_pipeline_branch s reg1 reg2 =
          .ok { s' with pipeline := { s'.pipeline with FETCH :=
            ⟨.BRANCH, s.instruction_address, .branch ⟨reg1, reg2⟩⟩ } }) ∧
      (∀ instruction, instruction.utf8ByteSize ≤ 15 →
        iplc_sim_process_pipeline_jump s instruction =
          .ok { s' with pipeline := { s'.pipeline with FETCH :=
            ⟨.JUMP, s.instruction_address, .jump ⟨instruction⟩⟩ } }) ∧
      iplc_sim_process_pipeline_syscall s =
          .ok { s' with pipeline := { s'.pipeline with FETCH :=
            ⟨.SYSCALL, s.instruction_address, .zero⟩ } } ∧
      iplc_sim_process_pipeline_nop s =
          .ok { s' with pipeline := { s'.pipeline with FETCH :=
            ⟨.NOP, s.instruction_address, .zero⟩ } } ∧
      (¬ (s.pipeline.DECODE.itype = .BRANCH ∧ s.pipeline.FETCH.instruction_address ≠ 0 ∧
          (if (s.pipeline.DECODE.instruction_address + 4) % 2 ^ 32
              = s.pipeline.FETCH.instruction_address then 0 else 1)
            ≠ s.branch_predict_taken) →
        s'.pipeline.WRITEBACK = s.pipeline.MEM ∧ s'.pipeline.MEM = s.pipeline.ALU ∧
        s'.pipeline.ALU = s.pipeline.DECODE ∧ s'.pipeline.DECODE = s.pipeline.FETCH) := by
  obtain ⟨s4, h, hf⟩ := push_pipeline_stage_ok hv
  have ea : s4.instruction_address = s.instruction_address := by
    have h1 : s4.instruction_address = (push_step2 (push_step1 s)).instruction_address := by
      rw [hf]
    rw [h1, push_step2_instruction_address, push_step1_frame]
  have ea' : (push_step567 s4).instruction_address = s.instruction_address := ea
  refine ⟨_, h, ?_, ?_, ?_, ?_, ?_, ?_, ?_, ?_⟩
  · intro i d r1 r2 hi
    have hfit : fits_instruction i = true := decide_eq_true hi
    simp only [iplc_sim_process_pipeline_rtype, h, write_fetch, ea', hfit, if_true]
  · intro d b a
    simp only [iplc_sim_process_pipeline_lw, h, write_fetch, ea']
  · intro r b a
    simp only [iplc_sim_process_pipeline_sw, h, write_fetch, ea']
  · intro r1 r2
    simp only [iplc_sim_process_pipeline_branch, h, write_fetch, ea']
  · intro i hi
    have hfit : fits_instruction i = true := decide_eq_true hi
    simp only [iplc_sim_process_pipeline_jump, h, write_fetch, ea', hfit, if_true]
  · simp only [iplc_sim_process_pipeline_syscall, h, write_fetch, ea']
    rfl
  · simp only [iplc_sim_process_pipeline_nop, h, write_fetch, ea']
    rfl
  · intro hm
    have hp : s4.pipeline = s.pipeline := by
      have h1 : s4.pipeline = (push_step2 (push_step1 s)).pipeline := by rw [hf]
      have f1 := push_step1_frame s
      rw [h1, push_step2_pipeline]
      · rw [f1]
      · rw [f1]; exact hm
    simp only [push_step567, hp, and_self]

theorem insert_is_advance_then_fetch_write_witness :
    Sim.has_victims { Sim.start with
      cache_assoc := 1, cache := [cache_line_t.fresh 1], instruction_address := 68,
      pipeline := ⟨⟨.RTYPE, 64, .rtype ⟨"add", 1, 2, 3⟩⟩, .zeroed, .zeroed, .zeroed,
        .zeroed⟩ } ∧
    ∃ s', iplc_sim_push_pipeline_stage { Sim.start with
        cache_assoc := 1, cache := [cache_line_t.fresh 1], instruction_address := 68,
        pipeline := ⟨⟨.RTYPE, 64, .rtype ⟨"add", 1, 2, 3⟩⟩, .zeroed, .zeroed, .zeroed,
          .zeroed⟩ } = .ok s' ∧
      iplc_sim_process_pipeline_nop { Sim.start with
        cache_assoc := 1, cache := [cache_line_t.fresh 1], instruction_address := 68,
        pipeline := ⟨⟨.RTYPE, 64, .rtype ⟨"add", 1, 2, 3⟩⟩, .zeroed, .zeroed, .zeroed,
          .zeroed⟩ } =
        .ok { s' with pipeline := { s'.pipeline with FETCH := ⟨.NOP, 68, .zero⟩ } } ∧
      iplc_sim_process_pipeline_rtype { Sim.start with
        cache_assoc := 1, cache := [cache_line_t.fresh 1], instruction_address := 68,
        pipeline := ⟨⟨.RTYPE, 64, .rtype ⟨"add", 1, 2, 3⟩⟩, .zeroed, .zeroed, .zeroed,
          .zeroed⟩ } "sub" 6 4 5 =
        .ok { s' with pipeline := { s'.pipeline with FETCH :=
          ⟨.RTYPE, 68, .rtype ⟨"sub", 4, 5, 6⟩⟩ } } :=
  have hv : Sim.has_victims { Sim.start with
      cache_assoc := 1, cache := [cache_line_t.fresh 1], instruction_address := 68,
      pipeline := ⟨⟨.RTYPE, 64, .rtype ⟨"add", 1, 2, 3⟩⟩, .zeroed, .zeroed, .zeroed,
        .zeroed⟩ } := fun idx =>
    ⟨0, match idx with
      | 0 => rfl
      | _ + 1 => rfl⟩
  match insert_is_advance_then_fetch_write _ hv with
  | ⟨s', h, hr, _, _, _, _, _, hn, _⟩ => ⟨hv, s', h, hn, hr "sub" 6 4 5 (by decide)⟩

/-! ## The two replacement routines, entry by entry -/

theorem toS8_of_range {x : Int} (h0 : -128 ≤ x) (h1 : x ≤ 127) : toS8 x = x := by
  unfold toS8; omega

theorem forLoop_succ {σ : Type} (n : Nat) (body : Nat → σ → σ) (s : σ) :
    forLoop (n + 1) body s = body n (forLoop n body s) := by
  unfold forLoop
  rw [List.range_succ, List.foldl_append]
  rfl

/-- The loop of `iplc_sim_LRU_replace_on_miss` decrements the ranks of the first `n` ways
and leaves the other two arrays alone. -/
theorem replace_loop_spec (n : Nat) (line : cache_line_t) :
    (forLoop n (fun i (l : cache_line_t) => { l with
        last_accessed := l.last_accessed.set i (toS8 (l.last_accessed.getD i 0 - 1)) })
      line).valid = line.valid ∧
    (forLoop n (fun i (l : cache_line_t) => { l with
        last_accessed := l.last_accessed.set i (toS8 (l.last_accessed.getD i 0 - 1)) })
      line).tag = line.tag ∧
    (forLoop n (fun i (l : cache_line_t) => { l with
        last_accessed := l.last_accessed.set i (toS8 (l.last_accessed.getD i 0 - 1)) })
      line).last_accessed.length = line.last_accessed.length ∧
    ∀ j, (forLoop n (fun i (l : cache_line_t) => { l with
        last_accessed := l.last_accessed.set i (toS8 (l.last_accessed.getD i 0 - 1)) })
      line).last_accessed.getD j 0 =
      if j < n ∧ j < line.last_accessed.length then toS8 (line.last_accessed.getD j 0 - 1)
      else line.last_accessed.getD j 0 := by
  induction n with
  | zero => exact ⟨rfl, rfl, rfl, fun j => by simp [forLoop]⟩
  | succ n ih =>
    obtain ⟨h1, h2, h3, h4⟩ := ih
    rw [forLoop_succ]
    refine ⟨h1, h2, by simp only [List.length_set, h3], fun j => ?_⟩
    simp only [getD_set_int, h3, h4]
    by_cases hj : n = j
    · subst hj
      split_ifs <;> first | rfl | omega
    · split_ifs <;> first | rfl | omega

/-- The loop of `iplc_sim_LRU_update_on_hit` decrements, among the first `n` ways, the
ranks above `hit_access`. -/
theorem update_loop_spec (hit_access : Int) (n : Nat) (line : cache_line_t) :
    (forLoop n (fun i (l : cache_line_t) =>
        if l.last_accessed.getD i 0 > hit_access then
          { l with last_accessed :=
              l.last_accessed.set i (toS8 (l.last_accessed.getD i 0 - 1)) }
        else l) line).valid = line.valid ∧
    (forLoop n (fun i (l : cache_line_t) =>
        if l.last_accessed.getD i 0 > hit_access then
          { l with last_accessed :=
              l.last_accessed.set i (toS8 (l.last_accessed.getD i 0 - 1)) }
        else l) line).tag = line.tag ∧
    (forLoop n (fun i (l : cache_line_t) =>
        if l.last_accessed.getD i 0 > hit_access then
          { l with last_accessed :=
              l.last_accessed.set i (toS8 (l.last_accessed.getD i 0 - 1)) }
        else l) line).last_accessed.length = line.last_accessed.length ∧
    ∀ j, (forLoop n (fun i (l : cache_line_t) =>
        if l.last_accessed.getD i 0 > hit_access then
          { l with last_accessed :=
              l.last_accessed.set i (toS8 (l.last_accessed.getD i 0 - 1)) }
        else l) line).last_accessed.getD j 0 =
      if j < n ∧ j < line.last_accessed.length ∧ line.last_accessed.getD j 0 > hit_access
      then toS8 (line.last_accessed.getD j 0 - 1)
      else line.last_accessed.getD j 0 := by
  induction n with
  | zero => exact ⟨rfl, rfl, rfl, fun j => by simp [forLoop]⟩
  | succ n ih =>
    obtain ⟨h1, h2, h3, h4⟩ := ih
    rw [forLoop_succ]
    have hn := h4 n
    simp only [lt_self_iff_false, false_and, if_false] at hn
    by_cases hc : line.last_accessed.getD n 0 > hit_access
    · simp only [hn, hc, if_true]
      refine ⟨h1, h2, by simp only [List.length_set, h3], fun j => ?_⟩
      simp only [getD_set_int, h3, h4]
      by_cases hj : n = j
      · subst hj
        split_ifs <;> first | rfl | omega
      · split_ifs <;> first | rfl | omega
    · simp only [hn, hc, if_false]
      refine ⟨h1, h2, h3, fun j => ?_⟩
      rw [h4]
      by_cases hj : n = j
      · subst hj
        split_ifs <;> first | rfl | omega
      · split_ifs <;> first | rfl | omega

/-- Entry by entry, the set after `iplc_sim_LRU_replace_on_miss` has written way `v`. -/
theorem replace_on_miss_spec (k : Nat) (line : cache_line_t) (v : Nat) (t : Int)
    (hl : line.last_accessed.length = k) :
    (line.replace_on_miss (k : Int) v t).valid = line.valid.set v 1 ∧
    (line.replace_on_miss (k : Int) v t).tag = line.tag.set v t ∧
    (line.replace_on_miss (k : Int) v t).last_accessed.length = k ∧
    ∀ j, (line.replace_on_miss (k : Int) v t).last_accessed.getD j 0 =
      if j < k then toS8 ((if j = v then toS8 k else line.last_accessed.getD j 0) - 1)
      else line.last_accessed.getD j 0 := by
  have e0 : line.replace_on_miss (k : Int) v t =
      forLoop k (fun i (l : cache_line_t) => { l with
        last_accessed := l.last_accessed.set i (toS8 (l.last_accessed.getD i 0 - 1)) })
      { valid := line.valid.set v 1, tag := line.tag.set v t,
        last_accessed := line.last_accessed.set v (toS8 (k : Int)) } := by
    unfold cache_line_t.replace_on_miss
    rw [Int.toNat_ofNat]
  rw [e0]
  obtain ⟨h1, h2, h3, h4⟩ := replace_loop_spec k
    { valid := line.valid.set v 1, tag := line.tag.set v t,
      last_accessed := line.last_accessed.set v (toS8 (k : Int)) }
  refine ⟨h1, h2, by rw [h3]; simp only [List.length_set, hl], fun j => ?_⟩
  rw [h4]
  simp only [List.length_set, hl, getD_set_int]
  by_cases hj : v = j
  · subst hj
    split_ifs <;> omega
  · have hj' : ¬ j = v := fun h => hj h.symm
    split_ifs <;> omega

/-- Entry by entry, the set after `iplc_sim_LRU_update_on_hit` on way `e`. -/
theorem update_on_hit_spec (k : Nat) (line : cache_line_t) (e : Nat)
    (hl : line.last_accessed.length = k) :
    (line.update_on_hit (k : Int) e).valid = line.valid ∧
    (line.update_on_hit (k : Int) e).tag = line.tag ∧
    (line.update_on_hit (k : Int) e).last_accessed.length = k ∧
    ∀ j, (line.update_on_hit (k : Int) e).last_accessed.getD j 0 =
      if j < k ∧
          (if j = e then toS8 k else line.last_accessed.getD j 0)
            > line.last_accessed.getD e 0
      then toS8 ((if j = e then toS8 k else line.last_accessed.getD j 0) - 1)
      else (if j = e ∧ j < k then toS8 k else line.last_accessed.getD j 0) := by
  have e0 : line.update_on_hit (k : Int) e =
      forLoop k (fun i (l : cache_line_t) =>
        if l.last_accessed.getD i 0 > line.last_accessed.getD e 0 then
          { l with last_accessed :=
              l.last_accessed.set i (toS8 (l.last_accessed.getD i 0 - 1)) }
        else l)
      { line with last_accessed := line.last_accessed.set e (toS8 (k : Int)) } := by
    unfold cache_line_t.update_on_hit
    rw [Int.toNat_ofNat]
  rw [e0]
  obtain ⟨h1, h2, h3, h4⟩ := update_loop_spec (line.last_accessed.getD e 0) k
    { line with last_accessed := line.last_accessed.set e (toS8 (k : Int)) }
  refine ⟨h1, h2, by rw [h3]; simp only [List.length_set, hl], fun j => ?_⟩
  rw [h4]
  simp only [List.length_set, hl, getD_set_int]
  by_cases hj : e = j
  · subst hj
    split_ifs <;> omega
  · have hj' : ¬ j = e := fun h => hj h.symm
    split_ifs <;> omega

/-! ## One access preserves the invariant of its set -/

theorem assoc_handler_some {k : Nat} {line : cache_line_t} {t : Int} {e : Nat}
    (h : cache_line_assoc_handler (k : Int) line t = some e) :
    e < k ∧ line.tag.getD e 0 = t ∧ line.valid.getD e 0 ≠ 0 := by
  unfold cache_line_assoc_handler at h
  rw [Int.toNat_ofNat, List.find?_range_eq_some] at h
  obtain ⟨h1, h2, _⟩ := h
  simp only [Bool.and_eq_true, beq_iff_eq, bne_iff_ne, ne_eq] at h1
  exact ⟨List.mem_range.1 h2, h1.1, h1.2⟩

theorem assoc_handler_none {k : Nat} {line : cache_line_t} {t : Int}
    (h : cache_line_assoc_handler (k : Int) line t = none) :
    ∀ i, i < k → ¬ (line.tag.getD i 0 = t ∧ line.valid.getD i 0 ≠ 0) := by
  unfold cache_line_assoc_handler at h
  rw [Int.toNat_ofNat, List.find?_eq_none] at h
  intro i hi hc
  apply h i (List.mem_range.2 hi)
  simp only [Bool.and_eq_true, beq_iff_eq, bne_iff_ne, ne_eq]
  exact hc

/-- The way selected for replacement, when some way `c` is free or has rank 0: it is
the first such way. -/
theorem select_replace_first {k : Nat} {line : cache_line_t} {c : Nat} (hc : c < k)
    (hq : line.last_accessed.getD c 0 = 0 ∨ line.valid.getD c 0 = 0) :
    ∃ v, cache_line_select_replace (k : Int) line = .ok v ∧ v ≤ c ∧
      (line.last_accessed.getD v 0 = 0 ∨ line.valid.getD v 0 = 0) ∧
      ∀ j, j < v → ¬ (line.last_accessed.getD j 0 = 0 ∨ line.valid.getD j 0 = 0) := by
  unfold cache_line_select_replace
  rw [Int.toNat_ofNat]
  cases hf : (List.range k).find?
      (fun i => line.last_accessed.getD i 0 == 0 || line.valid.getD i 0 == 0) with
  | none =>
    rw [List.find?_eq_none] at hf
    exfalso
    apply hf c (List.mem_range.2 hc)
    simp only [Bool.or_eq_true, beq_iff_eq]
    exact hq
  | some v =>
    rw [List.find?_range_eq_some] at hf
    obtain ⟨h1, _, h3⟩ := hf
    simp only [Bool.or_eq_true, beq_iff_eq] at h1
    have h3' : ∀ j, j < v →
        ¬ (line.last_accessed.getD j 0 = 0 ∨ line.valid.getD j 0 = 0) := by
      intro j hj
      have := h3 j hj
      simpa only [Bool.not_eq_true', Bool.or_eq_false_iff, beq_eq_false_iff_ne, ne_eq,
        not_or] using this
    refine ⟨v, rfl, ?_, h1, h3'⟩
    by_contra hlt
    exact h3' c (by omega) hq

/-- A hit: the tag is among the first `k` of the recency order, and the set after
`iplc_sim_LRU_update_on_hit` satisfies the invariant for the order with the tag moved
to the front. -/
theorem lineInv_hit {k : Nat} {line : cache_line_t} {R : List Int} {t : Int} {e : Nat}
    (h : LineInv k line R) (hk : k ≤ 127)
    (he : cache_line_assoc_handler (k : Int) line t = some e) :
    t ∈ R.take k ∧ LineInv k (line.update_on_hit (k : Int) e) (t :: R.erase t) := by
  obtain ⟨hek, hTe, hVe⟩ := assoc_handler_some he
  have hem : e < min R.length k := (h.valid_iff e hek).1 hVe
  obtain ⟨htR, htk, hLe⟩ := h.rank e hem
  rw [hTe] at htR htk hLe
  obtain ⟨u1, u2, u3, u4⟩ := update_on_hit_spec k line e h.len_la
  have hlen : (t :: R.erase t).length = R.length := by
    rw [length_move_front]; simp only [htR, if_true]
  have hS : toS8 (k : Int) = k := toS8_of_range (by omega) (by omega)
  have hne : ∀ i, i < min R.length k → i ≠ e → line.tag.getD i 0 ≠ t := by
    intro i hi hie hT
    exact hie (h.inj i e hi hem (hT.trans hTe.symm))
  refine ⟨(mem_take_iff_indexOf R t k).2 ⟨htR, htk⟩, ?_⟩
  constructor
  · rw [u1]; exact h.len_valid
  · rw [u2]; exact h.len_tag
  · exact u3
  · exact nodup_move_front h.nodup t
  · intro i hi
    rw [u1, hlen]
    exact h.valid_iff i hi
  · intro i hi
    rw [hlen] at hi
    rw [u2, u4]
    have hik : i < k := lt_of_lt_of_le hi (min_le_right _ _)
    by_cases hie : i = e
    · subst hie
      rw [hTe]
      refine ⟨List.mem_cons_self _ _, by rw [List.indexOf_cons_self]; omega, ?_⟩
      rw [List.indexOf_cons_self]
      simp only [if_true, hS, hLe]
      have h1 := toS8_of_range (x := (k : Int) - 1) (by omega) (by omega)
      split_ifs <;> omega
    · obtain ⟨r1, r2, r3⟩ := h.rank i hi
      have hTi := hne i hi hie
      have hidx := indexOf_move_front R r1 hTi
      have hneq : R.indexOf (line.tag.getD i 0) ≠ R.indexOf t :=
        fun hc => hTi ((List.indexOf_inj r1 htR).1 hc)
      refine ⟨(mem_move_front R _ t).2 (Or.inr r1), ?_, ?_⟩
      · rw [hidx]; split_ifs <;> omega
      · rw [hidx]
        simp only [hie, if_false, false_and]
        have h1 := toS8_of_range (x := line.last_accessed.getD i 0 - 1) (by omega) (by omega)
        split_ifs <;> push_cast <;> omega
  · intro x hx hxk
    rw [hlen, u2]
    by_cases hxt : x = t
    · exact ⟨e, hem, hxt ▸ hTe⟩
    · have hxR : x ∈ R := by
        rcases (mem_move_front R x t).1 hx with h1 | h1
        · exact absurd h1 hxt
        · exact h1
      have hidx := indexOf_move_front R hxR hxt
      rw [hidx] at hxk
      exact h.onto x hxR (by split_ifs at hxk <;> omega)
  · intro i j hi hj
    rw [hlen] at hi hj
    rw [u2]
    exact h.inj i j hi hj

/-- On a miss the tag is not among the first `k` of the recency order. -/
theorem miss_not_recent {k : Nat} {line : cache_line_t} {R : List Int} {t : Int}
    (h : LineInv k line R)
    (hmiss : ∀ i, i < k → ¬ (line.tag.getD i 0 = t ∧ line.valid.getD i 0 ≠ 0)) :
    ¬ (t ∈ R ∧ R.indexOf t < k) := by
  rintro ⟨h1, h2⟩
  obtain ⟨i, hi, hT⟩ := h.onto t h1 h2
  have hik : i < k := lt_of_lt_of_le hi (min_le_right _ _)
  exact hmiss i hik ⟨hT, (h.valid_iff i hik).2 hi⟩

/-- On a miss every tag among the first `k` moves one position back. -/
theorem miss_shift {k : Nat} {R : List Int} {t x : Int}
    (ht : ¬ (t ∈ R ∧ R.indexOf t < k)) (hx : x ∈ R) (hxk : R.indexOf x < k) :
    x ≠ t ∧ (t :: R.erase t).indexOf x = R.indexOf x + 1 := by
  have hxt : x ≠ t := fun hc => ht ⟨hc ▸ hx, hc ▸ hxk⟩
  refine ⟨hxt, ?_⟩
  rw [indexOf_move_front R hx hxt]
  have hlt : R.indexOf x < R.indexOf t := by
    by_contra hc
    have htlt : R.indexOf t < R.length :=
      lt_of_le_of_lt (not_lt.1 hc) (List.indexOf_lt_length.2 hx)
    exact ht ⟨List.indexOf_lt_length.1 htlt, by omega⟩
  simp only [hlt, if_true]

/-- The set after `iplc_sim_LRU_replace_on_miss` has installed tag `t` in way `v`
satisfies the invariant for the recency order with `t` moved to the front, provided `v`
is the way the invariant expects to be replaced. -/
theorem lineInv_install {k : Nat} {line : cache_line_t} {R : List Int} {t : Int} {v : Nat}
    (h : LineInv k line R) (hk : k ≤ 127)
    (hmiss : ∀ i, i < k → ¬ (line.tag.getD i 0 = t ∧ line.valid.getD i 0 ≠ 0))
    (hvk : v < k) (hvm : v < min (t :: R.erase t).length k)
    (F2 : ∀ i, i < min (t :: R.erase t).length k → i ≠ v → i < min R.length k)
    (F3 : ∀ i, i < min R.length k → i ≠ v → R.indexOf (line.tag.getD i 0) + 1 < k)
    (F5 : ∀ i, i < k → i ≠ v →
      (line.valid.getD i 0 ≠ 0 ↔ i < min (t :: R.erase t).length k))
    (F6 : ∀ i, i < min R.length k → R.indexOf (line.tag.getD i 0) + 1 < k → i ≠ v) :
    LineInv k (line.replace_on_miss (k : Int) v t) (t :: R.erase t) := by
  have ht := miss_not_recent h hmiss
  obtain ⟨u1, u2, u3, u4⟩ := replace_on_miss_spec k line v t h.len_la
  have hS : toS8 (k : Int) = k := toS8_of_range (by omega) (by omega)
  have hne : ∀ i, i < min R.length k → line.tag.getD i 0 ≠ t := by
    intro i hi hT
    have hik : i < k := lt_of_lt_of_le hi (min_le_right _ _)
    exact hmiss i hik ⟨hT, (h.valid_iff i hik).2 hi⟩
  constructor
  · rw [u1, List.length_set]; exact h.len_valid
  · rw [u2, List.length_set]; exact h.len_tag
  · exact u3
  · exact nodup_move_front h.nodup t
  · intro i hi
    rw [u1, getD_set_int]
    by_cases hiv : i = v
    · subst hiv
      simp only [h.len_valid, hi, and_self, if_true]
      exact ⟨fun _ => hvm, fun _ => by decide⟩
    · have : ¬ (v = i ∧ v < line.valid.length) := fun hc => hiv hc.1.symm
      simp only [this, if_false]
      exact F5 i hi hiv
  · intro i hi
    rw [u2, u4, getD_set_int]
    have hik : i < k := lt_of_lt_of_le hi (min_le_right _ _)
    by_cases hiv : i = v
    · subst hiv
      simp only [h.len_tag, hik, and_self, if_true, List.indexOf_cons_self, hS]
      have h1 := toS8_of_range (x := (k : Int) - 1) (by omega) (by omega)
      exact ⟨List.mem_cons_self _ _, by omega, by rw [h1]; simp⟩
    · have : ¬ (v = i ∧ v < line.tag.length) := fun hc => hiv hc.1.symm
      simp only [this, if_false, hik, if_true, hiv]
      have him := F2 i hi hiv
      obtain ⟨r1, r2, r3⟩ := h.rank i him
      obtain ⟨_, hsh⟩ := miss_shift ht r1 r2
      have hF3 := F3 i him hiv
      have h1 := toS8_of_range (x := line.last_accessed.getD i 0 - 1) (by omega) (by omega)
      refine ⟨(mem_move_front R _ t).2 (Or.inr r1), by omega, ?_⟩
      rw [h1, hsh, r3]; push_cast; ring
  · intro x hx hxk
    rw [u2]
    by_cases hxt : x = t
    · refine ⟨v, hvm, ?_⟩
      rw [getD_set_int, hxt]
      simp only [h.len_tag, hvk, and_self, if_true]
    · have hxR : x ∈ R := by
        rcases (mem_move_front R x t).1 hx with h1 | h1
        · exact absurd h1 hxt
        · exact h1
      have hidx := indexOf_move_front R hxR hxt
      have hxk0 : R.indexOf x < k := by
        rw [hidx] at hxk; split_ifs at hxk <;> omega
      obtain ⟨_, hsh⟩ := miss_shift ht hxR hxk0
      obtain ⟨i, hi, hT⟩ := h.onto x hxR hxk0
      have hiv : i ≠ v := F6 i hi (by rw [hT]; omega)
      have hik : i < k := lt_of_lt_of_le hi (min_le_right _ _)
      refine ⟨i, ?_, ?_⟩
      · exact (F5 i hik hiv).1 ((h.valid_iff i hik).2 hi)
      · rw [getD_set_int]
        have : ¬ (v = i ∧ v < line.tag.length) := fun hc => hiv hc.1.symm
        simp only [this, if_false, hT]
  · intro i j hi hj
    rw [u2, getD_set_int, getD_set_int]
    by_cases hiv : i = v
    · by_cases hjv : j = v
      · intro _; rw [hiv, hjv]
      · have hjv' : ¬ v = j := fun hc => hjv hc.symm
        simp only [hiv, h.len_tag, hvk, and_self, and_true, if_true, hjv', if_false]
        intro hc
        exact absurd hc.symm (hne j (F2 j hj hjv))
    · have h1 : ¬ (v = i ∧ v < line.tag.length) := fun hc => hiv hc.1.symm
      by_cases hjv : j = v
      · have hiv' : ¬ v = i := fun hc => hiv hc.symm
        simp only [hjv, h.len_tag, hvk, and_self, and_true, if_true, hiv', if_false]
        intro hc
        exact absurd hc (hne i (F2 i hi hiv))
      · have h2 : ¬ (v = j ∧ v < line.tag.length) := fun hc => hjv hc.1.symm
        simp only [h1, h2, if_false]
        exact h.inj i j (F2 i hi hiv) (F2 j hj hjv)

/-- A miss: the tag is not among the first `k` of the recency order, a way to replace is
found (no `assert`), and the set after `iplc_sim_LRU_replace_on_miss` satisfies the
invariant for the order with the tag moved to the front. -/
theorem lineInv_miss {k : Nat} {line : cache_line_t} {R : List Int} {t : Int}
    (h : LineInv k line R) (hk1 : 1 ≤ k) (hk : k ≤ 127)
    (hn : cache_line_assoc_handler (k : Int) line t = none) :
    t ∉ R.take k ∧
    ∃ v, cache_line_select_replace (k : Int) line = .ok v ∧
      LineInv k (line.replace_on_miss (k : Int) v t) (t :: R.erase t) := by
  have hmiss := assoc_handler_none hn
  have ht := miss_not_recent h hmiss
  refine ⟨fun hc => ht ((mem_take_iff_indexOf R t k).1 hc), ?_⟩
  by_cases hRk : R.length < k
  · -- a free way is left: the first one is way `R.length`
    have hm : min R.length k = R.length := min_eq_left (le_of_lt hRk)
    have htR : t ∉ R := fun h1 => ht ⟨h1, lt_trans (List.indexOf_lt_length.2 h1) hRk⟩
    have hlen : (t :: R.erase t).length = R.length + 1 := by
      rw [length_move_front]; simp only [htR, if_false]
    have hm' : min (t :: R.erase t).length k = R.length + 1 := by
      rw [hlen]; exact min_eq_left hRk
    have hfree : line.valid.getD R.length 0 = 0 := by
      by_contra hc
      have := (h.valid_iff R.length hRk).1 hc
      omega
    obtain ⟨v, hv, hvle, hq, _⟩ := select_replace_first hRk (Or.inr hfree)
    have hvm : v = R.length := by
      by_contra hc
      have hlt : v < min R.length k := by omega
      obtain ⟨r1, r2, r3⟩ := h.rank v hlt
      have hidx := List.indexOf_lt_length.2 r1
      rcases hq with hq | hq
      · omega
      · exact (h.valid_iff v (by omega)).2 hlt hq
    subst hvm
    refine ⟨_, hv, lineInv_install h hk hmiss hRk (by omega) ?_ ?_ ?_ ?_⟩
    · intro i hi hiv; omega
    · intro i hi _
      have := List.indexOf_lt_length.2 (h.rank i hi).1
      omega
    · intro i hi hiv
      rw [hm', h.valid_iff i hi, hm]
      omega
    · intro i hi _; omega
  · -- all ways are in use: the way of rank 0 holds the tag at position `k - 1`
    have hkR : k ≤ R.length := not_lt.1 hRk
    have hm : min R.length k = k := min_eq_right hkR
    have hm' : min (t :: R.erase t).length k = k := by
      apply min_eq_right
      rw [length_move_front]
      split_ifs <;> omega
    have hpos : k - 1 < R.length := by omega
    have hxR : R[k - 1] ∈ R := List.getElem_mem _
    have hxi : R.indexOf R[k - 1] = k - 1 := List.indexOf_getElem h.nodup (k - 1) hpos
    obtain ⟨c, hc, hTc⟩ := h.onto R[k - 1] hxR (by omega)
    rw [hm] at hc
    have hLc : line.last_accessed.getD c 0 = 0 := by
      have := (h.rank c (by omega)).2.2
      rw [hTc, hxi] at this
      omega
    obtain ⟨v, hv, hvle, hq, _⟩ := select_replace_first hc (Or.inl hLc)
    have hvk : v < k := by omega
    have hLv : line.last_accessed.getD v 0 = 0 := by
      rcases hq with hq | hq
      · exact hq
      · exact absurd hq ((h.valid_iff v hvk).2 (by omega))
    have hiv : R.indexOf (line.tag.getD v 0) = k - 1 := by
      have := (h.rank v (by omega)).2.2
      omega
    refine ⟨_, hv, lineInv_install h hk hmiss hvk (by omega) ?_ ?_ ?_ ?_⟩
    · intro i hi _; omega
    · intro i hi hne
      obtain ⟨r1, r2, _⟩ := h.rank i hi
      have hvR := (h.rank v (by omega)).1
      have : R.indexOf (line.tag.getD i 0) ≠ R.indexOf (line.tag.getD v 0) := by
        intro hc
        exact hne (h.inj i v hi (by omega) ((List.indexOf_inj r1 hvR).1 hc))
      omega
    · intro i hi _
      rw [hm', h.valid_iff i hi, hm]
    · intro i hi hlt hc
      rw [hc] at hlt
      omega

/-! ## One lookup preserves the invariant of the cache -/

theorem getD_set_line (l : List cache_line_t) (i j : Nat) (v : cache_line_t) :
    (l.set i v).getD j default = if i = j ∧ i < l.length then v else l.getD j default := by
  simp only [List.getD_eq_getElem?_getD, List.getElem?_set]
  by_cases h : i = j
  · subst h
    by_cases h2 : i < l.length
    · simp [h2]
    · simp [h2, List.getElem?_eq_none (Nat.le_of_not_lt h2)]
  · simp [h]

theorem recency_order_append (l : List Int) (t : Int) :
    recency_order (l ++ [t]) = t :: (recency_order l).erase t := by
  unfold recency_order
  rw [List.foldl_append]
  rfl

theorem same_index_tags_append (s : Sim) (hist : List Nat) (a b : Nat) :
    same_index_tags s (hist ++ [a]) b =
      if trap_index s a = trap_index s b then same_index_tags s hist b ++ [trap_tag s a]
      else same_index_tags s hist b := by
  unfold same_index_tags
  rw [List.filter_append, List.map_append]
  by_cases h : trap_index s a = trap_index s b
  · simp [h]
  · simp [h]

theorem same_index_tags_congr (s : Sim) (hist : List Nat) {a b : Nat}
    (h : trap_index s b = trap_index s a) :
    same_index_tags s hist b = same_index_tags s hist a := by
  unfold same_index_tags
  rw [h]

/-- The invariant after a lookup that changed the set of address `a` to `line'`, when
`line'` satisfies the set invariant for the recency order with the tag of `a` moved to
the front. -/
theorem cacheInv_after {s s' : Sim} {k : Nat} {hist : List Nat} {a : Nat}
    {line' : cache_line_t} (h : CacheInv s k hist)
    (hc : s'.cache = s.cache.set (trap_index s a).toNat line')
    (h1 : s'.cache_index = s.cache_index)
    (h2 : s'.cache_blockoffsetbits = s.cache_blockoffsetbits)
    (h3 : s'.cache_assoc = s.cache_assoc)
    (hl : LineInv k line' (trap_tag s a ::
      (recency_order (same_index_tags s hist a)).erase (trap_tag s a))) :
    CacheInv s' k (hist ++ [a]) := by
  have ei : ∀ b, trap_index s' b = trap_index s b := by
    intro b; unfold trap_index; rw [h1, h2]
  have et : ∀ b, trap_tag s' b = trap_tag s b := by
    intro b; unfold trap_tag; rw [h1, h2]
  have es : ∀ l b, same_index_tags s' l b = same_index_tags s l b := by
    intro l b
    have ei' : trap_index s' = trap_index s := funext ei
    have et' : trap_tag s' = trap_tag s := funext et
    unfold same_index_tags
    rw [ei', et']
  constructor
  · rw [h3]; exact h.assoc_eq
  · intro b
    rw [ei, hc, List.length_set]
    exact h.index_lt b
  · intro idx hidx
    rw [hc, List.length_set] at hidx
    obtain ⟨b, hb⟩ := h.covers idx hidx
    exact ⟨b, by rw [ei]; exact hb⟩
  · intro b
    rw [ei, es, hc, getD_set_line, same_index_tags_append]
    by_cases hb : trap_index s a = trap_index s b
    · have hlt := (h.index_lt a).2
      simp only [hb, true_and, if_true]
      rw [hb] at hlt
      simp only [hlt, if_true]
      rw [recency_order_append, same_index_tags_congr s hist hb.symm]
      exact hl
    · have hne : ¬ (trap_index s a).toNat = (trap_index s b).toNat := by
        have ha := (h.index_lt a).1
        have hb0 := (h.index_lt b).1
        omega
      simp only [hne, false_and, if_false, hb]
      exact h.lines b

/-- One lookup in a cache that satisfies the invariant: it returns, hit (1) exactly when
the tag is among the `k` most recently accessed distinct tags of its set, and the
invariant holds again with the address added to the history. -/
theorem cacheInv_step {s : Sim} {k : Nat} {hist : List Nat} (h : CacheInv s k hist)
    (hk1 : 1 ≤ k) (hk : k ≤ 127) (a : Nat) :
    ∃ hit s', iplc_sim_trap_address s a = .ok (hit, s') ∧
      CacheInv s' k (hist ++ [a]) ∧
      (hit = 1 ↔ trap_tag s a ∈ (recency_order (same_index_tags s hist a)).take k) ∧
      (hit = 0 ∨ hit = 1) ∧
      s'.cache_index = s.cache_index ∧
      s'.cache_blockoffsetbits = s.cache_blockoffsetbits := by
  have hl := h.lines a
  cases hh : cache_line_assoc_handler s.cache_assoc
      (s.cache.getD (trap_index s a).toNat default) (trap_tag s a) with
  | some e =>
    have hh' := hh
    rw [h.assoc_eq] at hh'
    obtain ⟨hmem, hinv⟩ := lineInv_hit hl hk hh'
    refine ⟨_, _, trap_address_hit hh, ?_, ?_, Or.inr rfl, rfl, rfl⟩
    · refine cacheInv_after h rfl rfl rfl rfl ?_
      rw [h.assoc_eq]
      exact hinv
    · exact ⟨fun _ => hmem, fun _ => rfl⟩
  | none =>
    have hh' := hh
    rw [h.assoc_eq] at hh'
    obtain ⟨hmem, v, hv, hinv⟩ := lineInv_miss hl hk1 hk hh'
    have hv' : cache_line_select_replace s.cache_assoc
        (s.cache.getD (trap_index s a).toNat default) = .ok v := by
      rw [h.assoc_eq]; exact hv
    refine ⟨_, _, trap_address_miss hh hv', ?_, ?_, Or.inl rfl, rfl, rfl⟩
    · refine cacheInv_after h rfl rfl rfl rfl ?_
      rw [h.assoc_eq]
      exact hinv
    · exact ⟨fun hc => absurd hc (by decide), fun hc => absurd hc hmem⟩

/-! ## Sequences of lookups -/

theorem same_index_tags_config {s s' : Sim} (h1 : s'.cache_index = s.cache_index)
    (h2 : s'.cache_blockoffsetbits = s.cache_blockoffsetbits) :
    trap_index s' = trap_index s ∧ trap_tag s' = trap_tag s ∧
    same_index_tags s' = same_index_tags s := by
  have ei : trap_index s' = trap_index s := by
    funext b; unfold trap_index; rw [h1, h2]
  have et : trap_tag s' = trap_tag s := by
    funext b; unfold trap_tag; rw [h1, h2]
  refine ⟨ei, et, ?_⟩
  funext l b
  unfold same_index_tags
  rw [ei, et]

/-- Refinement: a sequence of lookups in a cache that satisfies the invariant returns
for every address, and the `n`-th return value is 1 exactly when the tag of the `n`-th
address is among the `k` most recently accessed distinct tags of the earlier accesses
to its set. -/
theorem trap_sequence_refines {k : Nat} (hk1 : 1 ≤ k) (hk : k ≤ 127) (addrs : List Nat) :
    ∀ (s : Sim) (hist : List Nat), CacheInv s k hist →
    ∃ hits s', trap_sequence s addrs = .ok (hits, s') ∧
      CacheInv s' k (hist ++ addrs) ∧
      s'.cache_index = s.cache_index ∧
      s'.cache_blockoffsetbits = s.cache_blockoffsetbits ∧
      hits.length = addrs.length ∧
      ∀ n, n < addrs.length →
        (hits.getD n 0 = 1 ↔
          trap_tag s (addrs.getD n 0) ∈
            (recency_order
              (same_index_tags s (hist ++ addrs.take n) (addrs.getD n 0))).take k) ∧
        (hits.getD n 0 = 0 ∨ hits.getD n 0 = 1) := by
  induction addrs with
  | nil =>
    intro s hist h
    refine ⟨[], s, rfl, by rw [List.append_nil]; exact h, rfl, rfl, rfl, ?_⟩
    intro n hn
    exact absurd hn (Nat.not_lt_zero n)
  | cons a as ih =>
    intro s hist h
    obtain ⟨hit, s1, h1, hinv1, hhit, h01, c1, c2⟩ := cacheInv_step h hk1 hk a
    obtain ⟨hits, s2, h2, hinv2, d1, d2, hlen, hall⟩ := ih s1 (hist ++ [a]) hinv1
    obtain ⟨ei, et, es⟩ := same_index_tags_config c1 c2
    refine ⟨hit :: hits, s2, ?_, ?_, d1.trans c1, d2.trans c2, ?_, ?_⟩
    · simp only [trap_sequence, h1, h2]
    · rw [List.append_assoc] at hinv2
      exact hinv2
    · simp only [List.length_cons, hlen]
    · intro n hn
      cases n with
      | zero =>
        simp only [List.getD_cons_zero, List.take_zero, List.append_nil]
        exact ⟨hhit, h01⟩
      | succ n =>
        have hn' : n < as.length := by
          simp only [List.length_cons] at hn; omega
        have := hall n hn'
        rw [et, es, List.append_assoc] at this
        simp only [List.getD_cons_succ, List.take_succ_cons]
        exact this

/-! ## Initialisation -/

theorem shl32_one {I : Nat} (h : I ≤ 30) : shl32 1 (I : Int) = ((2 ^ I : Nat) : Int) := by
  unfold shl32
  rw [Int.toNat_ofNat, one_mul]
  have h1 : (2 : Nat) ^ I ≤ 2 ^ 30 := Nat.pow_le_pow_right (by norm_num) h
  have h2 : ((2 : Int) ^ I) = ((2 ^ I : Nat) : Int) := by push_cast; rfl
  have h3 : ((2 ^ I : Nat) : Int) ≤ 2 ^ 30 := by exact_mod_cast h1
  have h4 : (0 : Int) ≤ ((2 ^ I : Nat) : Int) := Int.natCast_nonneg _
  rw [h2]
  exact toS32_of_range (by omega) (by omega)

/-- The block-offset bit count of a block of `n ≥ 1` bytes: at most 32, and rounded to
the nearest, in the sense that `2 ^ (2 * O - 1) ≤ n * n < 2 ^ (2 * O + 1)`. -/
theorem rint_log2_spec {n : Nat} (hn : 1 ≤ n) :
    ∃ O : Nat, rint_log2 (n : Int) = (O : Int) ∧ O ≤ 32 ∧
      (n * n < 2 ^ (2 * O + 1) ∨ O = 32) ∧ (1 ≤ O → 2 ^ (2 * O - 1) ≤ n * n) := by
  unfold rint_log2
  have hpos : ¬ ((n : Int) ≤ 0) := by omega
  simp only [hpos, if_false, Int.toNat_ofNat]
  cases hf : (List.range 32).find? (fun k => decide (n * n < 2 ^ (2 * k + 1))) with
  | none =>
    rw [List.find?_eq_none] at hf
    refine ⟨32, rfl, le_refl _, Or.inr rfl, fun _ => ?_⟩
    have := hf 31 (by simp)
    simp only [decide_eq_true_eq, not_lt] at this
    exact this
  | some j =>
    rw [List.find?_range_eq_some] at hf
    obtain ⟨h1, h2, h3⟩ := hf
    simp only [decide_eq_true_eq] at h1
    have hj : j < 32 := List.mem_range.1 h2
    refine ⟨j, rfl, by omega, Or.inl h1, fun hj1 => ?_⟩
    have := h3 (j - 1) (by omega)
    simp only [Bool.not_eq_true', decide_eq_false_iff_not, not_lt] at this
    have e : 2 * (j - 1) + 1 = 2 * j - 1 := by omega
    rw [e] at this
    exact this

/-- The size computed by `iplc_sim_init`, when no intermediate `int` overflows. -/
theorem cache_size_of_eq {I b k O : Nat} (hI : I ≤ 30) (hb : b < 2 ^ 25) (hk : k < 2 ^ 31)
    (hO : I + O ≤ 32 * b + 33) :
    cache_size_of (I : Int) (b : Int) (k : Int) (O : Int) =
      (k * 2 ^ I % 2 ^ 64 * (32 * b + 33 - I - O)) % 2 ^ 64 := by
  unfold cache_size_of
  rw [shl32_one hI]
  have e1 : toS32 (32 * (b : Int)) = 32 * (b : Int) := toS32_of_range (by omega) (by omega)
  have e2 : toS32 (32 * (b : Int) + 33) = 32 * (b : Int) + 33 :=
    toS32_of_range (by omega) (by omega)
  have e3 : toS32 (32 * (b : Int) + 33 - (I : Int)) = 32 * (b : Int) + 33 - (I : Int) :=
    toS32_of_range (by omega) (by omega)
  have e4 : toS32 (32 * (b : Int) + 33 - (I : Int) - (O : Int))
      = ((32 * b + 33 - I - O : Nat) : Int) := by
    rw [toS32_of_range (by omega) (by omega)]; omega
  rw [e1, e2, e3, e4]
  have u : ∀ m : Nat, m < 2 ^ 64 → toU64 (m : Int) = m := by
    intro m hm; unfold toU64; omega
  have h1 : (2 : Nat) ^ I ≤ 2 ^ 30 := Nat.pow_le_pow_right (by norm_num) hI
  rw [u k (by omega), u (2 ^ I) (by omega), u _ (by omega)]

/-- What a successful `iplc_sim_init` returns. -/
theorem init_ok_state {s0 s : Sim} {index blocksize assoc : Int}
    (h : iplc_sim_init s0 index blocksize assoc = .ok s) :
    cache_size_of index blocksize assoc (rint_log2 (toS32 (blocksize * 4))) ≤ MAX_CACHE_SIZE ∧
    s.cache_index = index ∧ s.cache_blocksize = blocksize ∧ s.cache_assoc = assoc ∧
    s.cache_blockoffsetbits = rint_log2 (toS32 (blocksize * 4)) ∧
    s.cache = List.replicate (shl32 1 index).toNat (cache_line_t.fresh assoc) ∧
    s.pipeline = ⟨.zeroed, .zeroed, .zeroed, .zeroed, .zeroed⟩ := by
  unfold iplc_sim_init at h
  simp only at h
  split at h
  · cases h
  · rename_i hc
    simp only [Except.ok.injEq] at h
    subst h
    exact ⟨not_lt.1 hc, rfl, rfl, rfl, rfl, rfl, rfl⟩

/-- Bit counts of a configuration that `iplc_sim_init` accepts, for at least one way
and arguments without `int` overflow. -/
theorem init_bits {I b k : Nat} (hI : I ≤ 30) (hb1 : 1 ≤ b) (hb : b ≤ 65536)
    (hk1 : 1 ≤ k) (hk : k ≤ 127)
    (hsize : cache_size_of (I : Int) (b : Int) (k : Int)
      (rint_log2 (toS32 ((b : Int) * 4))) ≤ MAX_CACHE_SIZE) :
    ∃ O : Nat, rint_log2 (toS32 ((b : Int) * 4)) = (O : Int) ∧ 2 ≤ O ∧ O ≤ 10 ∧ I ≤ 13 ∧
      k * 2 ^ I * (32 * b + 33 - I - O) ≤ MAX_CACHE_SIZE := by
  have e4 : toS32 ((b : Int) * 4) = ((4 * b : Nat) : Int) := by
    rw [toS32_of_range (by omega) (by omega)]; push_cast; ring
  obtain ⟨O, hO, hO32, hlt, hge⟩ := rint_log2_spec (n := 4 * b) (by omega)
  rw [e4, hO] at hsize
  rw [e4, hO]
  have hX : 1 ≤ 32 * b + 33 - I - O := by omega
  have hXu : 32 * b + 33 - I - O ≤ 2097185 := by omega
  have h2I : (2 : Nat) ^ I ≤ 2 ^ 30 := Nat.pow_le_pow_right (by norm_num) hI
  have hprod : k * 2 ^ I * (32 * b + 33 - I - O) ≤ 127 * 2 ^ 30 * 2097185 :=
    Nat.mul_le_mul (Nat.mul_le_mul hk h2I) hXu
  have hk2 : k * 2 ^ I ≤ 127 * 2 ^ 30 := Nat.mul_le_mul hk h2I
  have m1 : k * 2 ^ I % 2 ^ 64 = k * 2 ^ I := Nat.mod_eq_of_lt (by omega)
  have m2 : k * 2 ^ I * (32 * b + 33 - I - O) % 2 ^ 64
      = k * 2 ^ I * (32 * b + 33 - I - O) := Nat.mod_eq_of_lt (by omega)
  rw [cache_size_of_eq hI (by omega) (by omega) (by omega), m1, m2] at hsize
  unfold MAX_CACHE_SIZE at hsize ⊢
  have hI13 : I ≤ 13 := by
    by_contra hc
    have h14 : (2 : Nat) ^ 14 ≤ 2 ^ I := Nat.pow_le_pow_right (by norm_num) (by omega)
    have : 1 * 2 ^ I * 1 ≤ k * 2 ^ I * (32 * b + 33 - I - O) :=
      Nat.mul_le_mul (Nat.mul_le_mul hk1 (le_refl _)) hX
    omega
  have hXle : 32 * b + 33 - I - O ≤ 10240 := by
    have h1 : 1 ≤ k * 2 ^ I := Nat.mul_le_mul hk1 (Nat.one_le_two_pow)
    have : 1 * (32 * b + 33 - I - O) ≤ k * 2 ^ I * (32 * b + 33 - I - O) :=
      Nat.mul_le_mul h1 (le_refl _)
    omega
  have hb321 : 4 * b ≤ 1284 := by omega
  have hO10 : O ≤ 10 := by
    by_contra hc
    have h21 : (2 : Nat) ^ 21 ≤ 2 ^ (2 * O - 1) :=
      Nat.pow_le_pow_right (by norm_num) (by omega)
    have h1 := hge (by omega)
    have h2 : 4 * b * (4 * b) ≤ 1284 * 1284 := Nat.mul_le_mul hb321 hb321
    omega
  have hO2 : 2 ≤ O := by
    by_contra hc
    have h16 : 4 * 4 ≤ 4 * b * (4 * b) := Nat.mul_le_mul (by omega) (by omega)
    rcases hlt with h1 | h1
    · have h3 : (2 : Nat) ^ (2 * O + 1) ≤ 2 ^ 3 :=
        Nat.pow_le_pow_right (by norm_num) (by omega)
      omega
    · omega
  exact ⟨O, rfl, hO2, hO10, hI13, hsize⟩

theorem lineInv_fresh (k : Nat) : LineInv k (cache_line_t.fresh (k : Int)) [] := by
  constructor
  · simp only [cache_line_t.fresh, Int.toNat_ofNat, List.length_replicate]
  · simp only [cache_line_t.fresh, Int.toNat_ofNat, List.length_replicate]
  · simp only [cache_line_t.fresh, Int.toNat_ofNat, List.length_replicate]
  · exact List.nodup_nil
  · intro i _
    simp only [cache_line_t.fresh, getD_replicate_zero, List.length_nil, Nat.zero_min,
      ne_eq, not_true_eq_false, Nat.not_lt_zero]
  · intro i hi
    simp only [List.length_nil, Nat.zero_min, Nat.not_lt_zero] at hi
  · intro x hx
    exact absurd hx (List.not_mem_nil x)
  · intro i j hi
    simp only [List.length_nil, Nat.zero_min, Nat.not_lt_zero] at hi

/-- A cache as `iplc_sim_init` returns it, for `0 ≤ index ≤ 30`, `1 ≤ blocksize ≤ 65536`
and `1 ≤ assoc ≤ 127`, satisfies the invariant with the empty history; its index and
offset bit counts add up to at most 23. -/
theorem init_cacheInv {s0 s : Sim} {I b k : Nat}
    (hinit : iplc_sim_init s0 (I : Int) (b : Int) (k : Int) = .ok s)
    (hI : I ≤ 30) (hb1 : 1 ≤ b) (hb : b ≤ 65536) (hk1 : 1 ≤ k) (hk : k ≤ 127) :
    CacheInv s k [] ∧
    ∃ O : Nat, s.cache_index = (I : Int) ∧ s.cache_blockoffsetbits = (O : Int) ∧
      2 ≤ O ∧ I + O ≤ 23 ∧ s.cache.length = 2 ^ I := by
  obtain ⟨hsize, hci, _, hca, hco', hcc', _⟩ := init_ok_state hinit
  obtain ⟨O, hO, hO2, hO10, hI13, _⟩ := init_bits hI hb1 hb hk1 hk hsize
  have hco : s.cache_blockoffsetbits = (O : Int) := hco'.trans hO
  have hcc : s.cache = List.replicate (2 ^ I) (cache_line_t.fresh (k : Int)) := by
    rw [hcc', shl32_one hI, Int.toNat_ofNat]
  have hlen : s.cache.length = 2 ^ I := by rw [hcc, List.length_replicate]
  have hidx : ∀ a, 0 ≤ trap_index s a ∧ (trap_index s a).toNat < 2 ^ I := by
    intro a
    rw [trap_index_eq s I O hci hco (by omega) (by omega) (by omega) a, Int.toNat_ofNat]
    exact ⟨Int.natCast_nonneg _, Nat.mod_lt _ (by positivity)⟩
  have hcov : ∀ idx, idx < s.cache.length → ∃ a, (trap_index s a).toNat = idx := by
    intro idx hlt
    rw [hlen] at hlt
    refine ⟨idx * 2 ^ O, ?_⟩
    rw [trap_index_eq s I O hci hco (by omega) (by omega) (by omega), Int.toNat_ofNat,
      Nat.mul_div_cancel _ (by positivity), Nat.mod_eq_of_lt hlt]
  refine ⟨⟨hca, fun a => ⟨(hidx a).1, by rw [hlen]; exact (hidx a).2⟩, hcov, fun a => ?_⟩,
    O, hci, hco, hO2, by omega, hlen⟩
  have hget : s.cache.getD (trap_index s a).toNat default = cache_line_t.fresh (k : Int) := by
    rw [hcc, List.getD_eq_getElem?_getD, List.getElem?_replicate]
    simp only [(hidx a).2, if_true, Option.getD_some]
  rw [hget]
  exact lineInv_fresh k

/-! ## No `assert` in a cache that satisfies the invariant -/

/-- A set that satisfies the invariant has a way to replace. -/
theorem lineInv_victim {k : Nat} {line : cache_line_t} {R : List Int}
    (h : LineInv k line R) (hk1 : 1 ≤ k) :
    ∃ v, cache_line_select_replace (k : Int) line = .ok v := by
  by_cases hRk : R.length < k
  · have hfree : line.valid.getD R.length 0 = 0 := by
      by_contra hc
      have := (h.valid_iff R.length hRk).1 hc
      omega
    obtain ⟨v, hv, _⟩ := select_replace_first hRk (Or.inr hfree)
    exact ⟨v, hv⟩
  · have hkR : k ≤ R.length := not_lt.1 hRk
    have hm : min R.length k = k := min_eq_right hkR
    have hpos : k - 1 < R.length := by omega
    have hxR : R[k - 1] ∈ R := List.getElem_mem _
    have hxi : R.indexOf R[k - 1] = k - 1 := List.indexOf_getElem h.nodup (k - 1) hpos
    obtain ⟨c, hc, hTc⟩ := h.onto R[k - 1] hxR (by omega)
    rw [hm] at hc
    have hLc : line.last_accessed.getD c 0 = 0 := by
      have := (h.rank c (by omega)).2.2
      rw [hTc, hxi] at this
      omega
    obtain ⟨v, hv, _⟩ := select_replace_first hc (Or.inl hLc)
    exact ⟨v, hv⟩

/-- In a cache that satisfies the invariant no lookup reaches the `assert(0)` of
`cache_line_select_replace`. -/
theorem cacheInv_has_victims {s : Sim} {k : Nat} {hist : List Nat}
    (h : CacheInv s k hist) (hk1 : 1 ≤ k) : s.has_victims := by
  intro idx
  rw [h.assoc_eq]
  by_cases hlt : idx < s.cache.length
  · obtain ⟨a, ha⟩ := h.covers idx hlt
    rw [← ha]
    exact lineInv_victim (h.lines a) hk1
  · rw [List.getD_eq_default _ _ (not_lt.1 hlt)]
    obtain ⟨v, hv, _⟩ := @select_replace_first k default 0 (by omega) (Or.inl rfl)
    exact ⟨v, hv⟩

/-- After every sequence of lookups on a cache as `iplc_sim_init` returns it
(`1 ≤ k ≤ 127` ways, `0 ≤ index ≤ 30`, `1 ≤ blocksize ≤ 65536`), every set has a way to
replace. -/
theorem has_victims_after_init {s0 s : Sim} {I b k : Nat}
    (hinit : iplc_sim_init s0 (I : Int) (b : Int) (k : Int) = .ok s)
    (hI : I ≤ 30) (hb1 : 1 ≤ b) (hb : b ≤ 65536) (hk1 : 1 ≤ k) (hk : k ≤ 127)
    (addrs : List Nat) :
    ∃ hits s', trap_sequence s addrs = .ok (hits, s') ∧ s'.has_victims := by
  obtain ⟨hinv, _⟩ := init_cacheInv hinit hI hb1 hb hk1 hk
  obtain ⟨hits, s', h1, hinv', _⟩ := trap_sequence_refines hk1 hk addrs s [] hinv
  exact ⟨hits, s', h1, cacheInv_has_victims hinv' hk1⟩

/-! ## The replacement policy is exact LRU -/

theorem recency_order_nodup (T : List Int) (h : T.Nodup) : recency_order T = T.reverse := by
  induction T using List.reverseRecOn with
  | nil => rfl
  | append_singleton l t ih =>
    rw [recency_order_append, List.reverse_append, List.reverse_singleton,
      List.singleton_append]
    have hl : l.Nodup := (List.nodup_append.1 h).1
    have ht : t ∉ l := by
      intro hm
      have := (List.nodup_append.1 h).2.2
      exact this hm (List.mem_singleton_self t)
    rw [ih hl, List.erase_of_not_mem (by simpa using ht)]

/-- C2. Exact LRU.  On a cache as `iplc_sim_init` returns it (`1 ≤ k ≤ 127` ways,
`0 ≤ index ≤ 30`, `1 ≤ blocksize ≤ 65536`), every sequence of calls of
`iplc_sim_trap_address` returns, and the `n`-th call returns 1 (hit) exactly when its
tag is among the `k` most recently accessed distinct tags of the earlier accesses that
mapped to the same index; otherwise it returns 0. -/
theorem exact_lru (s0 s : Sim) (index blocksize : Int) (k : Nat)
    (hinit : iplc_sim_init s0 index blocksize (k : Int) = .ok s)
    (hk1 : 1 ≤ k) (hk : k ≤ 127) (hi0 : 0 ≤ index) (hi : index ≤ 30)
    (hb1 : 1 ≤ blocksize) (hb : blocksize ≤ 65536) (addrs : List Nat) :
    ∃ hits s', trap_sequence s addrs = .ok (hits, s') ∧ hits.length = addrs.length ∧
      ∀ n, n < addrs.length →
        (hits.getD n 0 = 1 ↔
          trap_tag s (addrs.getD n 0) ∈
            (recency_order (same_index_tags s (addrs.take n) (addrs.getD n 0))).take k) ∧
        (hits.getD n 0 = 0 ∨ hits.getD n 0 = 1) := by
  lift index to ℕ using hi0
  lift blocksize to ℕ using (by omega : 0 ≤ blocksize)
  obtain ⟨hinv, _⟩ := init_cacheInv hinit (by omega) (by omega) (by omega) hk1 hk
  obtain ⟨hits, s', h1, _, _, _, hlen, hall⟩ :=
    trap_sequence_refines hk1 hk addrs s [] hinv
  refine ⟨hits, s', h1, hlen, fun n hn => ?_⟩
  have := hall n hn
  rw [List.nil_append] at this
  exact this

theorem exact_lru_witness :
    ∃ hits s', trap_sequence
        { Sim.start with
          cache_index := 1, cache_blocksize := 1, cache_assoc := 2,
          cache_blockoffsetbits := 2,
          cache := [cache_line_t.fresh 2, cache_line_t.fresh 2] } [0, 8, 0] = .ok (hits, s') ∧
      hits.length = 3 :=
  match exact_lru Sim.start
      { Sim.start with
        cache_index := 1, cache_blocksize := 1, cache_assoc := 2,
        cache_blockoffsetbits := 2,
        cache := [cache_line_t.fresh 2, cache_line_t.fresh 2] }
      1 1 2 rfl (by decide) (by decide) (by decide) (by decide) (by decide) (by decide)
      [0, 8, 0] with
  | ⟨hits, s', h, hl, _⟩ => ⟨hits, s', h, hl⟩


/-- When all addresses of `addrs` map to the set of `a`, the tags accessed in that set
are the tags of `addrs`. -/
theorem same_index_tags_all (s : Sim) (addrs : List Nat) (a : Nat)
    (h : ∀ b, b ∈ addrs → trap_index s b = trap_index s a) :
    same_index_tags s addrs a = addrs.map (trap_tag s) := by
  unfold same_index_tags
  rw [List.filter_eq_self.2]
  intro b hb
  simp only [decide_eq_true_eq]
  exact h b hb

/-- C1. LRU eviction law.  On a cache as `iplc_sim_init` returns it (`1 ≤ k ≤ 127` ways,
`0 ≤ index ≤ 30`, `1 ≤ blocksize ≤ 65536`), after `k + 1` addresses with one common
index and pairwise distinct tags have each been accessed once, a next access to the
first of them returns 0 (miss), and a next access to any of the other `k` returns 1
(hit). -/
theorem lru_eviction_law (s0 s : Sim) (index blocksize : Int) (k : Nat)
    (hinit : iplc_sim_init s0 index blocksize (k : Int) = .ok s)
    (hk1 : 1 ≤ k) (hk : k ≤ 127) (hi0 : 0 ≤ index) (hi : index ≤ 30)
    (hb1 : 1 ≤ blocksize) (hb : blocksize ≤ 65536)
    (first : Nat) (others : List Nat) (hlen : others.length = k)
    (hidx : ∀ b, b ∈ others → trap_index s b = trap_index s first)
    (htags : ((first :: others).map (trap_tag s)).Nodup) :
    ∃ hits s1, trap_sequence s (first :: others) = .ok (hits, s1) ∧
      (∃ s2, iplc_sim_trap_address s1 first = .ok (0, s2)) ∧
      ∀ a, a ∈ others → ∃ s2, iplc_sim_trap_address s1 a = .ok (1, s2) := by
  lift index to ℕ using hi0
  lift blocksize to ℕ using (by omega : 0 ≤ blocksize)
  obtain ⟨hinv, _⟩ := init_cacheInv hinit (by omega) (by omega) (by omega) hk1 hk
  obtain ⟨hits, s1, h1, hinv1, c1, c2, _, _⟩ :=
    trap_sequence_refines hk1 hk (first :: others) s [] hinv
  rw [List.nil_append] at hinv1
  obtain ⟨ei, et, es⟩ := same_index_tags_config c1 c2
  have hall : ∀ b, b ∈ first :: others → trap_index s b = trap_index s first := by
    intro b hb
    rcases List.mem_cons.1 hb with h | h
    · rw [h]
    · exact hidx b h
  -- the `k` most recent tags are the tags of `others`
  have hrec : ∀ a, a ∈ first :: others →
      (recency_order (same_index_tags s (first :: others) a)).take k
        = (others.map (trap_tag s)).reverse := by
    intro a ha
    have hsame : ∀ b, b ∈ first :: others → trap_index s b = trap_index s a := by
      intro b hb; rw [hall b hb, hall a ha]
    rw [same_index_tags_all s _ a hsame, recency_order_nodup _ htags, List.map_cons,
      List.reverse_cons]
    apply List.take_left'
    rw [List.length_reverse, List.length_map, hlen]
  refine ⟨hits, s1, h1, ?_, ?_⟩
  · obtain ⟨hit, s2, h2, _, hhit, h01, _⟩ := cacheInv_step hinv1 hk1 hk first
    rw [et, es, hrec first (List.mem_cons_self _ _)] at hhit
    have hnot : trap_tag s first ∉ (others.map (trap_tag s)).reverse := by
      rw [List.mem_reverse]
      exact (List.nodup_cons.1 htags).1
    have h0 : hit = 0 := by
      rcases h01 with h | h
      · exact h
      · exact absurd (hhit.1 h) hnot
    exact ⟨s2, by rw [h2, h0]⟩
  · intro a ha
    obtain ⟨hit, s2, h2, _, hhit, _, _⟩ := cacheInv_step hinv1 hk1 hk a
    rw [et, es, hrec a (List.mem_cons_of_mem _ ha)] at hhit
    have hmem : trap_tag s a ∈ (others.map (trap_tag s)).reverse := by
      rw [List.mem_reverse]
      exact List.mem_map_of_mem _ ha
    exact ⟨s2, by rw [h2, hhit.2 hmem]⟩

theorem lru_eviction_law_witness :
    ∃ hits s1, trap_sequence
        { Sim.start with
          cache_index := 1, cache_blocksize := 1, cache_assoc := 2,
          cache_blockoffsetbits := 2,
          cache := [cache_line_t.fresh 2, cache_line_t.fresh 2] } [0, 8, 16]
        = .ok (hits, s1) ∧
      (∃ s2, iplc_sim_trap_address s1 0 = .ok (0, s2)) ∧
      ∀ a, a ∈ [8, 16] → ∃ s2, iplc_sim_trap_address s1 a = .ok (1, s2) :=
  lru_eviction_law Sim.start
    { Sim.start with
      cache_index := 1, cache_blocksize := 1, cache_assoc := 2,
      cache_blockoffsetbits := 2,
      cache := [cache_line_t.fresh 2, cache_line_t.fresh 2] }
    1 1 2 rfl (by decide) (by decide) (by decide) (by decide) (by decide) (by decide)
    0 [8, 16] rfl (by decide) (by decide)


/-- A list of six return values is given by its entries. -/
theorem list_of_six (hits : List Int) (h : hits.length = 6) :
    hits = [hits.getD 0 0, hits.getD 1 0, hits.getD 2 0, hits.getD 3 0, hits.getD 4 0,
      hits.getD 5 0] := by
  match hits, h with
  | [_, _, _, _, _, _], _ => rfl

/-- C7. Scenario B (2-way).  On a cache with two ways as `iplc_sim_init` returns it
(`0 ≤ index ≤ 30`, `1 ≤ blocksize ≤ 65536`), for two addresses `A` and `B` with equal
index and different tags, the accesses `A, B, A, B, A, B` return
miss, miss, hit, hit, hit, hit. -/
theorem scenario_two_way (s0 s : Sim) (index blocksize : Int)
    (hinit : iplc_sim_init s0 index blocksize 2 = .ok s)
    (hi0 : 0 ≤ index) (hi : index ≤ 30) (hb1 : 1 ≤ blocksize) (hb : blocksize ≤ 65536)
    (A B : Nat) (hidx : trap_index s A = trap_index s B)
    (htag : trap_tag s A ≠ trap_tag s B) :
    ∃ s', trap_sequence s [A, B, A, B, A, B] = .ok ([0, 0, 1, 1, 1, 1], s') := by
  lift index to ℕ using hi0
  lift blocksize to ℕ using (by omega : 0 ≤ blocksize)
  obtain ⟨hinv, _⟩ := init_cacheInv (k := 2) hinit (by omega) (by omega) (by omega)
    (by decide) (by decide)
  obtain ⟨hits, s', h1, _, _, _, hlen, hall⟩ :=
    trap_sequence_refines (k := 2) (by decide) (by decide) [A, B, A, B, A, B] s [] hinv
  have htag' : trap_tag s B ≠ trap_tag s A := fun h => htag h.symm
  have tA : ∀ l : List Nat, (∀ b, b ∈ l → b = A ∨ b = B) →
      same_index_tags s l A = l.map (trap_tag s) := by
    intro l hl
    apply same_index_tags_all
    intro b hb
    rcases hl b hb with h | h
    · rw [h]
    · rw [h, hidx]
  have tB : ∀ l : List Nat, (∀ b, b ∈ l → b = A ∨ b = B) →
      same_index_tags s l B = l.map (trap_tag s) := by
    intro l hl
    apply same_index_tags_all
    intro b hb
    rcases hl b hb with h | h
    · rw [h, hidx]
    · rw [h]
  have e1 : ∀ x y : Int, x ≠ y → [y, x].erase x = [y] := by
    intro x y hxy
    have : ¬ (y == x) = true := by simpa using fun h : y = x => hxy h.symm
    rw [List.erase_cons_tail this, List.erase_cons_head]
  have r1 : recency_order [trap_tag s A] = [trap_tag s A] := rfl
  have r2 : recency_order [trap_tag s A, trap_tag s B] = [trap_tag s B, trap_tag s A] := by
    have : [trap_tag s A, trap_tag s B] = [trap_tag s A] ++ [trap_tag s B] := rfl
    rw [this, recency_order_append, r1, List.erase_of_not_mem (by simpa using htag')]
  have r3 : recency_order [trap_tag s A, trap_tag s B, trap_tag s A]
      = [trap_tag s A, trap_tag s B] := by
    have : [trap_tag s A, trap_tag s B, trap_tag s A]
        = [trap_tag s A, trap_tag s B] ++ [trap_tag s A] := rfl
    rw [this, recency_order_append, r2, e1 _ _ htag]
  have r4 : recency_order [trap_tag s A, trap_tag s B, trap_tag s A, trap_tag s B]
      = [trap_tag s B, trap_tag s A] := by
    have : [trap_tag s A, trap_tag s B, trap_tag s A, trap_tag s B]
        = [trap_tag s A, trap_tag s B, trap_tag s A] ++ [trap_tag s B] := rfl
    rw [this, recency_order_append, r3, e1 _ _ htag']
  have r5 : recency_order
      [trap_tag s A, trap_tag s B, trap_tag s A, trap_tag s B, trap_tag s A]
      = [trap_tag s A, trap_tag s B] := by
    have : [trap_tag s A, trap_tag s B, trap_tag s A, trap_tag s B, trap_tag s A]
        = [trap_tag s A, trap_tag s B, trap_tag s A, trap_tag s B] ++ [trap_tag s A] := rfl
    rw [this, recency_order_append, r4, e1 _ _ htag]
  have k0 : hits.getD 0 0 = 0 := by
    obtain ⟨hiff, h01⟩ := hall 0 (by simp)
    rw [List.nil_append] at hiff
    have : hits.getD 0 0 ≠ 1 := by
      rw [Ne, hiff]
      simp [same_index_tags, recency_order]
    rcases h01 with h | h
    · exact h
    · exact absurd h this
  have k1 : hits.getD 1 0 = 0 := by
    obtain ⟨hiff, h01⟩ := hall 1 (by simp)
    rw [List.nil_append] at hiff
    have : hits.getD 1 0 ≠ 1 := by
      rw [Ne, hiff]
      simp only [List.getD_cons_succ, List.getD_cons_zero, List.take_succ_cons,
        List.take_zero]
      rw [tB [A] (by simp), List.map_cons, List.map_nil, r1]
      simp [htag']
    rcases h01 with h | h
    · exact h
    · exact absurd h this
  have k2 : hits.getD 2 0 = 1 := by
    obtain ⟨hiff, _⟩ := hall 2 (by simp)
    rw [List.nil_append] at hiff
    rw [hiff]
    simp only [List.getD_cons_succ, List.getD_cons_zero, List.take_succ_cons,
      List.take_zero]
    rw [tA [A, B] (by simp)]
    simp only [List.map_cons, List.map_nil]
    rw [r2]
    simp
  have k3 : hits.getD 3 0 = 1 := by
    obtain ⟨hiff, _⟩ := hall 3 (by simp)
    rw [List.nil_append] at hiff
    rw [hiff]
    simp only [List.getD_cons_succ, List.getD_cons_zero, List.take_succ_cons,
      List.take_zero]
    rw [tB [A, B, A] (by simp)]
    simp only [List.map_cons, List.map_nil]
    rw [r3]
    simp
  have k4 : hits.getD 4 0 = 1 := by
    obtain ⟨hiff, _⟩ := hall 4 (by simp)
    rw [List.nil_append] at hiff
    rw [hiff]
    simp only [List.getD_cons_succ, List.getD_cons_zero, List.take_succ_cons,
      List.take_zero]
    rw [tA [A, B, A, B] (by simp)]
    simp only [List.map_cons, List.map_nil]
    rw [r4]
    simp
  have k5 : hits.getD 5 0 = 1 := by
    obtain ⟨hiff, _⟩ := hall 5 (by simp)
    rw [List.nil_append] at hiff
    rw [hiff]
    simp only [List.getD_cons_succ, List.getD_cons_zero, List.take_succ_cons,
      List.take_zero]
    rw [tB [A, B, A, B, A] (by simp)]
    simp only [List.map_cons, List.map_nil]
    rw [r5]
    simp
  refine ⟨s', ?_⟩
  rw [h1, list_of_six hits (by simpa using hlen), k0, k1, k2, k3, k4, k5]

theorem scenario_two_way_witness :
    ∃ s', trap_sequence
        { Sim.start with
          cache_index := 1, cache_blocksize := 1, cache_assoc := 2,
          cache_blockoffsetbits := 2,
          cache := [cache_line_t.fresh 2, cache_line_t.fresh 2] } [0, 8, 0, 8, 0, 8]
        = .ok ([0, 0, 1, 1, 1, 1], s') :=
  scenario_two_way Sim.start
    { Sim.start with
      cache_index := 1, cache_blocksize := 1, cache_assoc := 2,
      cache_blockoffsetbits := 2,
      cache := [cache_line_t.fresh 2, cache_line_t.fresh 2] }
    1 1 rfl (by decide) (by decide) (by decide) (by decide) 0 8 (by decide) (by decide)

/-! ## Scenario A and the capacity check -/

/-- C6, counterexample.  The configuration of Scenario A is rejected: with `index = 10`,
`blocksize = 1`, `assoc = 1` the computed size is `1 * 2^10 * (32 + 33 - 10 - 2) = 54272`,
above `MAX_CACHE_SIZE = 10240`. -/
theorem scenario_direct_mapped_rejected :
    cache_size_of 10 1 1 (rint_log2 (toS32 (1 * 4))) = 54272 ∧
    iplc_sim_init Sim.start 10 1 1 = .error .cacheTooBig :=
  ⟨by decide, rfl⟩

theorem list_of_three (hits : List Int) (h : hits.length = 3) :
    hits = [hits.getD 0 0, hits.getD 1 0, hits.getD 2 0] := by
  match hits, h with
  | [_, _, _], _ => rfl

/-- C6, as the code has it.  `iplc_sim_init(10, 1, 1)` is rejected by the capacity check;
for every index bit count from 1 to 7, `iplc_sim_init(index, 1, 1)` succeeds with 2
offset bits, the addresses `0x0` and `0x4` map to different indices, and the accesses
`0x0, 0x4, 0x0` return miss, miss, hit. -/
theorem scenario_direct_mapped (s0 : Sim) (index : Int) (h1 : 1 ≤ index) (h7 : index ≤ 7) :
    (∀ s00, iplc_sim_init s00 10 1 1 = .error .cacheTooBig) ∧
    ∃ s, iplc_sim_init s0 index 1 1 = .ok s ∧ s.cache_blockoffsetbits = 2 ∧
      trap_index s 0 ≠ trap_index s 4 ∧
      ∃ s', trap_sequence s [0, 4, 0] = .ok ([0, 0, 1], s') := by
  refine ⟨fun s00 => rfl, ?_⟩
  lift index to ℕ using (by omega : 0 ≤ index)
  have hI1 : 1 ≤ index := by omega
  have hI7 : index ≤ 7 := by omega
  have hO : rint_log2 (toS32 (1 * 4)) = 2 := by decide
  have hsize : cache_size_of (index : Int) 1 1 2 ≤ MAX_CACHE_SIZE := by
    interval_cases index <;> decide
  cases hinit : iplc_sim_init s0 (index : Int) 1 1 with
  | error e =>
    exfalso
    unfold iplc_sim_init at hinit
    simp only [hO] at hinit
    split at hinit
    · omega
    · cases hinit
  | ok s =>
    obtain ⟨_, hci, _, _, hco, _, _⟩ := init_ok_state hinit
    rw [hO] at hco
    have hinit' : iplc_sim_init s0 (index : Int) ((1 : Nat) : Int) ((1 : Nat) : Int) = .ok s :=
      hinit
    obtain ⟨hinv, _⟩ := init_cacheInv hinit' (by omega) (by decide) (by decide)
      (by decide) (by decide)
    have hi := trap_index_eq s index 2 hci hco (by omega) (by omega) (by omega)
    have hi0 : trap_index s 0 = 0 := by rw [hi 0]; simp
    have hi4 : trap_index s 4 = 1 := by
      rw [hi 4]
      have : (1 : Nat) < 2 ^ index :=
        lt_of_lt_of_le (by norm_num) (Nat.pow_le_pow_right (by norm_num) hI1)
      simp [Nat.mod_eq_of_lt this]
    have hne : trap_index s 0 ≠ trap_index s 4 := by rw [hi0, hi4]; decide
    refine ⟨s, rfl, hco, hne, ?_⟩
    obtain ⟨hits, s', hseq, _, _, _, hlen, hall⟩ :=
      trap_sequence_refines (k := 1) (by decide) (by decide) [0, 4, 0] s [] hinv
    have k0 : hits.getD 0 0 = 0 := by
      obtain ⟨hiff, h01⟩ := hall 0 (by simp)
      have : hits.getD 0 0 ≠ 1 := by
        rw [Ne, hiff]
        simp [same_index_tags, recency_order]
      rcases h01 with h | h
      · exact h
      · exact absurd h this
    have k1 : hits.getD 1 0 = 0 := by
      obtain ⟨hiff, h01⟩ := hall 1 (by simp)
      have : hits.getD 1 0 ≠ 1 := by
        rw [Ne, hiff]
        simp [same_index_tags, recency_order, hne]
      rcases h01 with h | h
      · exact h
      · exact absurd h this
    have k2 : hits.getD 2 0 = 1 := by
      obtain ⟨hiff, _⟩ := hall 2 (by simp)
      rw [hiff]
      simp [same_index_tags, recency_order, hne.symm]
    refine ⟨s', ?_⟩
    rw [hseq, list_of_three hits (by simpa using hlen), k0, k1, k2]

theorem scenario_direct_mapped_witness :
    ∃ s, iplc_sim_init Sim.start 7 1 1 = .ok s ∧ s.cache_blockoffsetbits = 2 ∧
      trap_index s 0 ≠ trap_index s 4 ∧
      ∃ s', trap_sequence s [0, 4, 0] = .ok ([0, 0, 1], s') :=
  (scenario_direct_mapped Sim.start 7 (by decide) (by decide)).2

/-- C3, the code at the failing input.  For `index = 30`, `blocksize = 2`,
`assoc = 2^28` there are 3 offset bits and the capacity is `2^28 * 2^30 * 64 = 2^64`,
far above `MAX_CACHE_SIZE`; the `unsigned long` product wraps to 0, the check passes,
and `iplc_sim_init` goes on with `2^30` sets of `2^28` ways instead of failing. -/
theorem init_capacity_check_wraps :
    rint_log2 (toS32 (2 * 4)) = 3 ∧
    (268435456 : Int) * 2 ^ 30 * (32 * 2 + 33 - 30 - 3) > 10240 ∧
    cache_size_of 30 2 268435456 3 = 0 ∧
    ∃ s, iplc_sim_init Sim.start 30 2 268435456 = .ok s ∧
      s.cache_assoc = 268435456 ∧ s.cache.length = 2 ^ 30 := by
  have hO : rint_log2 (toS32 (2 * 4)) = 3 := by decide
  have hsz : cache_size_of 30 2 268435456 3 = 0 := by decide
  refine ⟨hO, by norm_num, hsz, ?_⟩
  cases hinit : iplc_sim_init Sim.start 30 2 268435456 with
  | error e =>
    exfalso
    unfold iplc_sim_init at hinit
    simp only [hO, hsz] at hinit
    split at hinit
    · rename_i hc
      exact absurd hc (by decide)
    · cases hinit
  | ok s =>
    obtain ⟨_, _, _, hca, _, hcc, _⟩ := init_ok_state hinit
    refine ⟨s, rfl, hca, ?_⟩
    rw [hcc, List.length_replicate]
    decide

/-- The capacity check of `iplc_sim_init` on arguments without overflow
(`0 ≤ index ≤ 30`, `1 ≤ blocksize ≤ 65536`, `0 ≤ assoc < 2^31`, capacity below `2^64`):
the call fails exactly when the capacity
`assoc * 2^index * (32 * blocksize + 33 - index - offsetBits)` exceeds `MAX_CACHE_SIZE`;
otherwise it returns `2^index` sets, each with `assoc` ways that are invalid with tag 0
and rank 0, and five zeroed NOP slots. -/
theorem init_in_range (s0 : Sim) (I b k : Nat) (hI : I ≤ 30) (hb1 : 1 ≤ b) (hb : b ≤ 65536)
    (hk : k < 2 ^ 31) :
    ∃ O : Nat, rint_log2 (toS32 ((b : Int) * 4)) = (O : Int) ∧ O ≤ 32 ∧
      (k * 2 ^ I * (32 * b + 33 - I - O) < 2 ^ 64 →
        (iplc_sim_init s0 (I : Int) (b : Int) (k : Int) = .error .cacheTooBig ↔
          k * 2 ^ I * (32 * b + 33 - I - O) > MAX_CACHE_SIZE) ∧
        (k * 2 ^ I * (32 * b + 33 - I - O) ≤ MAX_CACHE_SIZE →
          ∃ s, iplc_sim_init s0 (I : Int) (b : Int) (k : Int) = .ok s ∧
            s.cache = List.replicate (2 ^ I) (cache_line_t.fresh (k : Int)) ∧
            (cache_line_t.fresh (k : Int)).valid = List.replicate k 0 ∧
            (cache_line_t.fresh (k : Int)).tag = List.replicate k 0 ∧
            (cache_line_t.fresh (k : Int)).last_accessed = List.replicate k 0 ∧
            s.pipeline = ⟨.zeroed, .zeroed, .zeroed, .zeroed, .zeroed⟩ ∧
            pipeline_t.zeroed = ⟨.NOP, 0, .zero⟩)) := by
  have e4 : toS32 ((b : Int) * 4) = ((4 * b : Nat) : Int) := by
    rw [toS32_of_range (by omega) (by omega)]; push_cast; ring
  obtain ⟨O, hO, hO32, _, _⟩ := rint_log2_spec (n := 4 * b) (by omega)
  rw [e4]
  refine ⟨O, hO, hO32, fun hlt => ?_⟩
  have h2I : (2 : Nat) ^ I ≤ 2 ^ 30 := Nat.pow_le_pow_right (by norm_num) hI
  have hk2 : k * 2 ^ I ≤ 2 ^ 31 * 2 ^ 30 := Nat.mul_le_mul (le_of_lt hk) h2I
  have m1 : k * 2 ^ I % 2 ^ 64 = k * 2 ^ I := Nat.mod_eq_of_lt (by omega)
  have hsize : cache_size_of (I : Int) (b : Int) (k : Int) (O : Int)
      = k * 2 ^ I * (32 * b + 33 - I - O) := by
    rw [cache_size_of_eq hI (by omega) hk (by omega), m1, Nat.mod_eq_of_lt hlt]
  have hdef : iplc_sim_init s0 (I : Int) (b : Int) (k : Int) =
      if k * 2 ^ I * (32 * b + 33 - I - O) > MAX_CACHE_SIZE then .error .cacheTooBig
      else .ok { s0 with
        cache_index := (I : Int), cache_blocksize := (b : Int), cache_assoc := (k : Int),
        cache_blockoffsetbits := (O : Int),
        cache := List.replicate (2 ^ I) (cache_line_t.fresh (k : Int)),
        pipeline := ⟨.zeroed, .zeroed, .zeroed, .zeroed, .zeroed⟩ } := by
    unfold iplc_sim_init
    simp only [e4, hO, hsize, shl32_one hI, Int.toNat_ofNat]
  constructor
  · rw [hdef]
    constructor
    · intro h
      by_contra hc
      rw [if_neg hc] at h
      cases h
    · intro h
      rw [if_pos h]
  · intro hle
    refine ⟨_, by rw [hdef, if_neg (not_lt.2 hle)], rfl, ?_, ?_, ?_, rfl, rfl⟩
    · simp only [cache_line_t.fresh, Int.toNat_ofNat]
    · simp only [cache_line_t.fresh, Int.toNat_ofNat]
    · simp only [cache_line_t.fresh, Int.toNat_ofNat]

/-! ## The pipeline advance, step by step -/

theorem add32_add32 (c a b : Nat) : add32 (add32 c a) b = (c + (a + b)) % 2 ^ 32 := by
  unfold add32; omega

/-- Step 1 touches `instruction_count` only. -/
theorem push_step1_fields (s : Sim) :
    (push_step1 s).pipeline = s.pipeline ∧
    (push_step1 s).pipeline_cycles = s.pipeline_cycles ∧
    (push_step1 s).branch_predict_taken = s.branch_predict_taken ∧
    (push_step1 s).cache = s.cache ∧ (push_step1 s).cache_assoc = s.cache_assoc ∧
    (push_step1 s).cache_index = s.cache_index ∧
    (push_step1 s).cache_blockoffsetbits = s.cache_blockoffsetbits ∧
    (push_step1 s).instruction_count =
      (if s.pipeline.WRITEBACK.instruction_address ≠ 0 then add32 s.instruction_count 1
        else s.instruction_count) := by
  unfold push_step1
  split_ifs <;> exact ⟨rfl, rfl, rfl, rfl, rfl, rfl, rfl, rfl⟩

/-- Step 2 never touches the cache or the configuration. -/
theorem push_step2_config (s : Sim) :
    (push_step2 s).cache = s.cache ∧ (push_step2 s).cache_assoc = s.cache_assoc ∧
    (push_step2 s).cache_index = s.cache_index ∧
    (push_step2 s).cache_blockoffsetbits = s.cache_blockoffsetbits ∧
    (push_step2 s).branch_predict_taken = s.branch_predict_taken ∧
    (push_step2 s).instruction_address = s.instruction_address := by
  unfold push_step2
  simp only
  split_ifs <;> exact ⟨rfl, rfl, rfl, rfl, rfl, rfl⟩

/-- Step 2 without a wrong prediction: slots, cycles and retired count are unchanged. -/
theorem push_step2_of_not_mispredicted (s : Sim) (h : ¬ mispredicted s) :
    (push_step2 s).pipeline = s.pipeline ∧
    (push_step2 s).pipeline_cycles = s.pipeline_cycles ∧
    (push_step2 s).instruction_count = s.instruction_count := by
  unfold mispredicted at h
  unfold push_step2 add32
  simp only
  by_cases h1 : s.pipeline.DECODE.itype = .BRANCH
  · by_cases h2 : s.pipeline.FETCH.instruction_address = 0
    · simp only [h1, h2, if_true, ne_eq, not_true_eq_false, if_false, and_self]
    · by_cases h3 : (if (s.pipeline.DECODE.instruction_address + 4) % 2 ^ 32
            = s.pipeline.FETCH.instruction_address then 0 else 1) = s.branch_predict_taken
      · simp only [h1, h2, h3, if_true, ne_eq, not_false_eq_true, and_self]
      · exact absurd ⟨h1, h2, h3⟩ h
  · simp only [h1, if_false, and_self]

/-- Step 2 on a wrong prediction: one penalty cycle, the extra shift
(WRITEBACK←MEM, MEM←ALU, ALU←DECODE), the slot that reached WRITEBACK is counted when its
address is nonzero, and DECODE is cleared. -/
theorem push_step2_of_mispredicted (s : Sim) (h : mispredicted s) :
    (push_step2 s).pipeline =
      ⟨s.pipeline.FETCH, .zeroed, s.pipeline.DECODE, s.pipeline.ALU, s.pipeline.MEM⟩ ∧
    (push_step2 s).pipeline_cycles = add32 s.pipeline_cycles 1 ∧
    (push_step2 s).instruction_count =
      (if s.pipeline.MEM.instruction_address ≠ 0 then add32 s.instruction_count 1
        else s.instruction_count) := by
  obtain ⟨h1, h2, h3⟩ := h
  unfold push_step2 add32
  simp only [h1, h2, h3, if_true, ne_eq, not_false_eq_true, if_false]
  split_ifs <;> exact ⟨rfl, rfl, rfl⟩

theorem mispredicted_step1 (s : Sim) : mispredicted (push_step1 s) ↔ mispredicted s := by
  obtain ⟨h1, _, h3, _⟩ := push_step1_fields s
  unfold mispredicted
  rw [h1, h3]

/-- Steps 5 to 7, field by field. -/
theorem push_step567_fields (s : Sim) :
    (push_step567 s).pipeline =
      ⟨.zeroed, s.pipeline.FETCH, s.pipeline.DECODE, s.pipeline.ALU, s.pipeline.MEM⟩ ∧
    (push_step567 s).pipeline_cycles = add32 s.pipeline_cycles 1 ∧
    (push_step567 s).instruction_count = s.instruction_count ∧
    (push_step567 s).cache = s.cache ∧ (push_step567 s).cache_assoc = s.cache_assoc ∧
    (push_step567 s).cache_index = s.cache_index ∧
    (push_step567 s).cache_blockoffsetbits = s.cache_blockoffsetbits ∧
    (push_step567 s).branch_predict_taken = s.branch_predict_taken :=
  ⟨rfl, rfl, rfl, rfl, rfl, rfl, rfl, rfl⟩

/-- The invariant of the cache looks at the cache arrays and the configuration only. -/
theorem cacheInv_congr {s t : Sim} {k : Nat} {hist : List Nat} (h : CacheInv s k hist)
    (hc : t.cache = s.cache) (ha : t.cache_assoc = s.cache_assoc)
    (hi : t.cache_index = s.cache_index)
    (ho : t.cache_blockoffsetbits = s.cache_blockoffsetbits) : CacheInv t k hist := by
  obtain ⟨ei, _, es⟩ := same_index_tags_config hi ho
  constructor
  · rw [ha]; exact h.assoc_eq
  · intro a; rw [ei, hc]; exact h.index_lt a
  · intro idx hidx
    rw [hc] at hidx
    obtain ⟨a, ha'⟩ := h.covers idx hidx
    exact ⟨a, by rw [ei]; exact ha'⟩
  · intro a; rw [ei, es, hc]; exact h.lines a

/-- A lookup gives the same answer, and the same new cache arrays, in two states with
the same cache arrays and configuration. -/
theorem trap_address_congr {s t : Sim} (hc : t.cache = s.cache)
    (ha : t.cache_assoc = s.cache_assoc) (hi : t.cache_index = s.cache_index)
    (ho : t.cache_blockoffsetbits = s.cache_blockoffsetbits) {a : Nat} {hit : Int}
    {s1 : Sim} (h : iplc_sim_trap_address s a = .ok (hit, s1)) :
    ∃ t1, iplc_sim_trap_address t a = .ok (hit, t1) ∧ t1.cache = s1.cache := by
  obtain ⟨ei, et, _⟩ := same_index_tags_config hi ho
  cases hh : cache_line_assoc_handler s.cache_assoc
      (s.cache.getD (trap_index s a).toNat default) (trap_tag s a) with
  | some e =>
    have hh' : cache_line_assoc_handler t.cache_assoc
        (t.cache.getD (trap_index t a).toNat default) (trap_tag t a) = some e := by
      rw [ha, hc, ei, et]; exact hh
    rw [trap_address_hit hh] at h
    simp only [Except.ok.injEq, Prod.mk.injEq] at h
    obtain ⟨h1, h2⟩ := h
    refine ⟨_, by rw [trap_address_hit hh', h1], ?_⟩
    rw [← h2]
    simp only [ha, hc, ei]
  | none =>
    have hh' : cache_line_assoc_handler t.cache_assoc
        (t.cache.getD (trap_index t a).toNat default) (trap_tag t a) = none := by
      rw [ha, hc, ei, et]; exact hh
    cases hv : cache_line_select_replace s.cache_assoc
        (s.cache.getD (trap_index s a).toNat default) with
    | error err => rw [trap_address_abort hh hv] at h; cases h
    | ok v =>
      have hv' : cache_line_select_replace t.cache_assoc
          (t.cache.getD (trap_index t a).toNat default) = .ok v := by
        rw [ha, hc, ei]; exact hv
      rw [trap_address_miss hh hv] at h
      simp only [Except.ok.injEq, Prod.mk.injEq] at h
      obtain ⟨h1, h2⟩ := h
      refine ⟨_, by rw [trap_address_miss hh' hv', h1], ?_⟩
      rw [← h2]
      simp only [ha, hc, ei, et]

/-- The memory access of steps 3 and 4, field by field, from the result of its
lookup. -/
theorem push_mem_access_fields {s t1 : Sim} {a : Nat} {hit : Int} (r : Int)
    (ht : iplc_sim_trap_address s a = .ok (hit, t1)) :
    ∃ s4, push_mem_access s r a = .ok s4 ∧
      s4.pipeline = s.pipeline ∧ s4.instruction_count = s.instruction_count ∧
      s4.cache = t1.cache ∧ s4.cache_assoc = s.cache_assoc ∧
      s4.cache_index = s.cache_index ∧
      s4.cache_blockoffsetbits = s.cache_blockoffsetbits ∧
      s4.branch_predict_taken = s.branch_predict_taken ∧
      s4.pipeline_cycles =
        (if hit ≠ 0 then
          (if data_hazard_of s.pipeline.ALU r then add32 s.pipeline_cycles 1
            else s.pipeline_cycles)
        else add32 s.pipeline_cycles (CACHE_MISS_DELAY - 1)) := by
  have hf := (trap_address_frame ht).1
  have e1 : t1.pipeline = s.pipeline := by rw [hf]
  have e2 : t1.instruction_count = s.instruction_count := by rw [hf]
  have e3 : t1.cache_assoc = s.cache_assoc := by rw [hf]
  have e4 : t1.cache_index = s.cache_index := by rw [hf]
  have e5 : t1.cache_blockoffsetbits = s.cache_blockoffsetbits := by rw [hf]
  have e6 : t1.branch_predict_taken = s.branch_predict_taken := by rw [hf]
  have e7 : t1.pipeline_cycles = s.pipeline_cycles := by rw [hf]
  unfold push_mem_access
  rw [ht]
  simp only
  by_cases h0 : hit = 0
  · simp only [h0, ne_eq, not_true_eq_false, if_false]
    exact ⟨_, rfl, e1, e2, rfl, e3, e4, e5, e6, by rw [← e7]⟩
  · simp only [h0, ne_eq, not_false_eq_true, if_true]
    by_cases hz : data_hazard_of t1.pipeline.ALU r = true
    · simp only [hz, if_true]
      refine ⟨_, rfl, e1, e2, rfl, e3, e4, e5, e6, ?_⟩
      rw [← e1, hz, ← e7]
      rfl
    · simp only [hz, if_false]
      refine ⟨_, rfl, e1, e2, rfl, e3, e4, e5, e6, ?_⟩
      rw [← e1, if_neg hz, e7]

/-- The advance when MEM, after steps 1 and 2, holds neither LW nor SW: steps 1 and 2,
then steps 5 to 7. -/
theorem push_of_no_access (s : Sim)
    (h1 : (push_step2 (push_step1 s)).pipeline.MEM.itype ≠ .LW)
    (h2 : (push_step2 (push_step1 s)).pipeline.MEM.itype ≠ .SW) :
    iplc_sim_push_pipeline_stage s = .ok (push_step567 (push_step2 (push_step1 s))) := by
  unfold iplc_sim_push_pipeline_stage
  have e3 : push_step3 (push_step2 (push_step1 s)) = .ok (push_step2 (push_step1 s)) := by
    unfold push_step3; rw [if_neg h1]
  have e4 : push_step4 (push_step2 (push_step1 s)) = .ok (push_step2 (push_step1 s)) := by
    unfold push_step4; rw [if_neg h2]
  rw [e3]
  simp only
  rw [e4]

/-- The advance when MEM, after steps 1 and 2, holds a LW whose lookup returns `hit`. -/
theorem push_of_lw (s : Sim) {hit : Int} {t1 : Sim}
    (h : (push_step2 (push_step1 s)).pipeline.MEM.itype = .LW)
    (ht : iplc_sim_trap_address (push_step2 (push_step1 s))
      (push_step2 (push_step1 s)).pipeline.MEM.stage.get_lw.data_address = .ok (hit, t1)) :
    ∃ s4, iplc_sim_push_pipeline_stage s = .ok (push_step567 s4) ∧
      s4.pipeline = (push_step2 (push_step1 s)).pipeline ∧
      s4.instruction_count = (push_step2 (push_step1 s)).instruction_count ∧
      s4.cache = t1.cache ∧ s4.cache_assoc = (push_step2 (push_step1 s)).cache_assoc ∧
      s4.cache_index = (push_step2 (push_step1 s)).cache_index ∧
      s4.cache_blockoffsetbits = (push_step2 (push_step1 s)).cache_blockoffsetbits ∧
      s4.branch_predict_taken = (push_step2 (push_step1 s)).branch_predict_taken ∧
      s4.pipeline_cycles =
        (if hit ≠ 0 then
          (if data_hazard_of (push_step2 (push_step1 s)).pipeline.ALU
              (push_step2 (push_step1 s)).pipeline.MEM.stage.get_lw.base_reg
            then add32 (push_step2 (push_step1 s)).pipeline_cycles 1
            else (push_step2 (push_step1 s)).pipeline_cycles)
        else add32 (push_step2 (push_step1 s)).pipeline_cycles (CACHE_MISS_DELAY - 1)) := by
  obtain ⟨s4, h4, hp, rest⟩ := push_mem_access_fields
    (push_step2 (push_step1 s)).pipeline.MEM.stage.get_lw.base_reg ht
  refine ⟨s4, ?_, hp, rest⟩
  unfold iplc_sim_push_pipeline_stage
  have e3 : push_step3 (push_step2 (push_step1 s)) = .ok s4 := by
    unfold push_step3; rw [if_pos h, h4]
  have hsw : ¬ s4.pipeline.MEM.itype = .SW := by rw [hp, h]; decide
  have e4 : push_step4 s4 = .ok s4 := by
    unfold push_step4; rw [if_neg hsw]
  rw [e3]
  simp only
  rw [e4]

/-- The advance when MEM, after steps 1 and 2, holds a SW whose lookup returns `hit`. -/
theorem push_of_sw (s : Sim) {hit : Int} {t1 : Sim}
    (h : (push_step2 (push_step1 s)).pipeline.MEM.itype = .SW)
    (ht : iplc_sim_trap_address (push_step2 (push_step1 s))
      (push_step2 (push_step1 s)).pipeline.MEM.stage.get_sw.data_address = .ok (hit, t1)) :
    ∃ s4, iplc_sim_push_pipeline_stage s = .ok (push_step567 s4) ∧
      s4.pipeline = (push_step2 (push_step1 s)).pipeline ∧
      s4.instruction_count = (push_step2 (push_step1 s)).instruction_count ∧
      s4.cache = t1.cache ∧ s4.cache_assoc = (push_step2 (push_step1 s)).cache_assoc ∧
      s4.cache_index = (push_step2 (push_step1 s)).cache_index ∧
      s4.cache_blockoffsetbits = (push_step2 (push_step1 s)).cache_blockoffsetbits ∧
      s4.branch_predict_taken = (push_step2 (push_step1 s)).branch_predict_taken ∧
      s4.pipeline_cycles =
        (if hit ≠ 0 then
          (if data_hazard_of (push_step2 (push_step1 s)).pipeline.ALU
              (push_step2 (push_step1 s)).pipeline.MEM.stage.get_sw.src_reg
            then add32 (push_step2 (push_step1 s)).pipeline_cycles 1
            else (push_step2 (push_step1 s)).pipeline_cycles)
        else add32 (push_step2 (push_step1 s)).pipeline_cycles (CACHE_MISS_DELAY - 1)) := by
  obtain ⟨s4, h4, hp, rest⟩ := push_mem_access_fields
    (push_step2 (push_step1 s)).pipeline.MEM.stage.get_sw.src_reg ht
  refine ⟨s4, ?_, hp, rest⟩
  unfold iplc_sim_push_pipeline_stage
  have hlw : ¬ (push_step2 (push_step1 s)).pipeline.MEM.itype = .LW := by rw [h]; decide
  have e3 : push_step3 (push_step2 (push_step1 s)) = .ok (push_step2 (push_step1 s)) := by
    unfold push_step3; rw [if_neg hlw]
  have e4 : push_step4 (push_step2 (push_step1 s)) = .ok s4 := by
    unfold push_step4; rw [if_pos h, h4]
  rw [e3]
  simp only
  rw [e4]

/-- Steps 1 and 2 when DECODE holds no BRANCH: only `instruction_count` may change. -/
theorem push_step12_of_no_branch (s : Sim) (hd : s.pipeline.DECODE.itype ≠ .BRANCH) :
    (push_step2 (push_step1 s)).pipeline = s.pipeline ∧
    (push_step2 (push_step1 s)).pipeline_cycles = s.pipeline_cycles ∧
    (push_step2 (push_step1 s)).cache = s.cache ∧
    (push_step2 (push_step1 s)).cache_assoc = s.cache_assoc ∧
    (push_step2 (push_step1 s)).cache_index = s.cache_index ∧
    (push_step2 (push_step1 s)).cache_blockoffsetbits = s.cache_blockoffsetbits := by
  obtain ⟨f1, f2, _, f4, f5, f6, f7, _⟩ := push_step1_fields s
  obtain ⟨c1, c2, c3, c4, _, _⟩ := push_step2_config (push_step1 s)
  have hm : ¬ mispredicted (push_step1 s) := by
    rw [mispredicted_step1]
    exact fun h => hd h.1
  obtain ⟨g1, g2, _⟩ := push_step2_of_not_mispredicted _ hm
  exact ⟨g1.trans f1, g2.trans f2, c1.trans f4, c2.trans f5, c3.trans f6, c4.trans f7⟩

/-! ## Cycle counts of one advance -/

/-- The hazard test of steps 3 and 4 as a table. -/
theorem data_hazard_iff (alu : pipeline_t) (r : Int) :
    data_hazard_of alu r = true ↔
      (alu.itype = .RTYPE ∧ (alu.stage.get_rtype.reg1 = r ∨
        alu.stage.get_rtype.reg2_or_constant = r ∨ alu.stage.get_rtype.dest_reg = r)) ∨
      (alu.itype = .LW ∧ (alu.stage.get_lw.dest_reg = r ∨ alu.stage.get_lw.base_reg = r)) ∨
      (alu.itype = .SW ∧ (alu.stage.get_sw.base_reg = r ∨ alu.stage.get_sw.src_reg = r)) ∨
      (alu.itype = .BRANCH ∧
        (alu.stage.get_branch.reg1 = r ∨ alu.stage.get_branch.reg2 = r)) := by
  unfold data_hazard_of
  cases h : alu.itype <;> simp [or_assoc]

/-- One advance with no BRANCH in DECODE and a LW in MEM whose lookup returns `hit`:
the slots shift once, and the cycles are the base cycle, plus one on a hit with a hazard
on `base_reg`, plus `CACHE_MISS_DELAY - 1` on a miss. -/
theorem push_lw_no_branch (s : Sim) {hit : Int} {s1 : Sim}
    (hd : s.pipeline.DECODE.itype ≠ .BRANCH) (hm : s.pipeline.MEM.itype = .LW)
    (ht : iplc_sim_trap_address s s.pipeline.MEM.stage.get_lw.data_address
      = .ok (hit, s1)) :
    ∃ s', iplc_sim_push_pipeline_stage s = .ok s' ∧
      s'.pipeline = ⟨.zeroed, s.pipeline.FETCH, s.pipeline.DECODE, s.pipeline.ALU,
        s.pipeline.MEM⟩ ∧
      s'.cache = s1.cache ∧
      s'.pipeline_cycles =
        add32 (if hit ≠ 0 then
          (if data_hazard_of s.pipeline.ALU s.pipeline.MEM.stage.get_lw.base_reg
            then add32 s.pipeline_cycles 1 else s.pipeline_cycles)
          else add32 s.pipeline_cycles (CACHE_MISS_DELAY - 1)) 1 := by
  obtain ⟨p1, p2, p3, p4, p5, p6⟩ := push_step12_of_no_branch s hd
  obtain ⟨t1, ht1, hc1⟩ := trap_address_congr p3 p4 p5 p6 ht
  have hm' : (push_step2 (push_step1 s)).pipeline.MEM.itype = .LW := by rw [p1]; exact hm
  have ht1' : iplc_sim_trap_address (push_step2 (push_step1 s))
      (push_step2 (push_step1 s)).pipeline.MEM.stage.get_lw.data_address
      = .ok (hit, t1) := by rw [p1]; exact ht1
  obtain ⟨s4, h4, q1, _, q3, _, _, _, _, q8⟩ := push_of_lw s hm' ht1'
  obtain ⟨r1, r2, _, r4, _⟩ := push_step567_fields s4
  refine ⟨_, h4, ?_, ?_, ?_⟩
  · rw [r1, q1, p1]
  · rw [r4, q3, hc1]
  · rw [r2, q8, p1, p2]

/-- One advance with no BRANCH in DECODE and a SW in MEM whose lookup returns `hit`:
the slots shift once, and the cycles are the base cycle, plus one on a hit with a hazard
on `src_reg`, plus `CACHE_MISS_DELAY - 1` on a miss. -/
theorem push_sw_no_branch (s : Sim) {hit : Int} {s1 : Sim}
    (hd : s.pipeline.DECODE.itype ≠ .BRANCH) (hm : s.pipeline.MEM.itype = .SW)
    (ht : iplc_sim_trap_address s s.pipeline.MEM.stage.get_sw.data_address
      = .ok (hit, s1)) :
    ∃ s', iplc_sim_push_pipeline_stage s = .ok s' ∧
      s'.pipeline = ⟨.zeroed, s.pipeline.FETCH, s.pipeline.DECODE, s.pipeline.ALU,
        s.pipeline.MEM⟩ ∧
      s'.cache = s1.cache ∧
      s'.pipeline_cycles =
        add32 (if hit ≠ 0 then
          (if data_hazard_of s.pipeline.ALU s.pipeline.MEM.stage.get_sw.src_reg
            then add32 s.pipeline_cycles 1 else s.pipeline_cycles)
          else add32 s.pipeline_cycles (CACHE_MISS_DELAY - 1)) 1 := by
  obtain ⟨p1, p2, p3, p4, p5, p6⟩ := push_step12_of_no_branch s hd
  obtain ⟨t1, ht1, hc1⟩ := trap_address_congr p3 p4 p5 p6 ht
  have hm' : (push_step2 (push_step1 s)).pipeline.MEM.itype = .SW := by rw [p1]; exact hm
  have ht1' : iplc_sim_trap_address (push_step2 (push_step1 s))
      (push_step2 (push_step1 s)).pipeline.MEM.stage.get_sw.data_address
      = .ok (hit, t1) := by rw [p1]; exact ht1
  obtain ⟨s4, h4, q1, _, q3, _, _, _, _, q8⟩ := push_of_sw s hm' ht1'
  obtain ⟨r1, r2, _, r4, _⟩ := push_step567_fields s4
  refine ⟨_, h4, ?_, ?_, ?_⟩
  · rw [r1, q1, p1]
  · rw [r4, q3, hc1]
  · rw [r2, q8, p1, p2]

/-- C11, counterexample.  With prediction flag 0, a BRANCH at address 8 in DECODE and an
RTYPE at address 100 in FETCH (not `8 + 4`), one advance adds 2 cycles, but afterwards
DECODE holds the RTYPE of address 100, not a NOP: the slot cleared by step 2 has been
shifted on to ALU. -/
theorem scenario_mispredict_decode_not_nop :
    (iplc_sim_push_pipeline_stage { Sim.start with
        branch_predict_taken := 0,
        pipeline := ⟨⟨.RTYPE, 100, .rtype ⟨"add", 1, 2, 3⟩⟩, ⟨.BRANCH, 8, .branch ⟨-1, -1⟩⟩,
          .zeroed, .zeroed, .zeroed⟩ }).map
      (fun s => (s.pipeline_cycles, s.pipeline.DECODE, s.pipeline.ALU))
    = .ok (2, ⟨.RTYPE, 100, .rtype ⟨"add", 1, 2, 3⟩⟩, ⟨.NOP, 0, .zero⟩) := by
  rfl

/-- C11, as the code has it.  With prediction flag 0, a BRANCH at address `a` in DECODE,
an instruction in FETCH whose address is nonzero and differs from `a + 4` (unsigned
32-bit), and neither LW nor SW in ALU, one `iplc_sim_push_pipeline_stage` returns and
increases `pipeline_cycles` by 2 (unsigned 32-bit).  Step 2 clears DECODE; after the
whole advance the cleared slot is in ALU, DECODE holds the former FETCH instruction, MEM
the branch and WRITEBACK the former ALU instruction. -/
theorem scenario_mispredict (s : Sim) (hflag : s.branch_predict_taken = 0)
    (hd : s.pipeline.DECODE.itype = .BRANCH)
    (hf0 : s.pipeline.FETCH.instruction_address ≠ 0)
    (hne : s.pipeline.FETCH.instruction_address
      ≠ (s.pipeline.DECODE.instruction_address + 4) % 2 ^ 32)
    (ha1 : s.pipeline.ALU.itype ≠ .LW) (ha2 : s.pipeline.ALU.itype ≠ .SW) :
    ∃ s', iplc_sim_push_pipeline_stage s = .ok s' ∧
      s'.pipeline_cycles = (s.pipeline_cycles + 2) % 2 ^ 32 ∧
      (push_step2 (push_step1 s)).pipeline.DECODE = .zeroed ∧
      s'.pipeline = ⟨.zeroed, s.pipeline.FETCH, .zeroed, s.pipeline.DECODE,
        s.pipeline.ALU⟩ := by
  have hmis : mispredicted s := by
    refine ⟨hd, hf0, ?_⟩
    rw [if_neg (fun h => hne h.symm), hflag]
    decide
  obtain ⟨f1, f2, _⟩ := push_step1_fields s
  obtain ⟨g1, g2, _⟩ := push_step2_of_mispredicted (push_step1 s)
    ((mispredicted_step1 s).2 hmis)
  rw [f1] at g1
  rw [f2] at g2
  have h1 : (push_step2 (push_step1 s)).pipeline.MEM.itype ≠ .LW := by rw [g1]; exact ha1
  have h2 : (push_step2 (push_step1 s)).pipeline.MEM.itype ≠ .SW := by rw [g1]; exact ha2
  obtain ⟨r1, r2, _⟩ := push_step567_fields (push_step2 (push_step1 s))
  refine ⟨_, push_of_no_access s h1 h2, ?_, by rw [g1], by rw [r1, g1]⟩
  rw [r2, g2, add32_add32]

theorem scenario_mispredict_witness :
    ∃ s', iplc_sim_push_pipeline_stage { Sim.start with
        branch_predict_taken := 0,
        pipeline := ⟨⟨.RTYPE, 100, .rtype ⟨"add", 1, 2, 3⟩⟩, ⟨.BRANCH, 8, .branch ⟨-1, -1⟩⟩,
          .zeroed, .zeroed, .zeroed⟩ } = .ok s' ∧
      s'.pipeline_cycles = (0 + 2) % 2 ^ 32 :=
  match scenario_mispredict { Sim.start with
        branch_predict_taken := 0,
        pipeline := ⟨⟨.RTYPE, 100, .rtype ⟨"add", 1, 2, 3⟩⟩, ⟨.BRANCH, 8, .branch ⟨-1, -1⟩⟩,
          .zeroed, .zeroed, .zeroed⟩ } rfl rfl (by decide) (by decide) (by decide)
        (by decide) with
  | ⟨s', h, hc, _⟩ => ⟨s', h, hc⟩

/-- C12, the code at the failing input.  In a two-way cache that holds the block of
address 64, with a LW of destination register 8 (base register -1, as the trace parser
passes it) in MEM and an RTYPE with `reg1 = 8` in ALU, the lookup of the LW hits and the
advance adds one cycle only: no stall cycle is charged for the use of register 8. -/
theorem load_use_hazard_not_detected :
    ((iplc_sim_init Sim.start 1 1 2).bind fun s0 =>
      (iplc_sim_trap_address s0 64).bind fun r =>
        (iplc_sim_trap_address { r.2 with pipeline :=
            ⟨.zeroed, .zeroed, ⟨.RTYPE, 104, .rtype ⟨"add", 8, 9, 10⟩⟩,
              ⟨.LW, 100, .lw ⟨64, 8, -1⟩⟩, .zeroed⟩ } 64).bind fun h =>
          (iplc_sim_push_pipeline_stage { r.2 with pipeline :=
            ⟨.zeroed, .zeroed, ⟨.RTYPE, 104, .rtype ⟨"add", 8, 9, 10⟩⟩,
              ⟨.LW, 100, .lw ⟨64, 8, -1⟩⟩, .zeroed⟩ }).map fun s' =>
            (h.1, r.2.pipeline_cycles, s'.pipeline_cycles))
    = .ok (1, 0, 1) := by
  rfl

/-- The load hazard test of the code: with no BRANCH in DECODE and a LW in MEM whose
lookup hits, one advance adds 2 cycles when the ALU instruction uses the `base_reg` of
the LW, and 1 cycle otherwise; the `dest_reg` of the LW is not looked at. -/
theorem load_hazard_on_base_reg (s : Sim) (hd : s.pipeline.DECODE.itype ≠ .BRANCH)
    (hm : s.pipeline.MEM.itype = .LW)
    (hhit : ∃ s1, iplc_sim_trap_address s s.pipeline.MEM.stage.get_lw.data_address
      = .ok (1, s1)) :
    ∃ s', iplc_sim_push_pipeline_stage s = .ok s' ∧
      s'.pipeline_cycles =
        (if data_hazard_of s.pipeline.ALU s.pipeline.MEM.stage.get_lw.base_reg
          then (s.pipeline_cycles + 2) % 2 ^ 32 else (s.pipeline_cycles + 1) % 2 ^ 32) := by
  obtain ⟨s1, ht⟩ := hhit
  obtain ⟨s', h, _, _, hc⟩ := push_lw_no_branch s hd hm ht
  refine ⟨s', h, ?_⟩
  rw [hc]
  simp only [ne_eq, one_ne_zero, not_false_eq_true, if_true]
  split_ifs
  · rw [add32_add32]
  · rfl

/-- C13. Store hazard table.  With no BRANCH in DECODE and a SW with source register `S`
in MEM whose data address hits in the cache, one `iplc_sim_push_pipeline_stage` returns
and increases `pipeline_cycles` (unsigned 32-bit) by 2 if the ALU slot matches the table
(RTYPE: `reg1`, `reg2_or_constant` or `dest_reg` is `S`; LW: `dest_reg` or `base_reg`;
SW: `base_reg` or `src_reg`; BRANCH: `reg1` or `reg2`) and by 1 otherwise; an ALU slot of
kind NOP, JUMP or SYSCALL never gives the stall. -/
theorem store_hazard_table (s : Sim) (S : Int) (hd : s.pipeline.DECODE.itype ≠ .BRANCH)
    (hm : s.pipeline.MEM.itype = .SW) (hS : s.pipeline.MEM.stage.get_sw.src_reg = S)
    (hhit : ∃ s1, iplc_sim_trap_address s s.pipeline.MEM.stage.get_sw.data_address
      = .ok (1, s1)) :
    ∃ s', iplc_sim_push_pipeline_stage s = .ok s' ∧
      ((s.pipeline.ALU.itype = .RTYPE ∧ (s.pipeline.ALU.stage.get_rtype.reg1 = S ∨
          s.pipeline.ALU.stage.get_rtype.reg2_or_constant = S ∨
          s.pipeline.ALU.stage.get_rtype.dest_reg = S)) ∨
        (s.pipeline.ALU.itype = .LW ∧ (s.pipeline.ALU.stage.get_lw.dest_reg = S ∨
          s.pipeline.ALU.stage.get_lw.base_reg = S)) ∨
        (s.pipeline.ALU.itype = .SW ∧ (s.pipeline.ALU.stage.get_sw.base_reg = S ∨
          s.pipeline.ALU.stage.get_sw.src_reg = S)) ∨
        (s.pipeline.ALU.itype = .BRANCH ∧ (s.pipeline.ALU.stage.get_branch.reg1 = S ∨
          s.pipeline.ALU.stage.get_branch.reg2 = S)) →
        s'.pipeline_cycles = (s.pipeline_cycles + 2) % 2 ^ 32) ∧
      (¬ ((s.pipeline.ALU.itype = .RTYPE ∧ (s.pipeline.ALU.stage.get_rtype.reg1 = S ∨
          s.pipeline.ALU.stage.get_rtype.reg2_or_constant = S ∨
          s.pipeline.ALU.stage.get_rtype.dest_reg = S)) ∨
        (s.pipeline.ALU.itype = .LW ∧ (s.pipeline.ALU.stage.get_lw.dest_reg = S ∨
          s.pipeline.ALU.stage.get_lw.base_reg = S)) ∨
        (s.pipeline.ALU.itype = .SW ∧ (s.pipeline.ALU.stage.get_sw.base_reg = S ∨
          s.pipeline.ALU.stage.get_sw.src_reg = S)) ∨
        (s.pipeline.ALU.itype = .BRANCH ∧ (s.pipeline.ALU.stage.get_branch.reg1 = S ∨
          s.pipeline.ALU.stage.get_branch.reg2 = S))) →
        s'.pipeline_cycles = (s.pipeline_cycles + 1) % 2 ^ 32) ∧
      (s.pipeline.ALU.itype = .NOP ∨ s.pipeline.ALU.itype = .JUMP ∨
          s.pipeline.ALU.itype = .SYSCALL →
        s'.pipeline_cycles = (s.pipeline_cycles + 1) % 2 ^ 32) := by
  obtain ⟨s1, ht⟩ := hhit
  obtain ⟨s', h, _, _, hc⟩ := push_sw_no_branch s hd hm ht
  rw [hS] at hc
  simp only [ne_eq, one_ne_zero, not_false_eq_true, if_true] at hc
  have hyes : data_hazard_of s.pipeline.ALU S = true →
      s'.pipeline_cycles = (s.pipeline_cycles + 2) % 2 ^ 32 := by
    intro hz
    rw [hc, if_pos hz, add32_add32]
  have hno : ¬ data_hazard_of s.pipeline.ALU S = true →
      s'.pipeline_cycles = (s.pipeline_cycles + 1) % 2 ^ 32 := by
    intro hz
    rw [hc, if_neg hz]
    rfl
  refine ⟨s', h, fun ht => hyes ((data_hazard_iff _ _).2 ht),
    fun ht => hno (fun hz => ht ((data_hazard_iff _ _).1 hz)), fun hk => hno ?_⟩
  intro hz
  rcases (data_hazard_iff _ _).1 hz with h1 | h1 | h1 | h1 <;>
    rcases hk with h2 | h2 | h2 <;> rw [h2] at h1 <;> exact absurd h1.1 (by decide)

/-- C14. Scenario E (data miss penalty).  With no BRANCH in DECODE and a LW or SW in MEM
whose data address misses in the cache, one `iplc_sim_push_pipeline_stage` returns and
increases `pipeline_cycles` by `CACHE_MISS_DELAY - 1 + 1 = 10` (unsigned 32-bit),
whatever the ALU slot holds, and the slots are shifted once: WRITEBACK, MEM, ALU, DECODE
take the former MEM, ALU, DECODE, FETCH, and FETCH is cleared. -/
theorem scenario_data_miss (s : Sim) (hd : s.pipeline.DECODE.itype ≠ .BRANCH)
    (hmiss :
      (s.pipeline.MEM.itype = .LW ∧
        ∃ s1, iplc_sim_trap_address s s.pipeline.MEM.stage.get_lw.data_address
          = .ok (0, s1)) ∨
      (s.pipeline.MEM.itype = .SW ∧
        ∃ s1, iplc_sim_trap_address s s.pipeline.MEM.stage.get_sw.data_address
          = .ok (0, s1))) :
    ∃ s', iplc_sim_push_pipeline_stage s = .ok s' ∧
      s'.pipeline_cycles = (s.pipeline_cycles + 10) % 2 ^ 32 ∧
      s'.pipeline_cycles = (s.pipeline_cycles + (CACHE_MISS_DELAY - 1 + 1)) % 2 ^ 32 ∧
      s'.pipeline = ⟨.zeroed, s.pipeline.FETCH, s.pipeline.DECODE, s.pipeline.ALU,
        s.pipeline.MEM⟩ := by
  rcases hmiss with ⟨hm, s1, ht⟩ | ⟨hm, s1, ht⟩
  · obtain ⟨s', h, hp, _, hc⟩ := push_lw_no_branch s hd hm ht
    simp only [ne_eq, not_true_eq_false, if_false] at hc
    rw [add32_add32] at hc
    exact ⟨s', h, hc, hc, hp⟩
  · obtain ⟨s', h, hp, _, hc⟩ := push_sw_no_branch s hd hm ht
    simp only [ne_eq, not_true_eq_false, if_false] at hc
    rw [add32_add32] at hc
    exact ⟨s', h, hc, hc, hp⟩

theorem store_hazard_table_witness :
    ∃ s', iplc_sim_push_pipeline_stage { Sim.start with
        cache_index := 1, cache_blocksize := 1, cache_assoc := 2,
        cache_blockoffsetbits := 2,
        cache := [⟨[1, 0], [8, 0], [1, -1]⟩, cache_line_t.fresh 2],
        pipeline := ⟨.zeroed, .zeroed, ⟨.RTYPE, 104, .rtype ⟨"add", 8, 9, 10⟩⟩,
          ⟨.SW, 100, .sw ⟨64, 8, -1⟩⟩, .zeroed⟩ } = .ok s' ∧
      s'.pipeline_cycles = (0 + 2) % 2 ^ 32 :=
  match store_hazard_table { Sim.start with
        cache_index := 1, cache_blocksize := 1, cache_assoc := 2,
        cache_blockoffsetbits := 2,
        cache := [⟨[1, 0], [8, 0], [1, -1]⟩, cache_line_t.fresh 2],
        pipeline := ⟨.zeroed, .zeroed, ⟨.RTYPE, 104, .rtype ⟨"add", 8, 9, 10⟩⟩,
          ⟨.SW, 100, .sw ⟨64, 8, -1⟩⟩, .zeroed⟩ } 8 (by decide) rfl rfl ⟨_, rfl⟩ with
  | ⟨s', h, h2, _, _⟩ => ⟨s', h, h2 (Or.inl ⟨rfl, Or.inl rfl⟩)⟩

theorem scenario_data_miss_witness :
    ∃ s', iplc_sim_push_pipeline_stage { Sim.start with
        cache_index := 1, cache_blocksize := 1, cache_assoc := 2,
        cache_blockoffsetbits := 2,
        cache := [⟨[1, 0], [8, 0], [1, -1]⟩, cache_line_t.fresh 2],
        pipeline := ⟨.zeroed, .zeroed, ⟨.RTYPE, 104, .rtype ⟨"add", 8, 9, 10⟩⟩,
          ⟨.LW, 100, .lw ⟨128, 8, -1⟩⟩, .zeroed⟩ } = .ok s' ∧
      s'.pipeline_cycles = (0 + 10) % 2 ^ 32 :=
  match scenario_data_miss { Sim.start with
        cache_index := 1, cache_blocksize := 1, cache_assoc := 2,
        cache_blockoffsetbits := 2,
        cache := [⟨[1, 0], [8, 0], [1, -1]⟩, cache_line_t.fresh 2],
        pipeline := ⟨.zeroed, .zeroed, ⟨.RTYPE, 104, .rtype ⟨"add", 8, 9, 10⟩⟩,
          ⟨.LW, 100, .lw ⟨128, 8, -1⟩⟩, .zeroed⟩ } (by decide)
        (Or.inl ⟨rfl, _, rfl⟩) with
  | ⟨s', h, h2, _, _⟩ => ⟨s', h, h2⟩

/-! ## The victim search and the recency values of a set -/

/-- In a set that satisfies the invariant, `cache_line_select_replace` returns a way of
the set that is free or has recency 0. -/
theorem lineInv_victim_way {k : Nat} {line : cache_line_t} {R : List Int}
    (h : LineInv k line R) (hk1 : 1 ≤ k) :
    ∃ v, cache_line_select_replace (k : Int) line = .ok v ∧ v < k ∧
      (line.last_accessed.getD v 0 = 0 ∨ line.valid.getD v 0 = 0) := by
  by_cases hRk : R.length < k
  · have hfree : line.valid.getD R.length 0 = 0 := by
      by_contra hc
      have := (h.valid_iff R.length hRk).1 hc
      omega
    obtain ⟨v, hv, hle, hq, _⟩ := select_replace_first hRk (Or.inr hfree)
    exact ⟨v, hv, by omega, hq⟩
  · have hkR : k ≤ R.length := not_lt.1 hRk
    have hm : min R.length k = k := min_eq_right hkR
    have hpos : k - 1 < R.length := by omega
    have hxR : R[k - 1] ∈ R := List.getElem_mem _
    have hxi : R.indexOf R[k - 1] = k - 1 := List.indexOf_getElem h.nodup (k - 1) hpos
    obtain ⟨c, hc, hTc⟩ := h.onto R[k - 1] hxR (by omega)
    rw [hm] at hc
    have hLc : line.last_accessed.getD c 0 = 0 := by
      have := (h.rank c (by omega)).2.2
      rw [hTc, hxi] at this
      omega
    obtain ⟨v, hv, hle, hq, _⟩ := select_replace_first hc (Or.inl hLc)
    exact ⟨v, hv, by omega, hq⟩

/-- In a set that satisfies the invariant, two valid ways with the same recency value
are the same way. -/
theorem lineInv_recency_inj {k : Nat} {line : cache_line_t} {R : List Int}
    (h : LineInv k line R) {i j : Nat} (hi : i < k) (hj : j < k)
    (vi : line.valid.getD i 0 ≠ 0) (vj : line.valid.getD j 0 ≠ 0)
    (heq : line.last_accessed.getD i 0 = line.last_accessed.getD j 0) : i = j := by
  have mi := (h.valid_iff i hi).1 vi
  have mj := (h.valid_iff j hj).1 vj
  obtain ⟨ri1, ri2, ri3⟩ := h.rank i mi
  obtain ⟨rj1, rj2, rj3⟩ := h.rank j mj
  have hidx : R.indexOf (line.tag.getD i 0) = R.indexOf (line.tag.getD j 0) := by
    rw [ri3, rj3] at heq
    omega
  exact h.inj i j mi mj ((List.indexOf_inj ri1 rj1).1 hidx)

/-- C19. Victim always exists.  On a cache as `iplc_sim_init` returns it (`1 ≤ k ≤ 127`
ways, `0 ≤ index ≤ 30`, `1 ≤ blocksize ≤ 65536`), every sequence of calls of
`iplc_sim_trap_address` returns, and in the state it leaves `cache_line_select_replace`
on every set returns a way `v < k` with `last_accessed[v] = 0` or `valid[v] = 0`: it does
not reach its `assert(0)`. -/
theorem victim_always_exists (s0 s : Sim) (index blocksize : Int) (k : Nat)
    (hinit : iplc_sim_init s0 index blocksize (k : Int) = .ok s)
    (hk1 : 1 ≤ k) (hk : k ≤ 127) (hi0 : 0 ≤ index) (hi : index ≤ 30)
    (hb1 : 1 ≤ blocksize) (hb : blocksize ≤ 65536) (addrs : List Nat) :
    ∃ hits s', trap_sequence s addrs = .ok (hits, s') ∧
      ∀ idx, idx < s'.cache.length →
        ∃ v, cache_line_select_replace s'.cache_assoc (s'.cache.getD idx default) = .ok v ∧
          v < k ∧
          ((s'.cache.getD idx default).last_accessed.getD v 0 = 0 ∨
            (s'.cache.getD idx default).valid.getD v 0 = 0) := by
  lift index to ℕ using hi0
  lift blocksize to ℕ using (by omega : 0 ≤ blocksize)
  obtain ⟨hinv, _⟩ := init_cacheInv hinit (by omega) (by omega) (by omega) hk1 hk
  obtain ⟨hits, s', h1, hinv', _⟩ := trap_sequence_refines hk1 hk addrs s [] hinv
  refine ⟨hits, s', h1, fun idx hidx => ?_⟩
  obtain ⟨a, ha⟩ := hinv'.covers idx hidx
  rw [hinv'.assoc_eq, ← ha]
  exact lineInv_victim_way (hinv'.lines a) hk1

theorem victim_always_exists_witness :
    ∃ hits s', trap_sequence
        { Sim.start with
          cache_index := 1, cache_blocksize := 1, cache_assoc := 2,
          cache_blockoffsetbits := 2,
          cache := [cache_line_t.fresh 2, cache_line_t.fresh 2] } [0, 8, 16]
        = .ok (hits, s') ∧
      ∀ idx, idx < s'.cache.length →
        ∃ v, cache_line_select_replace s'.cache_assoc (s'.cache.getD idx default) = .ok v ∧
          v < 2 ∧
          ((s'.cache.getD idx default).last_accessed.getD v 0 = 0 ∨
            (s'.cache.getD idx default).valid.getD v 0 = 0) :=
  victim_always_exists Sim.start
    { Sim.start with
      cache_index := 1, cache_blocksize := 1, cache_assoc := 2,
      cache_blockoffsetbits := 2,
      cache := [cache_line_t.fresh 2, cache_line_t.fresh 2] }
    1 1 2 rfl (by decide) (by decide) (by decide) (by decide) (by decide) (by decide)
    [0, 8, 16]

/-- C20. Recency distinctness.  On a cache as `iplc_sim_init` returns it (`1 ≤ k ≤ 127`
ways, `0 ≤ index ≤ 30`, `1 ≤ blocksize ≤ 65536`), every sequence of calls of
`iplc_sim_trap_address` returns, and in the state it leaves no two different valid ways
of a set have the same `last_accessed` value (zero or not). -/
theorem recency_distinct (s0 s : Sim) (index blocksize : Int) (k : Nat)
    (hinit : iplc_sim_init s0 index blocksize (k : Int) = .ok s)
    (hk1 : 1 ≤ k) (hk : k ≤ 127) (hi0 : 0 ≤ index) (hi : index ≤ 30)
    (hb1 : 1 ≤ blocksize) (hb : blocksize ≤ 65536) (addrs : List Nat) :
    ∃ hits s', trap_sequence s addrs = .ok (hits, s') ∧
      ∀ idx, idx < s'.cache.length → ∀ i j, i < k → j < k →
        (s'.cache.getD idx default).valid.getD i 0 ≠ 0 →
        (s'.cache.getD idx default).valid.getD j 0 ≠ 0 →
        (s'.cache.getD idx default).last_accessed.getD i 0
          = (s'.cache.getD idx default).last_accessed.getD j 0 →
        i = j := by
  lift index to ℕ using hi0
  lift blocksize to ℕ using (by omega : 0 ≤ blocksize)
  obtain ⟨hinv, _⟩ := init_cacheInv hinit (by omega) (by omega) (by omega) hk1 hk
  obtain ⟨hits, s', h1, hinv', _⟩ := trap_sequence_refines hk1 hk addrs s [] hinv
  refine ⟨hits, s', h1, fun idx hidx i j hi hj vi vj heq => ?_⟩
  obtain ⟨a, ha⟩ := hinv'.covers idx hidx
  rw [← ha] at vi vj heq
  exact lineInv_recency_inj (hinv'.lines a) hi hj vi vj heq

theorem recency_distinct_witness :
    ∃ hits s', trap_sequence
        { Sim.start with
          cache_index := 1, cache_blocksize := 1, cache_assoc := 2,
          cache_blockoffsetbits := 2,
          cache := [cache_line_t.fresh 2, cache_line_t.fresh 2] } [0, 8, 16]
        = .ok (hits, s') ∧
      ∀ idx, idx < s'.cache.length → ∀ i j, i < 2 → j < 2 →
        (s'.cache.getD idx default).valid.getD i 0 ≠ 0 →
        (s'.cache.getD idx default).valid.getD j 0 ≠ 0 →
        (s'.cache.getD idx default).last_accessed.getD i 0
          = (s'.cache.getD idx default).last_accessed.getD j 0 →
        i = j :=
  recency_distinct Sim.start
    { Sim.start with
      cache_index := 1, cache_blocksize := 1, cache_assoc := 2,
      cache_blockoffsetbits := 2,
      cache := [cache_line_t.fresh 2, cache_line_t.fresh 2] }
    1 1 2 rfl (by decide) (by decide) (by decide) (by decide) (by decide) (by decide)
    [0, 8, 16]

/-! ## One advance on a cache that satisfies the invariant -/

theorem cacheInv_step12 {s : Sim} {k : Nat} {hist : List Nat} (h : CacheInv s k hist) :
    CacheInv (push_step2 (push_step1 s)) k hist := by
  obtain ⟨_, _, _, f4, f5, f6, f7, _⟩ := push_step1_fields s
  obtain ⟨c1, c2, c3, c4, _, _⟩ := push_step2_config (push_step1 s)
  exact cacheInv_congr h (c1.trans f4) (c2.trans f5) (c3.trans f6) (c4.trans f7)

/-- One advance returns and keeps the invariant of the cache; the slots after it are
the slots after step 2, shifted once. -/
theorem push_inv {s : Sim} {k : Nat} {hist : List Nat} (h : CacheInv s k hist)
    (hk1 : 1 ≤ k) (hk : k ≤ 127) :
    ∃ s' hist', iplc_sim_push_pipeline_stage s = .ok s' ∧ CacheInv s' k hist' ∧
      s'.instruction_address = s.instruction_address ∧
      s'.branch_predict_taken = s.branch_predict_taken ∧
      s'.pipeline = ⟨.zeroed, (push_step2 (push_step1 s)).pipeline.FETCH,
        (push_step2 (push_step1 s)).pipeline.DECODE,
        (push_step2 (push_step1 s)).pipeline.ALU,
        (push_step2 (push_step1 s)).pipeline.MEM⟩ ∧
      s'.instruction_count = (push_step2 (push_step1 s)).instruction_count := by
  have h12 := cacheInv_step12 h
  obtain ⟨u4, hu, hf⟩ := push_pipeline_stage_ok (cacheInv_has_victims h hk1)
  have e1 : (push_step1 s).instruction_address = s.instruction_address := by
    unfold push_step1
    split_ifs <;> rfl
  have ea0 : u4.instruction_address = (push_step2 (push_step1 s)).instruction_address := by
    rw [hf]
  have ea : u4.instruction_address = s.instruction_address :=
    ea0.trans (((push_step2_config _).2.2.2.2.2).trans e1)
  have eb0 : u4.branch_predict_taken
      = (push_step2 (push_step1 s)).branch_predict_taken := by
    rw [hf]
  have eb : u4.branch_predict_taken = s.branch_predict_taken :=
    eb0.trans (((push_step2_config _).2.2.2.2.1).trans (push_step1_fields s).2.2.1)
  have ep : u4.pipeline = (push_step2 (push_step1 s)).pipeline := by rw [hf]
  have ei : u4.instruction_count = (push_step2 (push_step1 s)).instruction_count := by
    rw [hf]
  have key : ∃ s4 hist', iplc_sim_push_pipeline_stage s = .ok (push_step567 s4) ∧
      CacheInv s4 k hist' := by
    by_cases hlw : (push_step2 (push_step1 s)).pipeline.MEM.itype = .LW
    · obtain ⟨hit, t1, ht, hinv1, _, _, c1, c2⟩ := cacheInv_step h12 hk1 hk
        (push_step2 (push_step1 s)).pipeline.MEM.stage.get_lw.data_address
      obtain ⟨s4, h4, _, _, q3, q4, q5, q6, _⟩ := push_of_lw s hlw ht
      refine ⟨s4, _, h4, cacheInv_congr hinv1 q3 ?_ (q5.trans c1.symm) (q6.trans c2.symm)⟩
      rw [q4, h12.assoc_eq, hinv1.assoc_eq]
    · by_cases hsw : (push_step2 (push_step1 s)).pipeline.MEM.itype = .SW
      · obtain ⟨hit, t1, ht, hinv1, _, _, c1, c2⟩ := cacheInv_step h12 hk1 hk
          (push_step2 (push_step1 s)).pipeline.MEM.stage.get_sw.data_address
        obtain ⟨s4, h4, _, _, q3, q4, q5, q6, _⟩ := push_of_sw s hsw ht
        refine ⟨s4, _, h4,
          cacheInv_congr hinv1 q3 ?_ (q5.trans c1.symm) (q6.trans c2.symm)⟩
        rw [q4, h12.assoc_eq, hinv1.assoc_eq]
      · exact ⟨_, hist, push_of_no_access s hlw hsw, h12⟩
  obtain ⟨s4, hist', h4, hinv4⟩ := key
  have hsame : push_step567 s4 = push_step567 u4 := by
    rw [hu] at h4
    exact (Except.ok.inj h4).symm
  obtain ⟨r1, _, r3, r4, r5, r6, r7, r8⟩ := push_step567_fields s4
  refine ⟨push_step567 s4, hist', h4, cacheInv_congr hinv4 r4 r5 r6 r7, ?_, ?_, ?_, ?_⟩
  · rw [hsame]; exact ea
  · rw [hsame]; exact eb
  · rw [hsame, (push_step567_fields u4).1, ep]
  · rw [hsame, (push_step567_fields u4).2.2.1, ei]

/-- One advance, in terms of the slots before it: without a wrong prediction the slots
shift once and the slot in WRITEBACK is counted when its address is nonzero; on a wrong
prediction the slots of MEM and WRITEBACK are both counted so, and the former FETCH,
DECODE and ALU slots end in DECODE, MEM and WRITEBACK with a cleared slot in ALU. -/
theorem push_shapes {s : Sim} {k : Nat} {hist : List Nat} (h : CacheInv s k hist)
    (hk1 : 1 ≤ k) (hk : k ≤ 127) :
    ∃ s' hist', iplc_sim_push_pipeline_stage s = .ok s' ∧ CacheInv s' k hist' ∧
      s'.instruction_address = s.instruction_address ∧
      s'.branch_predict_taken = s.branch_predict_taken ∧
      ((¬ mispredicted s ∧
        s'.pipeline = ⟨.zeroed, s.pipeline.FETCH, s.pipeline.DECODE, s.pipeline.ALU,
          s.pipeline.MEM⟩ ∧
        s'.instruction_count =
          (if s.pipeline.WRITEBACK.instruction_address ≠ 0 then add32 s.instruction_count 1
            else s.instruction_count)) ∨
      (mispredicted s ∧
        s'.pipeline = ⟨.zeroed, s.pipeline.FETCH, .zeroed, s.pipeline.DECODE,
          s.pipeline.ALU⟩ ∧
        s'.instruction_count =
          (if s.pipeline.MEM.instruction_address ≠ 0 then
            add32 (if s.pipeline.WRITEBACK.instruction_address ≠ 0
              then add32 s.instruction_count 1 else s.instruction_count) 1
          else (if s.pipeline.WRITEBACK.instruction_address ≠ 0
              then add32 s.instruction_count 1 else s.instruction_count)))) := by
  obtain ⟨s', hist', hp, hinv, ha, hb, hpl, hic⟩ := push_inv h hk1 hk
  obtain ⟨f1, _, _, _, _, _, _, f8⟩ := push_step1_fields s
  refine ⟨s', hist', hp, hinv, ha, hb, ?_⟩
  by_cases hm : mispredicted s
  · right
    obtain ⟨g1, _, g3⟩ := push_step2_of_mispredicted (push_step1 s)
      ((mispredicted_step1 s).2 hm)
    rw [f1] at g1
    rw [f1, f8] at g3
    refine ⟨hm, ?_, ?_⟩
    · rw [hpl, g1]
    · rw [hic, g3]
  · left
    obtain ⟨g1, _, g3⟩ := push_step2_of_not_mispredicted (push_step1 s)
      (fun hh => hm ((mispredicted_step1 s).1 hh))
    refine ⟨hm, ?_, ?_⟩
    · rw [hpl, g1, f1]
    · rw [hic, g3, f8]

theorem occupied_zeroed : occupied .zeroed = 0 := rfl

theorem nop_unaddressed_zeroed : nop_unaddressed .zeroed := fun _ => rfl

/-- One advance keeps the invariant of the retired count, clears FETCH, and extends a
nonempty run of cleared slots at the front of the pipeline by one. -/
theorem push_retireInv {s : Sim} {k : Nat} {hist : List Nat} (h : CacheInv s k hist)
    (hk1 : 1 ≤ k) (hk : k ≤ 127) :
    ∃ s' hist', iplc_sim_push_pipeline_stage s = .ok s' ∧ CacheInv s' k hist' ∧
      s'.instruction_address = s.instruction_address ∧
      s'.pipeline.FETCH = .zeroed ∧
      (∀ j, 1 ≤ j → leading_zeroed j s.pipeline → leading_zeroed (j + 1) s'.pipeline) ∧
      (∀ n, RetireInv s n → RetireInv s' n) := by
  obtain ⟨s', hist', hp, hinv, ha, _, hsh⟩ := push_shapes h hk1 hk
  refine ⟨s', hist', hp, hinv, ha, ?_, ?_, ?_⟩
  · rcases hsh with ⟨_, e, _⟩ | ⟨_, e, _⟩ <;> rw [e]
  · intro j hj hl
    have hF : s.pipeline.FETCH = .zeroed := hl.1 hj
    have hnm : ¬ mispredicted s := by
      intro hm
      apply hm.2.1
      rw [hF]
      rfl
    rcases hsh with ⟨_, e, _⟩ | ⟨hm, _, _⟩
    · rw [e]
      exact ⟨fun _ => rfl, fun hh => hl.1 (by omega), fun hh => hl.2.1 (by omega),
        fun hh => hl.2.2.1 (by omega), fun hh => hl.2.2.2.1 (by omega)⟩
    · exact absurd hm hnm
  · intro n hr
    have hb := hr.bound
    have hc := hr.count
    unfold in_flight occupied at hc
    rcases hsh with ⟨_, e, ei⟩ | ⟨_, e, ei⟩
    · refine ⟨?_, ?_, ?_, ?_, ?_, ?_, ?_⟩
      · unfold in_flight occupied
        rw [ei, e]
        simp only [pipeline_t.zeroed]
        unfold add32
        split_ifs at hc ⊢ <;> omega
      · rw [ei]; unfold add32; split_ifs <;> omega
      · rw [e]; exact nop_unaddressed_zeroed
      · rw [e]; exact hr.fetch
      · rw [e]; exact hr.decode
      · rw [e]; exact hr.alu
      · rw [e]; exact hr.mem
    · refine ⟨?_, ?_, ?_, ?_, ?_, ?_, ?_⟩
      · unfold in_flight occupied
        rw [ei, e]
        simp only [pipeline_t.zeroed]
        unfold add32
        split_ifs at hc ⊢ <;> omega
      · rw [ei]; unfold add32; split_ifs <;> omega
      · rw [e]; exact nop_unaddressed_zeroed
      · rw [e]; exact hr.fetch
      · rw [e]; exact nop_unaddressed_zeroed
      · rw [e]; exact hr.decode
      · rw [e]; exact hr.alu

/-! ## The drain loop of `iplc_sim_finalize` -/

theorem pipeline_busy_false_iff (s : Sim) :
    pipeline_busy s = false ↔
      s.pipeline.FETCH.itype = .NOP ∧ s.pipeline.DECODE.itype = .NOP ∧
      s.pipeline.ALU.itype = .NOP ∧ s.pipeline.MEM.itype = .NOP ∧
      s.pipeline.WRITEBACK.itype = .NOP := by
  unfold pipeline_busy
  simp only [Bool.or_eq_false_iff, bne_eq_false_iff_eq, and_assoc]

/-- With no slot to drain the loop makes no call and leaves the state as it is. -/
theorem finalize_idle (s : Sim) (h : pipeline_busy s = false) (fuel : Nat) :
    iplc_sim_finalize fuel s = .ok (some (0, s)) := by
  cases fuel <;> simp [iplc_sim_finalize, h]

/-- One iteration of the loop. -/
theorem finalize_succ {s s1 : Sim} (h : pipeline_busy s = true)
    (hp : iplc_sim_push_pipeline_stage s = .ok s1) (fuel : Nat) :
    iplc_sim_finalize (fuel + 1) s =
      (match iplc_sim_finalize fuel s1 with
        | .error e => .error e
        | .ok none => .ok none
        | .ok (some (n, s2)) => .ok (some (n + 1, s2))) := by
  rw [iplc_sim_finalize, if_pos h, hp]

/-- A result of the loop is the state after that many advances, and no slot is left to
drain in it. -/
theorem finalize_push_times : ∀ (fuel : Nat) (s : Sim) (n : Nat) (s' : Sim),
    iplc_sim_finalize fuel s = .ok (some (n, s')) →
    push_times n s = .ok s' ∧ pipeline_busy s' = false := by
  intro fuel
  induction fuel with
  | zero =>
    intro s n s' h
    unfold iplc_sim_finalize at h
    split_ifs at h with hb
    · cases h
    · simp only [Except.ok.injEq, Option.some.injEq, Prod.mk.injEq] at h
      obtain ⟨rfl, rfl⟩ := h
      exact ⟨rfl, by simpa using hb⟩
  | succ fuel ih =>
    intro s n s' h
    by_cases hb : pipeline_busy s = true
    · cases hp : iplc_sim_push_pipeline_stage s with
      | error e =>
        rw [iplc_sim_finalize, if_pos hb, hp] at h
        cases h
      | ok s1 =>
        rw [finalize_succ hb hp] at h
        cases hr : iplc_sim_finalize fuel s1 with
        | error e => rw [hr] at h; cases h
        | ok r =>
          cases r with
          | none => rw [hr] at h; cases h
          | some r =>
            obtain ⟨m, s2⟩ := r
            rw [hr] at h
            simp only [Except.ok.injEq, Option.some.injEq, Prod.mk.injEq] at h
            obtain ⟨rfl, rfl⟩ := h
            obtain ⟨i1, i2⟩ := ih s1 m s2 hr
            refine ⟨?_, i2⟩
            rw [push_times, hp]
            exact i1
    · have hb' : pipeline_busy s = false := by simpa using hb
      rw [finalize_idle s hb'] at h
      simp only [Except.ok.injEq, Option.some.injEq, Prod.mk.injEq] at h
      obtain ⟨rfl, rfl⟩ := h
      exact ⟨rfl, hb'⟩

theorem leading_five_idle {s : Sim} {j : Nat} (hj : 5 ≤ j)
    (h : leading_zeroed j s.pipeline) : pipeline_busy s = false := by
  rw [pipeline_busy_false_iff, h.1 (by omega), h.2.1 (by omega), h.2.2.1 (by omega),
    h.2.2.2.1 (by omega), h.2.2.2.2 (by omega)]
  exact ⟨rfl, rfl, rfl, rfl, rfl⟩

/-- The loop from a pipeline whose first `j ≥ 1` slots are cleared: at most `5 - j`
advances, for any property `P` that an advance keeps. -/
theorem finalize_drain {k : Nat} (hk1 : 1 ≤ k) (hk : k ≤ 127) (P : Sim → Prop)
    (hP : ∀ s hist s', CacheInv s k hist → P s →
      iplc_sim_push_pipeline_stage s = .ok s' → P s') :
    ∀ (fuel j : Nat) (s : Sim) (hist : List Nat), 1 ≤ j → leading_zeroed j s.pipeline →
      5 ≤ j + fuel → CacheInv s k hist → P s →
      ∃ n s', iplc_sim_finalize fuel s = .ok (some (n, s')) ∧ n ≤ 5 - j ∧
        pipeline_busy s' = false ∧ P s' := by
  intro fuel
  induction fuel with
  | zero =>
    intro j s hist _ hl hf _ hPs
    have hb := leading_five_idle (by omega) hl
    exact ⟨0, s, finalize_idle s hb 0, Nat.zero_le _, hb, hPs⟩
  | succ fuel ih =>
    intro j s hist hj hl hf hinv hPs
    by_cases hb : pipeline_busy s = true
    · have hj5 : j < 5 := by
        by_contra hc
        have := leading_five_idle (not_lt.1 hc) hl
        rw [this] at hb
        cases hb
      obtain ⟨s1, hist1, hp, hinv1, _, _, hlead, _⟩ := push_retireInv hinv hk1 hk
      obtain ⟨n, s', hr, hn, hidle, hP'⟩ := ih (j + 1) s1 hist1 (by omega) (hlead j hj hl)
        (by omega) hinv1 (hP s hist s1 hinv hPs hp)
      refine ⟨n + 1, s', ?_, by omega, hidle, hP'⟩
      rw [finalize_succ hb hp, hr]
    · have hb' : pipeline_busy s = false := by simpa using hb
      exact ⟨0, s, finalize_idle s hb' _, Nat.zero_le _, hb', hPs⟩

/-- The loop from any pipeline: at most 5 advances. -/
theorem finalize_returns {k : Nat} (hk1 : 1 ≤ k) (hk : k ≤ 127) (P : Sim → Prop)
    (hP : ∀ s hist s', CacheInv s k hist → P s →
      iplc_sim_push_pipeline_stage s = .ok s' → P s')
    {s : Sim} {hist : List Nat} (hinv : CacheInv s k hist) (hPs : P s)
    {fuel : Nat} (hfuel : 5 ≤ fuel) :
    ∃ n s', iplc_sim_finalize fuel s = .ok (some (n, s')) ∧ n ≤ 5 ∧
      pipeline_busy s' = false ∧ P s' := by
  obtain ⟨fuel, rfl⟩ : ∃ f, fuel = f + 1 := ⟨fuel - 1, by omega⟩
  by_cases hb : pipeline_busy s = true
  · obtain ⟨s1, hist1, hp, hinv1, _, hF, _, _⟩ := push_retireInv hinv hk1 hk
    have hl : leading_zeroed 1 s1.pipeline :=
      ⟨fun _ => hF, fun hh => absurd hh (by omega), fun hh => absurd hh (by omega),
        fun hh => absurd hh (by omega), fun hh => absurd hh (by omega)⟩
    obtain ⟨n, s', hr, hn, hidle, hP'⟩ := finalize_drain hk1 hk P hP fuel 1 s1 hist1
      (le_refl 1) hl (by omega) hinv1 (hP s hist s1 hinv hPs hp)
    refine ⟨n + 1, s', ?_, by omega, hidle, hP'⟩
    rw [finalize_succ hb hp, hr]
  · have hb' : pipeline_busy s = false := by simpa using hb
    exact ⟨0, s, finalize_idle s hb' _, Nat.zero_le _, hb', hPs⟩

/-- C15. Drain terminates.  Let the cache arrays and the cache configuration of `s` be
those of a state reached from `iplc_sim_init` (`1 ≤ k ≤ 127` ways, `0 ≤ index ≤ 30`,
`1 ≤ blocksize ≤ 65536`) by a sequence of calls of `iplc_sim_trap_address`; the slots and
the counters of `s` are arbitrary.  Then the loop of `iplc_sim_finalize` returns after
`n ≤ 5` calls of `iplc_sim_push_pipeline_stage` (fuel 5 is enough), in the state these
`n` calls lead to, and all five slots are of kind NOP in it. -/
theorem drain_terminates (s0 si sc s : Sim) (index blocksize : Int) (k : Nat)
    (hinit : iplc_sim_init s0 index blocksize (k : Int) = .ok si)
    (hk1 : 1 ≤ k) (hk : k ≤ 127) (hi0 : 0 ≤ index) (hi : index ≤ 30)
    (hb1 : 1 ≤ blocksize) (hb : blocksize ≤ 65536) (addrs : List Nat) (hits : List Int)
    (hreach : trap_sequence si addrs = .ok (hits, sc))
    (hc : s.cache = sc.cache) (ha : s.cache_assoc = sc.cache_assoc)
    (hx : s.cache_index = sc.cache_index)
    (ho : s.cache_blockoffsetbits = sc.cache_blockoffsetbits)
    (fuel : Nat) (hfuel : 5 ≤ fuel) :
    ∃ n s', iplc_sim_finalize fuel s = .ok (some (n, s')) ∧ n ≤ 5 ∧
      push_times n s = .ok s' ∧
      s'.pipeline.FETCH.itype = .NOP ∧ s'.pipeline.DECODE.itype = .NOP ∧
      s'.pipeline.ALU.itype = .NOP ∧ s'.pipeline.MEM.itype = .NOP ∧
      s'.pipeline.WRITEBACK.itype = .NOP := by
  lift index to ℕ using hi0
  lift blocksize to ℕ using (by omega : 0 ≤ blocksize)
  obtain ⟨hinv0, _⟩ := init_cacheInv hinit (by omega) (by omega) (by omega) hk1 hk
  obtain ⟨hits', sc', h1, hinvc, _⟩ := trap_sequence_refines hk1 hk addrs si [] hinv0
  rw [hreach] at h1
  simp only [Except.ok.injEq, Prod.mk.injEq] at h1
  obtain ⟨_, h2⟩ := h1
  subst h2
  have hinv := cacheInv_congr hinvc hc ha hx ho
  obtain ⟨n, s', hr, hn, hidle, _⟩ := finalize_returns hk1 hk (fun _ => True)
    (fun _ _ _ _ _ _ => trivial) hinv trivial hfuel
  exact ⟨n, s', hr, hn, (finalize_push_times fuel s n s' hr).1,
    (pipeline_busy_false_iff s').1 hidle⟩

theorem drain_terminates_witness :
    ∃ n s', iplc_sim_finalize 5 { Sim.start with
        cache_index := 1, cache_blocksize := 1, cache_assoc := 2,
        cache_blockoffsetbits := 2,
        cache := [cache_line_t.fresh 2, cache_line_t.fresh 2],
        pipeline := ⟨⟨.RTYPE, 100, .rtype ⟨"add", 1, 2, 3⟩⟩, ⟨.BRANCH, 8, .branch ⟨-1, -1⟩⟩,
          .zeroed, ⟨.LW, 4, .lw ⟨64, 8, -1⟩⟩, .zeroed⟩ } = .ok (some (n, s')) ∧ n ≤ 5 :=
  match drain_terminates Sim.start
      { Sim.start with
        cache_index := 1, cache_blocksize := 1, cache_assoc := 2,
        cache_blockoffsetbits := 2,
        cache := [cache_line_t.fresh 2, cache_line_t.fresh 2] }
      { Sim.start with
        cache_index := 1, cache_blocksize := 1, cache_assoc := 2,
        cache_blockoffsetbits := 2,
        cache := [cache_line_t.fresh 2, cache_line_t.fresh 2] }
      { Sim.start with
        cache_index := 1, cache_blocksize := 1, cache_assoc := 2,
        cache_blockoffsetbits := 2,
        cache := [cache_line_t.fresh 2, cache_line_t.fresh 2],
        pipeline := ⟨⟨.RTYPE, 100, .rtype ⟨"add", 1, 2, 3⟩⟩, ⟨.BRANCH, 8, .branch ⟨-1, -1⟩⟩,
          .zeroed, ⟨.LW, 4, .lw ⟨64, 8, -1⟩⟩, .zeroed⟩ }
      1 1 2 rfl (by decide) (by decide) (by decide) (by decide) (by decide) (by decide)
      [] [] rfl rfl rfl rfl rfl 5 (le_refl 5) with
  | ⟨n, s', h, hn, _⟩ => ⟨n, s', h, hn⟩

/-- C18. Drain idempotence.  When all five slots are of kind NOP the loop of
`iplc_sim_finalize` makes no call of `iplc_sim_push_pipeline_stage` and leaves the whole
state, with every counter and slot, as it is; and whenever the loop returns, from any
state, running it again on the result makes no call and leaves the result as it is. -/
theorem drain_idempotent (s : Sim) (fuel : Nat) :
    (s.pipeline.FETCH.itype = .NOP ∧ s.pipeline.DECODE.itype = .NOP ∧
      s.pipeline.ALU.itype = .NOP ∧ s.pipeline.MEM.itype = .NOP ∧
      s.pipeline.WRITEBACK.itype = .NOP →
      iplc_sim_finalize fuel s = .ok (some (0, s))) ∧
    (∀ n s', iplc_sim_finalize fuel s = .ok (some (n, s')) →
      ∀ fuel', iplc_sim_finalize fuel' s' = .ok (some (0, s'))) :=
  ⟨fun h => finalize_idle s ((pipeline_busy_false_iff s).2 h) fuel,
    fun n s' h fuel' => finalize_idle s' (finalize_push_times fuel s n s' h).2 fuel'⟩

theorem drain_idempotent_witness :
    iplc_sim_finalize 3 Sim.start = .ok (some (0, Sim.start)) :=
  (drain_idempotent Sim.start 3).1 ⟨rfl, rfl, rfl, rfl, rfl⟩

/-! ## Retirement: every inserted instruction is counted once -/

theorem init_instruction_count {s0 s : Sim} {index blocksize assoc : Int}
    (h : iplc_sim_init s0 index blocksize assoc = .ok s) :
    s.instruction_count = s0.instruction_count := by
  unfold iplc_sim_init at h
  simp only at h
  split at h
  · cases h
  · simp only [Except.ok.injEq] at h
    subst h
    rfl

/-- The writes to FETCH of an insert operation, field by field. -/
theorem write_fetch_fields (s : Sim) (itype : instruction_type) (stage : Option stage_t) :
    (write_fetch s itype stage).instruction_count = s.instruction_count ∧
    (write_fetch s itype stage).pipeline.FETCH.itype = itype ∧
    (write_fetch s itype stage).pipeline.FETCH.instruction_address
      = s.instruction_address ∧
    (write_fetch s itype stage).pipeline.DECODE = s.pipeline.DECODE ∧
    (write_fetch s itype stage).pipeline.ALU = s.pipeline.ALU ∧
    (write_fetch s itype stage).pipeline.MEM = s.pipeline.MEM ∧
    (write_fetch s itype stage).pipeline.WRITEBACK = s.pipeline.WRITEBACK ∧
    (write_fetch s itype stage).cache = s.cache ∧
    (write_fetch s itype stage).cache_assoc = s.cache_assoc ∧
    (write_fetch s itype stage).cache_index = s.cache_index ∧
    (write_fetch s itype stage).cache_blockoffsetbits = s.cache_blockoffsetbits := by
  cases stage <;> exact ⟨rfl, rfl, rfl, rfl, rfl, rfl, rfl, rfl, rfl, rfl, rfl⟩

/-- Writing an instruction that is not NOP-typed, with a nonzero address, to a cleared
FETCH slot puts one more instruction in flight. -/
theorem write_fetch_retireInv {s : Sim} {n : Nat} (hr : RetireInv s n)
    (hF : s.pipeline.FETCH = .zeroed) (ha : s.instruction_address ≠ 0)
    (itype : instruction_type) (hi : itype ≠ .NOP) (stage : Option stage_t) :
    RetireInv (write_fetch s itype stage) (n + 1) := by
  obtain ⟨w1, w2, w3, w4, w5, w6, w7, _⟩ := write_fetch_fields s itype stage
  have hc := hr.count
  unfold in_flight occupied at hc
  rw [hF] at hc
  simp only [pipeline_t.zeroed] at hc
  refine ⟨?_, ?_, ?_, ?_, ?_, ?_, ?_⟩
  · unfold in_flight occupied
    rw [w1, w3, w4, w5, w6, w7]
    split_ifs at hc ⊢ <;> omega
  · rw [w1]; exact hr.bound
  · intro h
    rw [w2] at h
    exact absurd h hi
  · rw [w4]; exact hr.decode
  · rw [w5]; exact hr.alu
  · rw [w6]; exact hr.mem
  · rw [w7]; exact hr.writeback

/-- An insert operation of an instruction that is not a NOP, at a nonzero address and
with a mnemonic that fits the slot, returns, keeps the invariant of the cache, and puts
one more instruction in flight. -/
theorem insert_retireInv {s : Sim} {k n : Nat} {hist : List Nat} (h : CacheInv s k hist)
    (hk1 : 1 ≤ k) (hk : k ≤ 127) (hr : RetireInv s n) {a : Nat} (ha : a ≠ 0)
    {insn : insert_t} (hn : insn ≠ .nop) (hfit : insn.fits = true) :
    ∃ s' hist', process_pipeline { s with instruction_address := a } insn = .ok s' ∧
      CacheInv s' k hist' ∧ RetireInv s' (n + 1) := by
  have h0 : CacheInv { s with instruction_address := a } k hist :=
    cacheInv_congr h rfl rfl rfl rfl
  have hr0 : RetireInv { s with instruction_address := a } n :=
    ⟨hr.count, hr.bound, hr.fetch, hr.decode, hr.alu, hr.mem, hr.writeback⟩
  obtain ⟨s1, hist1, hp, hinv1, had, hF, _, hret⟩ := push_retireInv h0 hk1 hk
  have hr1 := hret n hr0
  have ha1 : s1.instruction_address ≠ 0 := by rw [had]; exact ha
  have hfin : ∀ (itype : instruction_type) (stage : Option stage_t), itype ≠ .NOP →
      CacheInv (write_fetch s1 itype stage) k hist1 ∧
      RetireInv (write_fetch s1 itype stage) (n + 1) := by
    intro itype stage hi
    obtain ⟨_, _, _, _, _, _, _, w8, w9, w10, w11⟩ := write_fetch_fields s1 itype stage
    exact ⟨cacheInv_congr hinv1 w8 w9 w10 w11,
      write_fetch_retireInv hr1 hF ha1 itype hi stage⟩
  cases insn with
  | rtype instruction dest_reg reg1 reg2_or_constant =>
    refine ⟨_, hist1, ?_, hfin .RTYPE (some (.rtype ⟨instruction, reg1, reg2_or_constant, dest_reg⟩))
      (by decide)⟩
    have hfit' : fits_instruction instruction = true := hfit
    simp only [process_pipeline, iplc_sim_process_pipeline_rtype, hp, hfit', if_true]
  | lw dest_reg base_reg data_address =>
    refine ⟨_, hist1, ?_, hfin .LW (some (.lw ⟨data_address, dest_reg, base_reg⟩)) (by decide)⟩
    simp only [process_pipeline, iplc_sim_process_pipeline_lw, hp]
  | sw src_reg base_reg data_address =>
    refine ⟨_, hist1, ?_, hfin .SW (some (.sw ⟨data_address, src_reg, base_reg⟩)) (by decide)⟩
    simp only [process_pipeline, iplc_sim_process_pipeline_sw, hp]
  | branch reg1 reg2 =>
    refine ⟨_, hist1, ?_, hfin .BRANCH (some (.branch ⟨reg1, reg2⟩)) (by decide)⟩
    simp only [process_pipeline, iplc_sim_process_pipeline_branch, hp]
  | jump instruction =>
    refine ⟨_, hist1, ?_, hfin .JUMP (some (.jump ⟨instruction⟩)) (by decide)⟩
    have hfit' : fits_instruction instruction = true := hfit
    simp only [process_pipeline, iplc_sim_process_pipeline_jump, hp, hfit', if_true]
  | syscall =>
    refine ⟨_, hist1, ?_, hfin .SYSCALL none (by decide)⟩
    simp only [process_pipeline, iplc_sim_process_pipeline_syscall, hp]
  | nop => exact absurd rfl hn

theorem count_inserts_insert (a : Nat) (insn : insert_t) (ops : List pipeline_op) :
    count_inserts (.insert a insn :: ops) = count_inserts ops + 1 := by
  have h : (pipeline_op.insert a insn != pipeline_op.advance) = true := rfl
  simp only [count_inserts, List.filter_cons, h, if_true, List.length_cons]

theorem count_inserts_advance (ops : List pipeline_op) :
    count_inserts (.advance :: ops) = count_inserts ops := by
  have h : (pipeline_op.advance != pipeline_op.advance) = false := by decide
  simp only [count_inserts, List.filter_cons, h, Bool.false_eq_true, if_false]

/-- A list of insert operations and bare advances returns and keeps both invariants,
with one more instruction accounted for per insert operation. -/
theorem run_ops_retireInv {k : Nat} (hk1 : 1 ≤ k) (hk : k ≤ 127) :
    ∀ (ops : List pipeline_op) (s : Sim) (hist : List Nat) (n : Nat),
      (∀ a insn, pipeline_op.insert a insn ∈ ops →
        a ≠ 0 ∧ insn ≠ .nop ∧ insn.fits = true) →
      CacheInv s k hist → RetireInv s n →
      ∃ s' hist', run_ops s ops = .ok s' ∧ CacheInv s' k hist' ∧
        RetireInv s' (n + count_inserts ops) := by
  intro ops
  induction ops with
  | nil =>
    intro s hist n _ h hr
    exact ⟨s, hist, rfl, h, hr⟩
  | cons op ops ih =>
    intro s hist n hops h hr
    have hops' : ∀ a insn, pipeline_op.insert a insn ∈ ops →
        a ≠ 0 ∧ insn ≠ .nop ∧ insn.fits = true :=
      fun a insn hm => hops a insn (List.mem_cons_of_mem _ hm)
    cases op with
    | insert a insn =>
      obtain ⟨ha, hn, hfit⟩ := hops a insn (List.mem_cons_self _ _)
      obtain ⟨s1, hist1, hp, hinv1, hr1⟩ := insert_retireInv h hk1 hk hr ha hn hfit
      obtain ⟨s', hist', hrun, hinv', hr'⟩ := ih s1 hist1 (n + 1) hops' hinv1 hr1
      refine ⟨s', hist', ?_, hinv', ?_⟩
      · simp only [run_ops, run_op, hp]
        exact hrun
      · rw [count_inserts_insert]
        have e : n + (count_inserts ops + 1) = n + 1 + count_inserts ops := by omega
        rw [e]
        exact hr'
    | advance =>
      obtain ⟨s1, hist1, hp, hinv1, _, _, _, hret⟩ := push_retireInv h hk1 hk
      obtain ⟨s', hist', hrun, hinv', hr'⟩ := ih s1 hist1 n hops' hinv1 (hret n hr)
      refine ⟨s', hist', ?_, hinv', ?_⟩
      · simp only [run_ops, run_op, hp]
        exact hrun
      · rw [count_inserts_advance]
        exact hr'

/-- C16. Retirement conservation.  Start from a state that `iplc_sim_init` returns
(`1 ≤ k ≤ 127` ways, `0 ≤ index ≤ 30`, `1 ≤ blocksize ≤ 65536`) with `instruction_count`
0, and run any list of insert operations (`iplc_sim_process_pipeline_*` other than
`_nop`, each at a nonzero fetch address, the mnemonic of `_rtype` and `_jump` having at
most 15 bytes so that the `strcpy` into `char instruction[16]` stays inside the slot) and
bare advances.  The list returns, the loop of `iplc_sim_finalize` then returns (fuel 5
is enough), and the final `instruction_count`, an `unsigned int`, is the number of
insert operations modulo `2 ^ 32`: the number itself when that is below `2 ^ 32`. -/
theorem retirement_conservation (s0 s : Sim) (index blocksize : Int) (k : Nat)
    (hinit : iplc_sim_init s0 index blocksize (k : Int) = .ok s)
    (hk1 : 1 ≤ k) (hk : k ≤ 127) (hi0 : 0 ≤ index) (hi : index ≤ 30)
    (hb1 : 1 ≤ blocksize) (hb : blocksize ≤ 65536)
    (hzero : s0.instruction_count = 0) (ops : List pipeline_op)
    (hops : ∀ a insn, pipeline_op.insert a insn ∈ ops →
      a ≠ 0 ∧ insn ≠ .nop ∧ insn.fits = true)
    (fuel : Nat) (hfuel : 5 ≤ fuel) :
    ∃ s1 n s2, run_ops s ops = .ok s1 ∧ iplc_sim_finalize fuel s1 = .ok (some (n, s2)) ∧
      s2.instruction_count = count_inserts ops % 2 ^ 32 ∧
      (count_inserts ops < 2 ^ 32 → s2.instruction_count = count_inserts ops) := by
  have hic := init_instruction_count hinit
  obtain ⟨_, _, _, _, _, _, hpl⟩ := init_ok_state hinit
  lift index to ℕ using hi0
  lift blocksize to ℕ using (by omega : 0 ≤ blocksize)
  obtain ⟨hinv, _⟩ := init_cacheInv hinit (by omega) (by omega) (by omega) hk1 hk
  have hr : RetireInv s 0 := by
    refine ⟨?_, by rw [hic, hzero]; decide, ?_, ?_, ?_, ?_, ?_⟩
    · unfold in_flight
      rw [hic, hzero, hpl]
      rfl
    all_goals rw [hpl]; exact nop_unaddressed_zeroed
  obtain ⟨s1, hist1, hrun, hinv1, hr1⟩ := run_ops_retireInv hk1 hk ops s [] 0 hops hinv hr
  rw [Nat.zero_add] at hr1
  obtain ⟨n, s2, hfin, _, hidle, hr2⟩ := finalize_returns hk1 hk
    (fun t => RetireInv t (count_inserts ops))
    (fun t hist t' ht hrt hp => by
      obtain ⟨u, _, hu, _, _, _, _, hret⟩ := push_retireInv ht hk1 hk
      rw [hp] at hu
      rw [Except.ok.inj hu]
      exact hret _ hrt)
    hinv1 hr1 hfuel
  obtain ⟨n1, n2, n3, n4, n5⟩ := (pipeline_busy_false_iff s2).1 hidle
  have hc := hr2.count
  have hb2 := hr2.bound
  unfold in_flight occupied at hc
  rw [hr2.fetch n1, hr2.decode n2, hr2.alu n3, hr2.mem n4, hr2.writeback n5] at hc
  simp only [ne_eq, not_true_eq_false, if_false, Nat.add_zero] at hc
  rw [Nat.mod_eq_of_lt hb2] at hc
  refine ⟨s1, n, s2, hrun, hfin, hc, fun hlt => ?_⟩
  rw [hc, Nat.mod_eq_of_lt hlt]

theorem retirement_conservation_witness :
    ∃ s1 n s2, run_ops
        { Sim.start with
          cache_index := 1, cache_blocksize := 1, cache_assoc := 2,
          cache_blockoffsetbits := 2,
          cache := [cache_line_t.fresh 2, cache_line_t.fresh 2] }
        [.insert 4 (.branch 1 2), .insert 100 (.lw 8 (-1) 64), .advance,
          .insert 104 (.rtype "add" 10 8 9)] = .ok s1 ∧
      iplc_sim_finalize 5 s1 = .ok (some (n, s2)) ∧
      s2.instruction_count = 3 :=
  match retirement_conservation Sim.start
      { Sim.start with
        cache_index := 1, cache_blocksize := 1, cache_assoc := 2,
        cache_blockoffsetbits := 2,
        cache := [cache_line_t.fresh 2, cache_line_t.fresh 2] }
      1 1 2 rfl (by decide) (by decide) (by decide) (by decide) (by decide) (by decide)
      rfl
      [.insert 4 (.branch 1 2), .insert 100 (.lw 8 (-1) 64), .advance,
        .insert 104 (.rtype "add" 10 8 9)]
      (by
        intro a insn h
        simp only [List.mem_cons, List.mem_singleton, List.not_mem_nil, or_false] at h
        rcases h with h | h | h | h <;> cases h <;> decide)
      5 (le_refl 5) with
  | ⟨s1, n, s2, h1, h2, h3, _⟩ => ⟨s1, n, s2, h1, h2, h3⟩

/-! ## The advances after an instruction-fetch miss -/

theorem toS32_range (x : Int) : -2 ^ 31 ≤ toS32 x ∧ toS32 x < 2 ^ 31 := by
  unfold toS32
  omega

/-- The bound `j + CACHE_MISS_DELAY - 1` of the loop when it does not overflow. -/
theorem fetch_miss_bound {j : Int} (h0 : -2 ^ 31 ≤ j) (h1 : j + 9 < 2 ^ 31) :
    toS32 (toS32 (j + CACHE_MISS_DELAY) - 1) = j + 9 := by
  unfold toS32 CACHE_MISS_DELAY
  push_cast
  omega

/-- The loop with `m` iterations to go, when the counter does not overflow: it makes
exactly `m` advances. -/
theorem fetch_miss_loop_count : ∀ (m fuel : Nat) (i : Int) (s : Sim), m ≤ fuel →
    -2 ^ 31 ≤ i → i + m < 2 ^ 31 →
    fetch_miss_loop fuel i (i + m) s =
      (match push_times m s with
        | .error e => .error e
        | .ok s' => .ok (some s')) := by
  intro m
  induction m with
  | zero =>
    intro fuel i s _ _ _
    have hlt : ¬ i < i + ((0 : Nat) : Int) := by push_cast; omega
    cases fuel <;> simp only [fetch_miss_loop, if_neg hlt, push_times]
  | succ m ih =>
    intro fuel i s hf h0 h1
    obtain ⟨fuel, rfl⟩ : ∃ f, fuel = f + 1 := ⟨fuel - 1, by omega⟩
    have hlt : i < i + ((m + 1 : Nat) : Int) := by push_cast; omega
    have h1' : i + 1 + (m : Int) < 2 ^ 31 := by push_cast at h1; omega
    rw [fetch_miss_loop, if_pos hlt, push_times]
    cases hp : iplc_sim_push_pipeline_stage s with
    | error e => rfl
    | ok s1 =>
      simp only
      rw [toS32_of_range (by omega) (by omega)]
      have e : i + ((m + 1 : Nat) : Int) = i + 1 + (m : Int) := by push_cast; ring
      rw [e]
      exact ih fuel (i + 1) s1 (by omega) (by omega) h1'

/-- The function `iplc_sim_parse_instruction` from the result of its lookup.  On a hit
the calls for the decoded line (`parse_dispatch`) follow with no advance before them.
On a miss, when `j + CACHE_MISS_DELAY - 1` does not overflow (`j` is `pipeline_cycles` as an `int`),
exactly `CACHE_MISS_DELAY - 1 = 9` advances are made first, whatever they add to
`pipeline_cycles`. -/
theorem parse_instruction_advances (s : Sim) (a : Nat) (insn : insert_t) {hit : Int}
    {s1 : Sim}
    (ht : iplc_sim_trap_address { s with instruction_address := a } a = .ok (hit, s1))
    (fuel : Nat) (hfuel : 9 ≤ fuel) :
    (hit ≠ 0 → iplc_sim_parse_instruction fuel s a insn =
      (match parse_dispatch s1 insn with
        | .error e => .error e
        | .ok s3 => .ok (some s3))) ∧
    (hit = 0 → toS32 s.pipeline_cycles + 9 < 2 ^ 31 →
      iplc_sim_parse_instruction fuel s a insn =
      (match push_times (CACHE_MISS_DELAY - 1) s1 with
        | .error e => .error e
        | .ok s2 =>
          match parse_dispatch s2 insn with
          | .error e => .error e
          | .ok s3 => .ok (some s3))) := by
  have hf := (trap_address_frame ht).1
  have hc : s1.pipeline_cycles = s.pipeline_cycles := by rw [hf]
  have hdef : iplc_sim_parse_instruction fuel s a insn =
      (match (if hit = 0 then
          fetch_miss_loop fuel (toS32 s1.pipeline_cycles)
            (toS32 (toS32 (toS32 s1.pipeline_cycles + CACHE_MISS_DELAY) - 1)) s1
          else .ok (some s1)) with
        | .error e => .error e
        | .ok none => .ok none
        | .ok (some s2) =>
          match parse_dispatch s2 insn with
          | .error e => .error e
          | .ok s3 => .ok (some s3)) := by
    unfold iplc_sim_parse_instruction
    simp only
    rw [ht]
  constructor
  · intro hne
    rw [hdef, if_neg hne]
  · intro h0 hno
    obtain ⟨r0, _⟩ := toS32_range s.pipeline_cycles
    rw [hdef, if_pos h0, hc, fetch_miss_bound r0 hno]
    have h9 : toS32 (s.pipeline_cycles : Int) + 9
        = toS32 (s.pipeline_cycles : Int) + ((9 : Nat) : Int) := by push_cast; rfl
    rw [h9, fetch_miss_loop_count 9 fuel _ s1 hfuel r0 (by push_cast; omega)]
    show _ = (match push_times 9 s1 with
        | .error e => .error e
        | .ok s2 =>
          match parse_dispatch s2 insn with
          | .error e => .error e
          | .ok s3 => .ok (some s3))
    cases push_times 9 s1 <;> rfl

/-- The index of `iplc_sim_trap_address` is the value that `get_index` returns: the
conversions between `int` and `uint32_t` on the way do not change it. -/
theorem trap_index_is_get_index (s : Sim) (I O : Nat) (hI : s.cache_index = I)
    (hO : s.cache_blockoffsetbits = O) (h1 : 1 ≤ I) (h2 : I + O ≤ 31) (a : Nat) :
    trap_index s a = ((get_index a O (I + O - 1) : Nat) : Int) ∧
    get_index a O (I + O - 1) = a / 2 ^ O % 2 ^ I := by
  have e : get_index a O (I + O - 1) = a / 2 ^ O % 2 ^ I := by
    rw [get_index_eq_bits a O (I + O - 1) (by omega) (by omega)]
    congr 2
    omega
  rw [e]
  exact ⟨trap_index_eq s I O hI hO (by omega) (by omega) (by omega) a, rfl⟩

/-- C24. Set index in bounds.  In a configuration with `I ≥ 1` index bits and `O` offset
bits, `I + O ≤ 31`, the index that `iplc_sim_trap_address` computes for an address is
`get_index(address, O, I + O - 1)`, and it satisfies `0 ≤ index < 2 ^ I`.  Hence
`cache[index]` is one of the sets whenever `2 ^ I` sets are allocated, which is what
`iplc_sim_init` does when it returns (`1 << index` sets, with `I ≤ 30` so that the shift
is defined). -/
theorem set_index_in_bounds (s : Sim) (I O : Nat) (hI : s.cache_index = I)
    (hO : s.cache_blockoffsetbits = O) (h1 : 1 ≤ I) (h2 : I + O ≤ 31) (a : Nat) :
    trap_index s a = ((get_index a O (I + O - 1) : Nat) : Int) ∧
    0 ≤ trap_index s a ∧ trap_index s a < 2 ^ I ∧
    (s.cache.length = 2 ^ I → (trap_index s a).toNat < s.cache.length) ∧
    (∀ (s0 : Sim) (blocksize assoc : Int), I ≤ 30 →
      iplc_sim_init s0 (I : Int) blocksize assoc = .ok s →
      s.cache.length = 2 ^ I ∧ (trap_index s a).toNat < s.cache.length) := by
  obtain ⟨e1, e2⟩ := trap_index_is_get_index s I O hI hO h1 h2 a
  have hlt : get_index a O (I + O - 1) < 2 ^ I := by
    rw [e2]; exact Nat.mod_lt _ (by positivity)
  have hlen : s.cache.length = 2 ^ I → (trap_index s a).toNat < s.cache.length := by
    intro hl
    rw [hl, e1, Int.toNat_ofNat]
    exact hlt
  refine ⟨e1, by rw [e1]; exact Int.natCast_nonneg _, ?_, hlen, ?_⟩
  · rw [e1]
    exact_mod_cast hlt
  · intro s0 blocksize assoc hI30 hinit
    obtain ⟨_, _, _, _, _, hc, _⟩ := init_ok_state hinit
    have hl : s.cache.length = 2 ^ I := by
      rw [hc, List.length_replicate, shl32_one hI30, Int.toNat_ofNat]
    exact ⟨hl, hlen hl⟩

theorem set_index_in_bounds_witness :
    trap_index { Sim.start with
        cache_index := 1, cache_blocksize := 1, cache_assoc := 2,
        cache_blockoffsetbits := 2,
        cache := [cache_line_t.fresh 2, cache_line_t.fresh 2] } 4660 < 2 ^ 1 ∧
    (trap_index { Sim.start with
        cache_index := 1, cache_blocksize := 1, cache_assoc := 2,
        cache_blockoffsetbits := 2,
        cache := [cache_line_t.fresh 2, cache_line_t.fresh 2] } 4660).toNat < 2 :=
  ⟨(set_index_in_bounds { Sim.start with
        cache_index := 1, cache_blocksize := 1, cache_assoc := 2,
        cache_blockoffsetbits := 2,
        cache := [cache_line_t.fresh 2, cache_line_t.fresh 2] } 1 2 rfl rfl (by decide)
      (by decide) 4660).2.2.1,
    ((set_index_in_bounds { Sim.start with
        cache_index := 1, cache_blocksize := 1, cache_assoc := 2,
        cache_blockoffsetbits := 2,
        cache := [cache_line_t.fresh 2, cache_line_t.fresh 2] } 1 2 rfl rfl (by decide)
      (by decide) 4660).2.2.2.2 Sim.start 1 2 (by decide) rfl).2⟩

/-! ## The width of the recency field -/

/-- For a block of `2 ^ e` words the block-offset bit count is `e + 2` exactly. -/
theorem rint_log2_pow_two {e : Nat} (he : e ≤ 16) :
    rint_log2 (toS32 (((2 ^ e : Nat) : Int) * 4)) = ((e + 2 : Nat) : Int) := by
  have hpow : (2 : Nat) ^ e ≤ 2 ^ 16 := Nat.pow_le_pow_right (by norm_num) he
  have hc0 : (0 : Int) ≤ ((2 ^ e : Nat) : Int) := Int.natCast_nonneg _
  have hc1 : ((2 ^ e : Nat) : Int) ≤ 65536 := by exact_mod_cast hpow
  have e4 : toS32 (((2 ^ e : Nat) : Int) * 4) = ((2 ^ (e + 2) : Nat) : Int) := by
    rw [toS32_of_range (by omega) (by omega), pow_add]
    push_cast
    ring
  rw [e4]
  obtain ⟨O, hO, hO32, hlt, hge⟩ := rint_log2_spec (n := 2 ^ (e + 2)) Nat.one_le_two_pow
  rw [hO]
  have hsq : 2 ^ (e + 2) * 2 ^ (e + 2) = 2 ^ (2 * e + 4) := by
    have h := pow_add (2 : Nat) (e + 2) (e + 2)
    have h2 : e + 2 + (e + 2) = 2 * e + 4 := by omega
    rw [h2] at h
    exact h.symm
  rw [hsq] at hlt hge
  have hup : O ≤ e + 2 := by
    by_contra hc
    have h1 := hge (by omega)
    have h2 : 2 * O - 1 ≤ 2 * e + 4 := (Nat.pow_le_pow_iff_right (by norm_num)).1 h1
    omega
  have hlo : e + 2 ≤ O := by
    rcases hlt with h | h
    · have := (Nat.pow_lt_pow_iff_right (by norm_num : 1 < 2)).1 h
      omega
    · omega
  have : O = e + 2 := by omega
  rw [this]

/-- C25. Recency storage width.  For `1 ≤ index ≤ 16`, `blocksize = 2 ^ e` with
`e ≤ 16` and `1 ≤ assoc ≤ 2 ^ 16`: the block-offset bit count is `e + 2`,
`iplc_sim_init` returns exactly when
`assoc * 2 ^ index * (32 * blocksize + 33 - index - (e + 2)) ≤ 10240`, and then
`assoc ≤ 127`, so that the values `cache_assoc` and `cache_assoc - 1` that the LRU
routines store in the `int8_t` field `last_accessed` are stored unchanged. -/
theorem recency_storage_width (s0 : Sim) (I e k : Nat) (hI1 : 1 ≤ I) (hI : I ≤ 16)
    (he : e ≤ 16) (hk1 : 1 ≤ k) (hk : k ≤ 2 ^ 16) :
    rint_log2 (toS32 (((2 ^ e : Nat) : Int) * 4)) = ((e + 2 : Nat) : Int) ∧
    ((∃ s, iplc_sim_init s0 (I : Int) ((2 ^ e : Nat) : Int) (k : Int) = .ok s) ↔
      k * 2 ^ I * (32 * 2 ^ e + 33 - I - (e + 2)) ≤ MAX_CACHE_SIZE) ∧
    (∀ s, iplc_sim_init s0 (I : Int) ((2 ^ e : Nat) : Int) (k : Int) = .ok s →
      k ≤ 127 ∧ s.cache_assoc = (k : Int) ∧ toS8 s.cache_assoc = s.cache_assoc ∧
      toS8 (toS8 s.cache_assoc - 1) = s.cache_assoc - 1) := by
  have hO := rint_log2_pow_two he
  have hpow : (2 : Nat) ^ e ≤ 2 ^ 16 := Nat.pow_le_pow_right (by norm_num) he
  have hpowI : (2 : Nat) ^ I ≤ 2 ^ 16 := Nat.pow_le_pow_right (by norm_num) hI
  have hpowI1 : (2 : Nat) ^ 1 ≤ 2 ^ I := Nat.pow_le_pow_right (by norm_num) hI1
  have hlt : e < 2 ^ e := Nat.lt_two_pow e
  have hT : 47 ≤ 32 * 2 ^ e + 33 - I - (e + 2) := by omega
  have hTu : 32 * 2 ^ e + 33 - I - (e + 2) ≤ 2 ^ 22 := by omega
  have hkI : k * 2 ^ I ≤ 2 ^ 16 * 2 ^ 16 := Nat.mul_le_mul hk hpowI
  have hprod : k * 2 ^ I * (32 * 2 ^ e + 33 - I - (e + 2)) ≤ 2 ^ 16 * 2 ^ 16 * 2 ^ 22 :=
    Nat.mul_le_mul hkI hTu
  have hsize : cache_size_of (I : Int) ((2 ^ e : Nat) : Int) (k : Int)
      (rint_log2 (toS32 (((2 ^ e : Nat) : Int) * 4)))
      = k * 2 ^ I * (32 * 2 ^ e + 33 - I - (e + 2)) := by
    have m1 : k * 2 ^ I % 2 ^ 64 = k * 2 ^ I := Nat.mod_eq_of_lt (by omega)
    have m2 : k * 2 ^ I * (32 * 2 ^ e + 33 - I - (e + 2)) % 2 ^ 64
        = k * 2 ^ I * (32 * 2 ^ e + 33 - I - (e + 2)) := Nat.mod_eq_of_lt (by omega)
    rw [hO, cache_size_of_eq (by omega) (by omega) (by omega) (by omega), m1, m2]
  have hiff : (∃ s, iplc_sim_init s0 (I : Int) ((2 ^ e : Nat) : Int) (k : Int) = .ok s) ↔
      k * 2 ^ I * (32 * 2 ^ e + 33 - I - (e + 2)) ≤ MAX_CACHE_SIZE := by
    constructor
    · rintro ⟨s, hs⟩
      have := (init_ok_state hs).1
      rw [hsize] at this
      exact this
    · intro hle
      unfold iplc_sim_init
      simp only [hsize, not_lt.2 hle, if_false]
      exact ⟨_, rfl⟩
  refine ⟨hO, hiff, fun s hs => ?_⟩
  have hle := hiff.1 ⟨s, hs⟩
  unfold MAX_CACHE_SIZE at hle
  have hk127 : k ≤ 127 := by
    by_contra hc
    have h1 : 128 * 2 ^ 1 ≤ k * 2 ^ I := Nat.mul_le_mul (by omega) hpowI1
    have h2 : 128 * 2 ^ 1 * 47 ≤ k * 2 ^ I * (32 * 2 ^ e + 33 - I - (e + 2)) :=
      Nat.mul_le_mul h1 hT
    omega
  have ha : s.cache_assoc = (k : Int) := (init_ok_state hs).2.2.2.1
  rw [ha]
  have h8 : toS8 (k : Int) = k := toS8_of_range (by omega) (by omega)
  refine ⟨hk127, rfl, h8, ?_⟩
  rw [h8]
  exact toS8_of_range (by omega) (by omega)

theorem recency_storage_width_witness :
    (∃ s, iplc_sim_init Sim.start ((1 : Nat) : Int) ((2 ^ 0 : Nat) : Int) ((2 : Nat) : Int)
      = .ok s) ↔ 2 * 2 ^ 1 * (32 * 2 ^ 0 + 33 - 1 - (0 + 2)) ≤ MAX_CACHE_SIZE :=
  (recency_storage_width Sim.start 1 0 2 (by decide) (by decide) (by decide) (by decide)
    (by decide)).2.1

/-! ## `iplc_sim_LRU_update_on_hit` as a function of the set -/

/-- C22, counterexample.  After `iplc_sim_init(1, 1, 2)` and lookups of addresses 64 and
128 the two ways of set 0 have recency 0 and 1.  `iplc_sim_LRU_update_on_hit(0, 0)` then
leaves way 0 with recency 1, which is `cache_assoc - 1`, not `cache_assoc = 2`. -/
theorem promote_leaves_assoc_minus_one :
    ((iplc_sim_init Sim.start 1 1 2).bind fun s0 =>
      (trap_sequence s0 [64, 128]).map fun r =>
        (r.2.cache_assoc, (r.2.cache.getD 0 default).last_accessed,
          ((iplc_sim_LRU_update_on_hit r.2 0 0).cache.getD 0 default).last_accessed))
    = .ok (2, [0, 1], [1, 0]) := by
  rfl

/-- C22, as the code has it.  Let set `index` of the cache have `k` ways
(`1 ≤ k ≤ 127`, the stored recencies being `int8_t` values), let `w < k` and let
`oldRank` be `last_accessed[w]` before the call.  `iplc_sim_LRU_update_on_hit(index, w)`
leaves the recency of `w` at `k - 1` when `oldRank < k`: the loop that follows the store
of `cache_assoc` decrements way `w` as well (it stays at `k` only when `oldRank ≥ k`).
It decrements by exactly 1 the recency of every other way whose recency was greater than
`oldRank`, leaves the recency of the remaining ways, every tag and every valid bit
unchanged, and does not touch the other sets. -/
theorem promote_on_hit (s : Sim) (index : Int) (w k : Nat) (hk1 : 1 ≤ k) (hk : k ≤ 127)
    (ha : s.cache_assoc = (k : Int)) (hidx : index.toNat < s.cache.length)
    (hlen : (s.cache.getD index.toNat default).last_accessed.length = k) (hw : w < k)
    (h8 : ∀ j, j < k →
      -128 ≤ (s.cache.getD index.toNat default).last_accessed.getD j 0 ∧
      (s.cache.getD index.toNat default).last_accessed.getD j 0 ≤ 127) :
    ((iplc_sim_LRU_update_on_hit s index w).cache.getD index.toNat default).valid
      = (s.cache.getD index.toNat default).valid ∧
    ((iplc_sim_LRU_update_on_hit s index w).cache.getD index.toNat default).tag
      = (s.cache.getD index.toNat default).tag ∧
    ((s.cache.getD index.toNat default).last_accessed.getD w 0 < (k : Int) →
      ((iplc_sim_LRU_update_on_hit s index w).cache.getD index.toNat
        default).last_accessed.getD w 0 = (k : Int) - 1) ∧
    ((k : Int) ≤ (s.cache.getD index.toNat default).last_accessed.getD w 0 →
      ((iplc_sim_LRU_update_on_hit s index w).cache.getD index.toNat
        default).last_accessed.getD w 0 = (k : Int)) ∧
    (∀ j, j < k → j ≠ w →
      ((iplc_sim_LRU_update_on_hit s index w).cache.getD index.toNat
        default).last_accessed.getD j 0 =
      if (s.cache.getD index.toNat default).last_accessed.getD j 0
          > (s.cache.getD index.toNat default).last_accessed.getD w 0
      then (s.cache.getD index.toNat default).last_accessed.getD j 0 - 1
      else (s.cache.getD index.toNat default).last_accessed.getD j 0) ∧
    (∀ idx, idx ≠ index.toNat →
      (iplc_sim_LRU_update_on_hit s index w).cache.getD idx default
        = s.cache.getD idx default) := by
  have hc : (iplc_sim_LRU_update_on_hit s index w).cache =
      s.cache.set index.toNat
        ((s.cache.getD index.toNat default).update_on_hit (k : Int) w) := by
    unfold iplc_sim_LRU_update_on_hit
    simp only [ha]
  have hline : (iplc_sim_LRU_update_on_hit s index w).cache.getD index.toNat default
      = (s.cache.getD index.toNat default).update_on_hit (k : Int) w := by
    rw [hc, getD_set_line]
    simp only [hidx, and_self, if_true]
  obtain ⟨u1, u2, _, u4⟩ := update_on_hit_spec k (s.cache.getD index.toNat default) w hlen
  have hS : toS8 (k : Int) = k := toS8_of_range (by omega) (by omega)
  have hS1 : toS8 ((k : Int) - 1) = (k : Int) - 1 := toS8_of_range (by omega) (by omega)
  obtain ⟨w0, w1⟩ := h8 w hw
  rw [hline]
  refine ⟨u1, u2, ?_, ?_, ?_, ?_⟩
  · intro hlt
    rw [u4]
    simp only [hw, true_and, if_true, hS, and_self, hS1]
    split_ifs <;> omega
  · intro hge
    rw [u4]
    simp only [hw, true_and, if_true, hS, and_self, hS1]
    split_ifs <;> omega
  · intro j hj hjw
    obtain ⟨j0, j1⟩ := h8 j hj
    have hd := toS8_of_range
      (x := (s.cache.getD index.toNat default).last_accessed.getD j 0 - 1)
    rw [u4]
    simp only [hj, true_and, hjw, if_false, false_and]
    split_ifs <;> omega
  · intro idx hne
    rw [hc, getD_set_line]
    have : ¬ (index.toNat = idx ∧ index.toNat < s.cache.length) := fun h => hne h.1.symm
    simp only [this, if_false]

theorem promote_on_hit_witness :
    ((iplc_sim_LRU_update_on_hit { Sim.start with
        cache_index := 1, cache_blocksize := 1, cache_assoc := 2,
        cache_blockoffsetbits := 2,
        cache := [⟨[1, 1], [8, 16], [0, 1]⟩, cache_line_t.fresh 2] } 0 0).cache.getD
          (0 : Int).toNat default).last_accessed.getD 0 0 = ((2 : Nat) : Int) - 1 :=
  (promote_on_hit { Sim.start with
        cache_index := 1, cache_blocksize := 1, cache_assoc := 2,
        cache_blockoffsetbits := 2,
        cache := [⟨[1, 1], [8, 16], [0, 1]⟩, cache_line_t.fresh 2] } 0 0 2 (by decide)
      (by decide) rfl (by decide) rfl (by decide)
      (by intro j hj; interval_cases j <;> decide)).2.2.1 (by decide)

/-! ## The recency of the ways that hold no block -/

theorem freeInv_fresh (k : Nat) : FreeInv k (cache_line_t.fresh (k : Int)) [] := by
  intro i _ _
  simp only [cache_line_t.fresh, getD_replicate_zero, List.length_nil, Nat.cast_zero,
    neg_zero]

/-- A hit leaves the free ways as they are. -/
theorem freeInv_hit {k : Nat} {line : cache_line_t} {R : List Int} {t : Int} {e : Nat}
    (h : LineInv k line R) (hf : FreeInv k line R)
    (he : cache_line_assoc_handler (k : Int) line t = some e) :
    FreeInv k (line.update_on_hit (k : Int) e) (t :: R.erase t) := by
  obtain ⟨hek, hTe, hVe⟩ := assoc_handler_some he
  have hem : e < min R.length k := (h.valid_iff e hek).1 hVe
  obtain ⟨htR, htk, hLe⟩ := h.rank e hem
  rw [hTe] at htR htk hLe
  obtain ⟨_, _, _, u4⟩ := update_on_hit_spec k line e h.len_la
  have hlen : (t :: R.erase t).length = R.length := by
    rw [length_move_front]; simp only [htR, if_true]
  intro i hi hik
  rw [hlen] at hi ⊢
  have hie : i ≠ e := by omega
  have hv := hf i hi hik
  rw [u4]
  simp only [hie, if_false, false_and, hik, true_and]
  split_ifs <;> omega

/-- A miss decrements the free ways that remain. -/
theorem freeInv_miss {k : Nat} {line : cache_line_t} {R : List Int} {t : Int} {v : Nat}
    (h : LineInv k line R) (hf : FreeInv k line R) (hk : k ≤ 127)
    (hn : cache_line_assoc_handler (k : Int) line t = none)
    (hv : cache_line_select_replace (k : Int) line = .ok v) :
    FreeInv k (line.replace_on_miss (k : Int) v t) (t :: R.erase t) := by
  have hmiss := assoc_handler_none hn
  have ht := miss_not_recent h hmiss
  obtain ⟨_, _, _, u4⟩ := replace_on_miss_spec k line v t h.len_la
  intro i hi hik
  have hge : R.length ≤ (t :: R.erase t).length := by
    rw [length_move_front]; split_ifs <;> omega
  have hRk : R.length < k := by omega
  have htR : t ∉ R := fun h1 => ht ⟨h1, lt_trans (List.indexOf_lt_length.2 h1) hRk⟩
  have hlen : (t :: R.erase t).length = R.length + 1 := by
    rw [length_move_front]; simp only [htR, if_false]
  rw [hlen] at hi ⊢
  have hfree : line.valid.getD R.length 0 = 0 := by
    by_contra hc
    have := (h.valid_iff R.length hRk).1 hc
    omega
  obtain ⟨v', hv', hvle, hq, _⟩ := select_replace_first hRk (Or.inr hfree)
  rw [hv] at hv'
  have hvv : v = v' := Except.ok.inj hv'
  have hiv : i ≠ v := by omega
  have hval := hf i (by omega) hik
  have h1 := toS8_of_range (x := line.last_accessed.getD i 0 - 1) (by omega) (by omega)
  rw [u4]
  simp only [hik, if_true, hiv, if_false]
  rw [h1, hval]
  push_cast
  ring

/-- One lookup keeps `FreeInv` in every set. -/
theorem cacheFreeInv_step {s s' : Sim} {k : Nat} {hist : List Nat} {a : Nat} {hit : Int}
    (h : CacheInv s k hist) (hf : CacheFreeInv s k hist) (hk : k ≤ 127)
    (ht : iplc_sim_trap_address s a = .ok (hit, s')) :
    CacheFreeInv s' k (hist ++ [a]) := by
  have key : ∃ line', s'.cache = s.cache.set (trap_index s a).toNat line' ∧
      s'.cache_index = s.cache_index ∧
      s'.cache_blockoffsetbits = s.cache_blockoffsetbits ∧
      FreeInv k line' (trap_tag s a ::
        (recency_order (same_index_tags s hist a)).erase (trap_tag s a)) := by
    cases hh : cache_line_assoc_handler s.cache_assoc
        (s.cache.getD (trap_index s a).toNat default) (trap_tag s a) with
    | some e =>
      rw [trap_address_hit hh] at ht
      simp only [Except.ok.injEq, Prod.mk.injEq] at ht
      obtain ⟨_, h2⟩ := ht
      subst h2
      refine ⟨_, rfl, rfl, rfl, ?_⟩
      rw [h.assoc_eq] at hh ⊢
      exact freeInv_hit (h.lines a) (hf a) hh
    | none =>
      cases hv : cache_line_select_replace s.cache_assoc
          (s.cache.getD (trap_index s a).toNat default) with
      | error err => rw [trap_address_abort hh hv] at ht; cases ht
      | ok v =>
        rw [trap_address_miss hh hv] at ht
        simp only [Except.ok.injEq, Prod.mk.injEq] at ht
        obtain ⟨_, h2⟩ := ht
        subst h2
        refine ⟨_, rfl, rfl, rfl, ?_⟩
        rw [h.assoc_eq] at hh hv ⊢
        exact freeInv_miss (h.lines a) (hf a) hk hh hv
  obtain ⟨line', hc, h1, h2, hl⟩ := key
  obtain ⟨ei, _, es⟩ := same_index_tags_config h1 h2
  intro b
  rw [ei, es, hc, getD_set_line, same_index_tags_append]
  by_cases hb : trap_index s a = trap_index s b
  · have hlt := (h.index_lt a).2
    simp only [hb, true_and, if_true]
    rw [hb] at hlt
    simp only [hlt, if_true]
    rw [recency_order_append, same_index_tags_congr s hist hb.symm]
    exact hl
  · have hne : ¬ (trap_index s a).toNat = (trap_index s b).toNat := by
      have ha := (h.index_lt a).1
      have hb0 := (h.index_lt b).1
      omega
    simp only [hne, false_and, if_false, hb]
    exact hf b

/-- A sequence of lookups keeps both invariants. -/
theorem trap_sequence_freeInv {k : Nat} (hk1 : 1 ≤ k) (hk : k ≤ 127) (addrs : List Nat) :
    ∀ (s : Sim) (hist : List Nat), CacheInv s k hist → CacheFreeInv s k hist →
    ∃ hits s', trap_sequence s addrs = .ok (hits, s') ∧
      CacheInv s' k (hist ++ addrs) ∧ CacheFreeInv s' k (hist ++ addrs) := by
  induction addrs with
  | nil =>
    intro s hist h hf
    refine ⟨[], s, rfl, ?_, ?_⟩ <;> rw [List.append_nil] <;> assumption
  | cons a as ih =>
    intro s hist h hf
    obtain ⟨hit, s1, h1, hinv1, _⟩ := cacheInv_step h hk1 hk a
    have hf1 := cacheFreeInv_step h hf hk h1
    obtain ⟨hits, s2, h2, hinv2, hf2⟩ := ih s1 (hist ++ [a]) hinv1 hf1
    rw [List.append_assoc] at hinv2 hf2
    refine ⟨hit :: hits, s2, ?_, hinv2, hf2⟩
    simp only [trap_sequence, h1, h2]

/-- A cache as `iplc_sim_init` returns it satisfies both invariants with the empty
history. -/
theorem init_freeInv {s0 s : Sim} {I b k : Nat}
    (hinit : iplc_sim_init s0 (I : Int) (b : Int) (k : Int) = .ok s)
    (hI : I ≤ 30) (hb1 : 1 ≤ b) (hb : b ≤ 65536) (hk1 : 1 ≤ k) (hk : k ≤ 127) :
    CacheInv s k [] ∧ CacheFreeInv s k [] := by
  obtain ⟨hinv, _, _, _, _, _, hlen⟩ := init_cacheInv hinit hI hb1 hb hk1 hk
  refine ⟨hinv, fun a => ?_⟩
  obtain ⟨_, _, _, _, _, hcc, _⟩ := init_ok_state hinit
  have hlt := (hinv.index_lt a).2
  have hget : s.cache.getD (trap_index s a).toNat default = cache_line_t.fresh (k : Int) := by
    rw [hcc, List.getD_eq_getElem?_getD, List.getElem?_replicate]
    rw [hcc, List.length_replicate] at hlt
    simp only [hlt, if_true, Option.getD_some]
  rw [hget]
  exact freeInv_fresh k

/-- The range of the recency of a way, in a set that satisfies both invariants: a way
that holds a block has a recency from 0 to `k - 1`, a way that holds none has a recency
from `-(k - 1)` to 0. -/
theorem line_recency_range {k : Nat} {line : cache_line_t} {R : List Int}
    (h : LineInv k line R) (hf : FreeInv k line R) {i : Nat} (hi : i < k) :
    (line.valid.getD i 0 ≠ 0 →
      0 ≤ line.last_accessed.getD i 0 ∧ line.last_accessed.getD i 0 ≤ (k : Int) - 1) ∧
    (line.valid.getD i 0 = 0 →
      -((k : Int) - 1) ≤ line.last_accessed.getD i 0 ∧ line.last_accessed.getD i 0 ≤ 0) := by
  constructor
  · intro hv
    obtain ⟨_, r2, r3⟩ := h.rank i ((h.valid_iff i hi).1 hv)
    omega
  · intro hv
    have hn : ¬ i < min R.length k := fun hc => (h.valid_iff i hi).2 hc hv
    have hRi : R.length ≤ i := by
      by_contra hc
      exact hn (lt_min (by omega) hi)
    have := hf i hRi hi
    omega

/-! ## The range of the recency values, and the installed way -/

/-- Both invariants hold in every state reached from `iplc_sim_init` by lookups. -/
theorem reachable_invariants {s0 s sc : Sim} {index blocksize : Int} {k : Nat}
    (hinit : iplc_sim_init s0 index blocksize (k : Int) = .ok s)
    (hk1 : 1 ≤ k) (hk : k ≤ 127) (hi0 : 0 ≤ index) (hi : index ≤ 30)
    (hb1 : 1 ≤ blocksize) (hb : blocksize ≤ 65536) {addrs : List Nat} {hits : List Int}
    (hreach : trap_sequence s addrs = .ok (hits, sc)) :
    CacheInv sc k addrs ∧ CacheFreeInv sc k addrs := by
  lift index to ℕ using hi0
  lift blocksize to ℕ using (by omega : 0 ≤ blocksize)
  obtain ⟨hinv, hf⟩ := init_freeInv hinit (by omega) (by omega) (by omega) hk1 hk
  obtain ⟨hits', s', h1, hinv', hf'⟩ := trap_sequence_freeInv hk1 hk addrs s [] hinv hf
  rw [hreach] at h1
  simp only [Except.ok.injEq, Prod.mk.injEq] at h1
  obtain ⟨_, h2⟩ := h1
  subst h2
  rw [List.nil_append] at hinv' hf'
  exact ⟨hinv', hf'⟩

/-- C21, counterexample.  After `iplc_sim_init(1, 1, 2)` and one lookup of address 64,
set 0 has way 0 valid with recency 1 and way 1 not valid with recency -1, which is
outside `[0, cache_assoc]`. -/
theorem recency_negative_on_free_way :
    ((iplc_sim_init Sim.start 1 1 2).bind fun s0 =>
      (trap_sequence s0 [64]).map fun r =>
        (r.2.cache_assoc, (r.2.cache.getD 0 default).valid,
          (r.2.cache.getD 0 default).last_accessed))
    = .ok (2, [1, 0], [1, -1]) := by
  rfl

/-- C21, as the code has it.  On a cache as `iplc_sim_init` returns it (`1 ≤ k ≤ 127`
ways, `0 ≤ index ≤ 30`, `1 ≤ blocksize ≤ 65536`), every sequence of calls of
`iplc_sim_trap_address` returns, and in the state it leaves every valid way of every set
has a `last_accessed` from 0 to `k - 1`, and every way that is not valid has a
`last_accessed` from `-(k - 1)` to 0: `iplc_sim_LRU_replace_on_miss` decrements the ways
that hold no block as well. -/
theorem recency_range (s0 s : Sim) (index blocksize : Int) (k : Nat)
    (hinit : iplc_sim_init s0 index blocksize (k : Int) = .ok s)
    (hk1 : 1 ≤ k) (hk : k ≤ 127) (hi0 : 0 ≤ index) (hi : index ≤ 30)
    (hb1 : 1 ≤ blocksize) (hb : blocksize ≤ 65536) (addrs : List Nat) :
    ∃ hits s', trap_sequence s addrs = .ok (hits, s') ∧
      ∀ idx, idx < s'.cache.length → ∀ i, i < k →
        ((s'.cache.getD idx default).valid.getD i 0 ≠ 0 →
          0 ≤ (s'.cache.getD idx default).last_accessed.getD i 0 ∧
          (s'.cache.getD idx default).last_accessed.getD i 0 ≤ (k : Int) - 1) ∧
        ((s'.cache.getD idx default).valid.getD i 0 = 0 →
          -((k : Int) - 1) ≤ (s'.cache.getD idx default).last_accessed.getD i 0 ∧
          (s'.cache.getD idx default).last_accessed.getD i 0 ≤ 0) := by
  obtain ⟨hits, s', h1, _⟩ : ∃ hits s', trap_sequence s addrs = .ok (hits, s') ∧ True := by
    lift index to ℕ using hi0
    lift blocksize to ℕ using (by omega : 0 ≤ blocksize)
    obtain ⟨hinv, _⟩ := init_cacheInv hinit (by omega) (by omega) (by omega) hk1 hk
    obtain ⟨hits, s', h1, _⟩ := trap_sequence_refines hk1 hk addrs s [] hinv
    exact ⟨hits, s', h1, trivial⟩
  obtain ⟨hinv, hf⟩ := reachable_invariants hinit hk1 hk hi0 hi hb1 hb h1
  refine ⟨hits, s', h1, fun idx hidx i hi => ?_⟩
  obtain ⟨a, ha⟩ := hinv.covers idx hidx
  rw [← ha]
  exact line_recency_range (hinv.lines a) (hf a) hi

theorem recency_range_witness :
    ∃ hits s', trap_sequence
        { Sim.start with
          cache_index := 1, cache_blocksize := 1, cache_assoc := 2,
          cache_blockoffsetbits := 2,
          cache := [cache_line_t.fresh 2, cache_line_t.fresh 2] } [64, 128, 64]
        = .ok (hits, s') ∧
      ∀ idx, idx < s'.cache.length → ∀ i, i < 2 →
        ((s'.cache.getD idx default).valid.getD i 0 ≠ 0 →
          0 ≤ (s'.cache.getD idx default).last_accessed.getD i 0 ∧
          (s'.cache.getD idx default).last_accessed.getD i 0 ≤ ((2 : Nat) : Int) - 1) ∧
        ((s'.cache.getD idx default).valid.getD i 0 = 0 →
          -(((2 : Nat) : Int) - 1) ≤ (s'.cache.getD idx default).last_accessed.getD i 0 ∧
          (s'.cache.getD idx default).last_accessed.getD i 0 ≤ 0) :=
  recency_range Sim.start
    { Sim.start with
      cache_index := 1, cache_blocksize := 1, cache_assoc := 2,
      cache_blockoffsetbits := 2,
      cache := [cache_line_t.fresh 2, cache_line_t.fresh 2] }
    1 1 2 rfl (by decide) (by decide) (by decide) (by decide) (by decide) (by decide)
    [64, 128, 64]

/-- C23. Install on miss.  Let `sc` be reached from `iplc_sim_init` (`1 ≤ k ≤ 127` ways,
`0 ≤ index ≤ 30`, `1 ≤ blocksize ≤ 65536`) by lookups, and let `set` be the index of an
allocated set.  Then `iplc_sim_LRU_replace_on_miss(set, tag)` returns: the way `v` that
`cache_line_select_replace` selects is valid with the new tag afterwards, its recency
`k - 1` is strictly greater than the recency of every other way of the set, the tags and
valid bits of all other ways and the other sets are unchanged; and when no valid way held
the tag before the call (the miss on which `iplc_sim_trap_address` makes the call), `v`
is the only valid way with the new tag. -/
theorem install_on_miss (s0 si sc : Sim) (index blocksize : Int) (k : Nat)
    (hinit : iplc_sim_init s0 index blocksize (k : Int) = .ok si)
    (hk1 : 1 ≤ k) (hk : k ≤ 127) (hi0 : 0 ≤ index) (hi : index ≤ 30)
    (hb1 : 1 ≤ blocksize) (hb : blocksize ≤ 65536) (addrs : List Nat) (hits : List Int)
    (hreach : trap_sequence si addrs = .ok (hits, sc))
    (set : Int) (hset : set.toNat < sc.cache.length) (tag : Int) :
    ∃ v s', cache_line_select_replace sc.cache_assoc (sc.cache.getD set.toNat default)
        = .ok v ∧
      iplc_sim_LRU_replace_on_miss sc set tag = .ok s' ∧ v < k ∧
      (s'.cache.getD set.toNat default).valid.getD v 0 = 1 ∧
      (s'.cache.getD set.toNat default).tag.getD v 0 = tag ∧
      (s'.cache.getD set.toNat default).last_accessed.getD v 0 = (k : Int) - 1 ∧
      (∀ j, j < k → j ≠ v →
        (s'.cache.getD set.toNat default).last_accessed.getD j 0
          < (s'.cache.getD set.toNat default).last_accessed.getD v 0) ∧
      (∀ j, j ≠ v →
        (s'.cache.getD set.toNat default).tag.getD j 0
          = (sc.cache.getD set.toNat default).tag.getD j 0 ∧
        (s'.cache.getD set.toNat default).valid.getD j 0
          = (sc.cache.getD set.toNat default).valid.getD j 0) ∧
      (cache_line_assoc_handler sc.cache_assoc (sc.cache.getD set.toNat default) tag
          = none →
        ∀ j, j < k → (s'.cache.getD set.toNat default).valid.getD j 0 ≠ 0 →
          (s'.cache.getD set.toNat default).tag.getD j 0 = tag → j = v) ∧
      (∀ idx, idx ≠ set.toNat → s'.cache.getD idx default = sc.cache.getD idx default) := by
  obtain ⟨hinv, hf⟩ := reachable_invariants hinit hk1 hk hi0 hi hb1 hb hreach
  obtain ⟨a, ha⟩ := hinv.covers set.toNat hset
  have hl := hinv.lines a
  have hfl := hf a
  rw [ha] at hl hfl
  obtain ⟨v, hv, hvk, _⟩ := lineInv_victim_way hl hk1
  obtain ⟨u1, u2, _, u4⟩ := replace_on_miss_spec k (sc.cache.getD set.toNat default) v tag
    hl.len_la
  have hS : toS8 (k : Int) = k := toS8_of_range (by omega) (by omega)
  have hS1 : toS8 ((k : Int) - 1) = (k : Int) - 1 := toS8_of_range (by omega) (by omega)
  have hline : ∀ s' : Sim, s'.cache = sc.cache.set set.toNat
        ((sc.cache.getD set.toNat default).replace_on_miss (k : Int) v tag) →
      s'.cache.getD set.toNat default
        = (sc.cache.getD set.toNat default).replace_on_miss (k : Int) v tag := by
    intro s' hc
    rw [hc, getD_set_line]
    simp only [hset, and_self, if_true]
  have hv' : cache_line_select_replace sc.cache_assoc (sc.cache.getD set.toNat default)
      = .ok v := by rw [hinv.assoc_eq]; exact hv
  have hrun : iplc_sim_LRU_replace_on_miss sc set tag = .ok { sc with
      cache := sc.cache.set set.toNat
        ((sc.cache.getD set.toNat default).replace_on_miss (k : Int) v tag) } := by
    unfold iplc_sim_LRU_replace_on_miss
    simp only [hv']
    rw [hinv.assoc_eq]
  have hVv : ((sc.cache.getD set.toNat default).replace_on_miss (k : Int) v tag).last_accessed.getD
      v 0 = (k : Int) - 1 := by
    rw [u4]
    simp only [hvk, if_true, hS, hS1]
  have hother : ∀ j, j ≠ v →
      ((sc.cache.getD set.toNat default).replace_on_miss (k : Int) v tag).tag.getD j 0
        = (sc.cache.getD set.toNat default).tag.getD j 0 ∧
      ((sc.cache.getD set.toNat default).replace_on_miss (k : Int) v tag).valid.getD j 0
        = (sc.cache.getD set.toNat default).valid.getD j 0 := by
    intro j hj
    have hn1 : ¬ (v = j ∧ v < (sc.cache.getD set.toNat default).tag.length) :=
      fun h => hj h.1.symm
    have hn2 : ¬ (v = j ∧ v < (sc.cache.getD set.toNat default).valid.length) :=
      fun h => hj h.1.symm
    rw [u1, u2, getD_set_int, getD_set_int]
    simp only [hn1, hn2, if_false, and_self]
  refine ⟨v, _, hv', hrun, hvk, ?_, ?_, ?_, ?_, ?_, ?_, ?_⟩
  · rw [hline _ rfl, u1, getD_set_int]
    simp only [hl.len_valid, hvk, and_self, if_true]
  · rw [hline _ rfl, u2, getD_set_int]
    simp only [hl.len_tag, hvk, and_self, if_true]
  · rw [hline _ rfl]
    exact hVv
  · intro j hj hjv
    rw [hline _ rfl, hVv, u4]
    simp only [hj, if_true, hjv, if_false]
    obtain ⟨r1, r2⟩ := line_recency_range hl hfl hj
    have hd := toS8_of_range
      (x := (sc.cache.getD set.toNat default).last_accessed.getD j 0 - 1)
    by_cases hval : (sc.cache.getD set.toNat default).valid.getD j 0 = 0
    · have := r2 hval
      omega
    · have := r1 hval
      omega
  · intro j hj
    rw [hline _ rfl]
    exact hother j hj
  · intro hnone j hj hvalid htag
    by_contra hjv
    rw [hline _ rfl] at hvalid htag
    obtain ⟨o1, o2⟩ := hother j hjv
    rw [o2] at hvalid
    rw [o1] at htag
    rw [hinv.assoc_eq] at hnone
    exact assoc_handler_none hnone j hj ⟨htag, hvalid⟩
  · intro idx hne
    show (sc.cache.set set.toNat _).getD idx default = _
    rw [getD_set_line]
    have : ¬ (set.toNat = idx ∧ set.toNat < sc.cache.length) := fun h => hne h.1.symm
    simp only [this, if_false]

theorem install_on_miss_witness :
    ∃ v s', cache_line_select_replace (2 : Int)
        ([(⟨[1, 0], [8, 0], [1, -1]⟩ : cache_line_t), cache_line_t.fresh 2].getD
          (0 : Int).toNat default) = .ok v ∧
      iplc_sim_LRU_replace_on_miss { Sim.start with
        cache_index := 1, cache_blocksize := 1, cache_assoc := 2,
        cache_blockoffsetbits := 2,
        cache := [⟨[1, 0], [8, 0], [1, -1]⟩, cache_line_t.fresh 2],
        cache_access := 1, cache_miss := 1 } 0 16 = .ok s' ∧ v < 2 :=
  match install_on_miss Sim.start
      { Sim.start with
        cache_index := 1, cache_blocksize := 1, cache_assoc := 2,
        cache_blockoffsetbits := 2,
        cache := [cache_line_t.fresh 2, cache_line_t.fresh 2] }
      { Sim.start with
        cache_index := 1, cache_blocksize := 1, cache_assoc := 2,
        cache_blockoffsetbits := 2,
        cache := [⟨[1, 0], [8, 0], [1, -1]⟩, cache_line_t.fresh 2],
        cache_access := 1, cache_miss := 1 }
      1 1 2 rfl (by decide) (by decide) (by decide) (by decide) (by decide) (by decide)
      [64] [0] rfl 0 (by decide) 16 with
  | ⟨v, s', h1, h2, h3, _⟩ => ⟨v, s', h1, h2, h3⟩

/-! ## Mnemonics that do not fit the slot -/

/-- The outcome of `iplc_sim_process_pipeline_rtype` and `iplc_sim_process_pipeline_jump`
in the embedding for a mnemonic of 16 bytes or more, in a state where the advance
returns: no state, since the `strcpy` of the source writes past `char instruction[16]`. -/
theorem insert_mnemonic_too_long (s : Sim) (hv : s.has_victims) (instruction : String)
    (hlong : 16 ≤ instruction.utf8ByteSize) :
    (∀ dest_reg reg1 reg2_or_constant,
      iplc_sim_process_pipeline_rtype s instruction dest_reg reg1 reg2_or_constant
        = .error .bufferOverflow) ∧
    iplc_sim_process_pipeline_jump s instruction = .error .bufferOverflow := by
  obtain ⟨s4, h, _⟩ := push_pipeline_stage_ok hv
  have hfit : fits_instruction instruction = false := by
    unfold fits_instruction
    exact decide_eq_false (by omega)
  constructor
  · intro d r1 r2
    simp only [iplc_sim_process_pipeline_rtype, h, hfit, Bool.false_eq_true, if_false]
  · simp only [iplc_sim_process_pipeline_jump, h, hfit, Bool.false_eq_true, if_false]

end IplcSim
